import Mathlib

/-!
# Fracture modifier: shards, islands, sequences and constraints

A shallow embedding of the fracture kernel (`blenkernel/intern/fracture.c`) and
of the fracture modifier (`modifiers/intern/MOD_fracture.c`).

Conventions of the embedding

* C `float`s are exact rationals, C `int`s are unbounded integers (the counters
  and ids of the code stay far away from the machine bounds).
* An array together with its length field is a list (`totvert` is the length of
  `mvert`, and so on); a nullable pointer is an `Option`.
* Functions whose C counterpart can read through a null pointer or index an
  array out of its bounds return an `Option`; `none` stands for that undefined
  behaviour.  Memory lifetime (`MEM_freeN`) is not part of the embedding: a
  shard is a value.
* A pointer to a shard that is linked in `shard_map` is the position of the
  shard in the list.
* The mesh kernels the code calls into (boolean, bisect, the random number
  generator, qsort) are fields of `Kernel`: every statement below holds for
  every choice of them unless it says otherwise.
-/

namespace Fracture

/-! ## Geometry -/

/-- A `float[3]`. -/
abbrev Vec3 := ℚ × ℚ × ℚ

/-- The zero vector, `{0, 0, 0}`. -/
def zero_v3 : Vec3 := (0, 0, 0)

/-- The C helper `sub_v3_v3(r, a)`: `r -= a`. -/
def sub_v3_v3 (r a : Vec3) : Vec3 := (r.1 - a.1, r.2.1 - a.2.1, r.2.2 - a.2.2)

/-- The C helper `len_squared_v3v3(a, b)`: squared Euclidean distance. -/
def len_squared_v3v3 (a b : Vec3) : ℚ :=
  (b.1 - a.1) * (b.1 - a.1) + (b.2.1 - a.2.1) * (b.2.1 - a.2.1)
    + (b.2.2 - a.2.2) * (b.2.2 - a.2.2)

/-- A 4x4 matrix is represented by its action `mul_m4_v3(mat, .)` on points. -/
abbrev Mat4 := Vec3 → Vec3

/-- The C helper `unit_m4`: the identity matrix. -/
def unit_m4 : Mat4 := fun v => v

structure MVert where
  co : Vec3
deriving DecidableEq

structure MPoly where
  loopstart : Int
  totloop : Int
deriving DecidableEq

structure MLoop where
  v : Int
deriving DecidableEq

/-- The vertex, polygon and loop arrays of a `DerivedMesh` or `BMesh`. -/
structure Mesh where
  mvert : List MVert
  mpoly : List MPoly
  mloop : List MLoop
deriving DecidableEq

/-! ## Shards and the FracMesh -/

/-- Modelled from the spec: the shard flag bits INTACT, FRACTURED, SKIP and DELETE
(their numeric values live in a DNA header that is not part of the sources); the
four bits are distinct, so a flag word is four booleans. -/
structure ShardFlag where
  intact : Bool
  fractured : Bool
  skip : Bool
  delete : Bool
deriving DecidableEq

/-- The flag word `SHARD_INTACT`. -/
def SHARD_INTACT : ShardFlag := ⟨true, false, false, false⟩

/-- The flag word `SHARD_FRACTURED` (as left by `flag = 0; flag |= SHARD_FRACTURED`). -/
def SHARD_FRACTURED : ShardFlag := ⟨false, true, false, false⟩

/-- The update `flag &= ~(SHARD_SKIP | SHARD_DELETE)`. -/
def clear_skip_delete (f : ShardFlag) : ShardFlag := { f with skip := false, delete := false }

structure Shard where
  mvert : List MVert
  mpoly : List MPoly
  mloop : List MLoop
  neighbor_ids : List Int
  shard_id : Int
  parent_id : Int
  flag : ShardFlag
  centroid : Vec3
  raw_centroid : Vec3
  raw_volume : ℚ
deriving DecidableEq

namespace Shard

def totvert (s : Shard) : Nat := s.mvert.length

def totpoly (s : Shard) : Nat := s.mpoly.length

def totloop (s : Shard) : Nat := s.mloop.length

def neighbor_count (s : Shard) : Nat := s.neighbor_ids.length

end Shard

structure FracMesh where
  shard_map : List Shard
  shard_count : Int
  cancel : Int
  running : Int
  progress_counter : Int
  /-- The array `last_shards`: pointers to shards of `shard_map`, as positions. -/
  last_shards : Option (List (Option Nat))
  /-- The kd-tree over raw centroids: the point inserted with index `i` is entry `i`. -/
  last_shard_tree : Option (List Vec3)
  last_expected_shards : Int

/-- The C function `BKE_create_fracture_container`. -/
def BKE_create_fracture_container : FracMesh :=
  { shard_map := [], shard_count := 0, cancel := 0, running := 0, progress_counter := 0,
    last_shards := none, last_shard_tree := none, last_expected_shards := 0 }

/-- One face of a voro++ cell: `poly_indices[i]` (its length is `poly_totvert[i]`)
and `neighbors[i]`. -/
structure cell_face where
  indices : List Int
  neighbor : Int
deriving DecidableEq

/-- The voro++ `cell`: `totvert` is the length of `verts`, `totpoly` the number of faces. -/
structure cell where
  verts : List Vec3
  faces : List cell_face
  centroid : Vec3
  volume : ℚ
deriving DecidableEq

namespace cell

def totvert (c : cell) : Nat := c.verts.length

def totpoly (c : cell) : Nat := c.faces.length

def poly_totvert (c : cell) : List Int := c.faces.map (fun f => (f.indices.length : Int))

def neighbors (c : cell) : List Int := c.faces.map (fun f => f.neighbor)

end cell

/-- The external collaborators of the fracture pass. -/
structure Kernel where
  /-- The call `BKE_fracture_shard_boolean(obj, dm_parent, t, ..., NULL, ...)` of the
  BOOLEAN algorithm. -/
  shard_boolean : Option Mesh → Shard → Option Shard
  /-- The call `BKE_fracture_shard_boolean(obj, *dm_p, t, ..., &s2, matrix, ...)` of the
  fractal algorithm: the cutter plane is drawn from the random generator, whose
  state is the last argument; the result is `(s, s2)`. -/
  shard_boolean_fractal : Option Mesh → Shard → Nat → Option Shard × Option Shard
  /-- The call `BKE_fracture_shard_bisect(bm_parent, t, obmat, use_fill, clear_inner,
  clear_outer, cutlimit, centroid, inner_mat_index)`. -/
  shard_bisect : Option Mesh → Shard → Bool → Bool → Bool → Int → Vec3 → Option Shard
  /-- The value of `BLI_frand()` in a given state of the generator. -/
  frand : Nat → ℚ
  /-- The call `BLI_qsort_r(tempresults, n, ..., shard_sortsize, ...)` on the first `n`
  entries. -/
  qsort_r : List (Option Shard) → List (Option Shard)
  /-- The area weighted centroid `BKE_fracture_shard_center_centroid`. -/
  center_centroid : List MVert → List MPoly → List MLoop → Vec3

/-- The C function `BKE_create_fracture_shard` (the `copy` flag only decides who owns
the arrays).  `parent_id`, `raw_volume` are not initialised by the C code and
the neighbour list is empty; they are zero here. -/
def BKE_create_fracture_shard (K : Kernel) (mvert : List MVert) (mpoly : List MPoly)
    (mloop : List MLoop) : Shard :=
  { mvert := mvert, mpoly := mpoly, mloop := mloop, neighbor_ids := [],
    shard_id := -1, parent_id := 0, flag := SHARD_INTACT,
    centroid := K.center_centroid mvert mpoly mloop,
    raw_centroid := K.center_centroid mvert mpoly mloop, raw_volume := 0 }

/-- The C function `BKE_shard_create_dm` / `shard_to_bmesh`: the mesh made of a shard. -/
def BKE_shard_create_dm (s : Shard) : Mesh := ⟨s.mvert, s.mpoly, s.mloop⟩

/-- The search loop of `BKE_shard_by_id`: the position of the first shard with this id. -/
def find_shard_pos (id : Int) : List Shard → Option Nat
  | [] => none
  | s :: rest => if s.shard_id = id then some 0 else (find_shard_pos id rest).map (· + 1)

/-- The result of `BKE_shard_by_id`: a shard linked in the map (with its position)
or a temporary shard that is not linked. -/
structure ShardRef where
  shard : Shard
  pos : Option Nat
deriving DecidableEq

/-- The C function `BKE_shard_by_id`. -/
def BKE_shard_by_id (K : Kernel) (mesh : FracMesh) (id : Int) (dm : Option Mesh) :
    Option ShardRef :=
  if 0 ≤ id then
    match find_shard_pos id mesh.shard_map with
    | some k =>
      match mesh.shard_map[k]? with
      | some s => some ⟨s, some k⟩
      | none => none
    | none => none
  else if id = -1 then
    match dm with
    | some d =>
      let s := BKE_create_fracture_shard K d.mvert d.mpoly d.mloop
      some ⟨{ s with flag := SHARD_INTACT, shard_id := -2 }, none⟩
    | none => none
  else none

/-- The C function `add_shard`: transform by `mat`, append, take the running count as id. -/
def add_shard (fm : FracMesh) (s : Shard) (mat : Mat4) : FracMesh :=
  let s1 : Shard :=
    { s with mvert := s.mvert.map (fun mv => ⟨mat mv.co⟩), centroid := mat s.centroid,
             shard_id := fm.shard_count }
  { fm with shard_map := fm.shard_map ++ [s1], shard_count := fm.shard_count + 1 }

/-! ## Cell parsing -/

/-- The C function `parse_cell_verts`. -/
def parse_cell_verts (c : cell) : List MVert := c.verts.map (fun v => ⟨v⟩)

/-- The loop of `parse_cell_polys`, from running loop total `totloop`. -/
def parse_cell_polys_from (totloop : Int) : List Int → List MPoly
  | [] => []
  | numloop :: rest => ⟨totloop, numloop⟩ :: parse_cell_polys_from (totloop + numloop) rest

/-- The C function `parse_cell_polys`: the polygons and `*r_totloop`. -/
def parse_cell_polys (c : cell) : List MPoly × Int :=
  (parse_cell_polys_from 0 c.poly_totvert, c.poly_totvert.sum)

/-- The inner loop of `parse_cell_loops` for one face, from index `k`:
`mloop[loopstart + (numloop - 1) - k].v = poly_indices[i][k]`. -/
def parse_cell_loops_face (loopstart numloop : Int) : List Int → Nat → List MLoop → List MLoop
  | [], _, mloop => mloop
  | index :: rest, k, mloop =>
    parse_cell_loops_face loopstart numloop rest (k + 1)
      (mloop.set (loopstart + (numloop - 1) - (k : Int)).toNat ⟨index⟩)

/-- The outer loop of `parse_cell_loops` over the polygons and their faces. -/
def parse_cell_loops_from : List MPoly → List cell_face → List MLoop → List MLoop
  | mp :: mpoly, f :: faces, mloop =>
    parse_cell_loops_from mpoly faces (parse_cell_loops_face mp.loopstart mp.totloop f.indices 0 mloop)
  | _, _, mloop => mloop

/-- The C function `parse_cell_loops`, on the zero-initialised array `mloop`. -/
def parse_cell_loops (c : cell) (mloop : List MLoop) (mpoly : List MPoly) : List MLoop :=
  parse_cell_loops_from mpoly c.faces mloop

/-- The C function `parse_cell`. -/
def parse_cell (c : cell) : Shard :=
  { mvert := parse_cell_verts c,
    mpoly := (parse_cell_polys c).1,
    mloop := parse_cell_loops c (List.replicate (parse_cell_polys c).2.toNat ⟨0⟩) (parse_cell_polys c).1,
    neighbor_ids := c.neighbors,
    shard_id := -1, parent_id := 0,
    flag := clear_skip_delete SHARD_INTACT,
    centroid := c.centroid, raw_centroid := c.centroid, raw_volume := c.volume }

/-! ## The diff cache -/

/-- The scan behind `BLI_kdtree_find_nearest`: the best `(index, distance)` so far. -/
def kdtree_nearest_from (co : Vec3) : List Vec3 → Nat → Option (Nat × ℚ) → Option (Nat × ℚ)
  | [], _, best => best
  | pt :: rest, i, none => kdtree_nearest_from co rest (i + 1) (some (i, len_squared_v3v3 pt co))
  | pt :: rest, i, some (bi, bd) =>
    if len_squared_v3v3 pt co < bd then
      kdtree_nearest_from co rest (i + 1) (some (i, len_squared_v3v3 pt co))
    else kdtree_nearest_from co rest (i + 1) (some (bi, bd))

/-- Modelled from the spec: `BLI_kdtree_find_nearest` (the kd-tree library is not part
of the sources) as the exact nearest-point query: the index of the inserted point
at least squared distance from `co`, the lowest such index on a tie, and `none`
(the C result -1) on an empty tree. -/
def BLI_kdtree_find_nearest (tree : List Vec3) (co : Vec3) : Option Nat :=
  (kdtree_nearest_from co tree 0 none).map Prod.fst

/-- The C helper `fill_vn_i(array, size, val)` on an array of `size` ints; a negative
size makes the C loop run off the array. -/
def fill_vn_i (size : Int) (val : Int) : Option (List Int) :=
  if size < 0 then none else some (List.replicate size.toNat val)

/-- A bounds-checked array store `a[i] = v`. -/
def array_set {α : Type} (a : List α) (i : Nat) (v : α) : Option (List α) :=
  if i < a.length then some (a.set i v) else none

/-- The neighbour loop of `do_prepare_cells`: the largest squared distance from the
cell to a neighbouring cell (`neighbors[l] > -1`), starting from `max`. -/
def max_neighbor_dist (cells : List cell) (c : cell) : List Int → ℚ → Option ℚ
  | [], max => some max
  | index :: rest, max =>
    if -1 < index then
      match cells[index.toNat]? with
      | none => none
      | some cn =>
        let dist := len_squared_v3v3 cn.centroid c.centroid
        if dist > max then max_neighbor_dist cells c rest dist
        else max_neighbor_dist cells c rest max
    else max_neighbor_dist cells c rest max

/-- The skip map and the delete map of `do_prepare_cells`. -/
structure DiffMaps where
  skipmap : List Int
  deletemap : List Int
deriving DecidableEq

/-- The body of the matching loop of `do_prepare_cells` for cell `i`. -/
def diff_cell (fm : FracMesh) (tree : List Vec3) (cells : List cell) (i : Nat) (c : cell)
    (m : DiffMaps) : Option DiffMaps :=
  match max_neighbor_dist cells c c.neighbors 0 with
  | none => none
  | some max =>
    match BLI_kdtree_find_nearest tree c.centroid with
    | none => some m
    | some j =>
      match fm.last_shards, tree[j]? with
      | some last_shards, some n_co =>
        match last_shards[j]? with
        | none => none
        | some none => some m
        | some (some pos) =>
          let dist := len_squared_v3v3 n_co c.centroid
          if dist < max then
            if dist < 1 / 100000 then
              match fm.shard_map[pos]? with
              | none => none
              | some t =>
                if |c.volume - t.raw_volume| < 1 / 100000 then
                  match array_set m.skipmap i 1, array_set m.deletemap j 0 with
                  | some sk, some de => some ⟨sk, de⟩
                  | _, _ => none
                else
                  match array_set m.deletemap j 1, array_set m.skipmap i 0 with
                  | some de, some sk => some ⟨sk, de⟩
                  | _, _ => none
            else
              match array_set m.skipmap i 0, array_set m.deletemap j 1 with
              | some sk, some de => some ⟨sk, de⟩
              | _, _ => none
          else some m
      | _, _ => none

/-- The matching loop `for (i = 0; i < expected_shards; i++)` of `do_prepare_cells`,
over the cells from index `i` on. -/
def diff_cells (fm : FracMesh) (tree : List Vec3) (cells : List cell) :
    List cell → Nat → DiffMaps → Option DiffMaps
  | [], _, m => some m
  | c :: rest, i, m =>
    match diff_cell fm tree cells i c m with
    | none => none
    | some m1 => diff_cells fm tree cells rest (i + 1) m1

/-- The skipping pass of `do_prepare_cells`: `tempshards[i]` for every cell. -/
def prepare_tempshards : List cell → List Int → List (Option Shard)
  | c :: cells, sk :: skipmap =>
    (if sk ≠ 0 then none else some (parse_cell c)) :: prepare_tempshards cells skipmap
  | _, _ => []

/-- The deletion loop of `do_prepare_cells` from index `i`: the shard `last_shards[i]`
of every marked entry is unlinked from the map and freed.  The map is kept as
slots, an unlinked shard leaves an empty slot. -/
def delete_shards : List Int → Nat → List (Option Shard) → Option (List (Option Nat)) →
    Option (List (Option Shard) × Option (List (Option Nat)))
  | [], _, slots, last_shards => some (slots, last_shards)
  | d :: rest, i, slots, last_shards =>
    if d ≠ 0 then
      match last_shards with
      | none => none
      | some arr =>
        match arr[i]? with
        | some (some pos) =>
          match slots[pos]? with
          | some (some _) => delete_shards rest (i + 1) (slots.set pos none) (some (arr.set i none))
          | _ => none
        | _ => none
    else delete_shards rest (i + 1) slots last_shards

/-- Modelled from the spec: the algorithm selector `frac_algorithm` (the DNA enum is
not part of the sources). -/
inductive Algorithm where
  | BOOLEAN
  | BOOLEAN_FRACTAL
  | BISECT
  | BISECT_FILL
  | BISECT_FAST
  | BISECT_FAST_FILL
  | NONE
deriving DecidableEq

/-- Modelled from the spec: the fracture mode `fracture_mode` (the DNA enum is not
part of the sources). -/
inductive Mode where
  | PREFRACTURED
  | DYNAMIC
deriving DecidableEq

/-- What `do_prepare_cells` leaves behind. -/
structure Prepared where
  fm : FracMesh
  tempshards : List (Option Shard)
  tempresults : List (Option Shard)
  dm_parent : Option Mesh
  bm_parent : Option Mesh
  centroid : Vec3
  /-- The slots of the incoming map after the deletion loop (`none`: unlinked). -/
  slots : List (Option Shard)

/-- The skip map and the delete map of `do_prepare_cells` when its matching loop is
done (before the skipping pass and the deletion loop). -/
def prepare_maps (fm : FracMesh) (cells : List cell) (algorithm : Algorithm) : Option DiffMaps :=
  let expected_shards : Nat := cells.length
  let skipmap0 : List Int := List.replicate expected_shards 0
  let deletemap0 : List Int := List.replicate fm.shard_count.toNat 0
  let deletemap1 : Option (List Int) :=
    if algorithm = .BISECT_FAST ∨ algorithm = .BISECT_FAST_FILL ∨ algorithm = .BOOLEAN_FRACTAL
    then fill_vn_i fm.shard_count 1 else some deletemap0
  match deletemap1 with
  | none => none
  | some deletemap1 =>
    match fm.last_shard_tree with
    | some tree =>
      let start : Option DiffMaps :=
        if (expected_shards : Int) ≤ fm.last_expected_shards then
          (fill_vn_i fm.shard_count 1).map (fun de => ⟨skipmap0, de⟩)
        else some ⟨List.replicate expected_shards 1, deletemap1⟩
      match start with
      | none => none
      | some m => diff_cells fm tree cells cells 0 m
    | none => some ⟨skipmap0, deletemap1⟩

/-- The C function `do_prepare_cells`; `expected_shards` is the number of cells. -/
def do_prepare_cells (fm : FracMesh) (cells : List cell) (algorithm : Algorithm) (p : Shard)
    (centroid : Vec3) : Option Prepared :=
  let expected_shards : Nat := cells.length
  let dm_parent : Option Mesh :=
    if algorithm = .BOOLEAN ∨ algorithm = .BOOLEAN_FRACTAL then some (BKE_shard_create_dm p)
    else none
  let is_bisect : Bool :=
    algorithm = .BISECT ∨ algorithm = .BISECT_FILL ∨ algorithm = .BISECT_FAST
      ∨ algorithm = .BISECT_FAST_FILL
  let bm_parent : Option Mesh := if is_bisect then some (BKE_shard_create_dm p) else none
  let centroid1 : Vec3 := if is_bisect then p.centroid else centroid
  match prepare_maps fm cells algorithm with
  | none => none
  | some m =>
    -- the skipping pass stops at once when the job is cancelled
    let tempshards : List (Option Shard) :=
      if fm.cancel = 1 then List.replicate expected_shards none
      else prepare_tempshards cells m.skipmap
    let progress : Int :=
      if fm.cancel = 1 then fm.progress_counter else fm.progress_counter + expected_shards
    match delete_shards m.deletemap 0 (fm.shard_map.map some) fm.last_shards with
    | none => none
    | some (slots, last_shards) =>
      some { fm := { fm with shard_map := slots.reduceOption, last_shards := last_shards,
                             progress_counter := progress,
                             last_expected_shards := expected_shards },
             tempshards := tempshards,
             tempresults := List.replicate expected_shards none,
             dm_parent := dm_parent, bm_parent := bm_parent, centroid := centroid1,
             slots := slots }

/-! ## Refinement of the parsed cells -/

/-- The C cast `(int)x` of a float: truncation towards zero. -/
def float_to_int (x : ℚ) : Int := if 0 ≤ x then Rat.floor x else -Rat.floor (-x)

/-- A shard is invalid for the refinement loops when it has no vertex, loop or polygon. -/
def Shard.invalid (t : Shard) : Bool := t.totvert = 0 ∨ t.totloop = 0 ∨ t.totpoly = 0

/-- The assignments `s->parent_id = parent_id; s->flag = SHARD_INTACT`. -/
def Shard.tag (s : Shard) (parent_id : Int) : Shard :=
  { s with parent_id := parent_id, flag := SHARD_INTACT }

/-- The call `BLI_qsort_r(*tempresults, n, ...)`: only the first `n` entries are sorted. -/
def qsort_first (K : Kernel) (n : Nat) (tempresults : List (Option Shard)) :
    List (Option Shard) :=
  K.qsort_r (tempresults.take n) ++ tempresults.drop n

/-- The loop `while ((*tempresults)[j] == NULL && j < n) j++` from `j = 0`: the number
of leading null entries among the first `n`. -/
def skip_invalid (n : Nat) (tempresults : List (Option Shard)) : Nat :=
  ((tempresults.take n).takeWhile (fun x => x.isNone)).length

/-- The state the loop of `handle_fast_bisect` works on. -/
structure FastState where
  fm : FracMesh
  tempshards : List (Option Shard)
  tempresults : List (Option Shard)
  bm_parent : Option Mesh
  centroid : Vec3
  rng : Nat

/-- The loop of `handle_fast_bisect` at index `i`, with `left` iterations of the `for`
remaining (`i + left = expected_shards`). -/
def handle_fast_bisect_loop (K : Kernel) (expected_shards : Nat) (algorithm : Algorithm)
    (parent_id : Int) : Nat → Nat → FastState → Option FastState
  | 0, _, st => some st
  | left + 1, i, st =>
    if st.fm.cancel = 1 then some st
    else
      match st.tempshards[i]? with
      | none => none
      | some none => some st
      | some (some t0) =>
        let t := t0.tag parent_id
        let st1 := { st with tempshards := st.tempshards.set i (some t) }
        if t.invalid then some st1
        else
          let index0 := float_to_int (K.frand st.rng * (((t.totpoly : Int) - 1 : Int) : ℚ))
          let index := if index0 = 0 then 1 else index0
          let fill : Bool := algorithm = .BISECT_FAST_FILL
          let s := K.shard_bisect st.bm_parent t fill false true index st.centroid
          let s2 := K.shard_bisect st.bm_parent t fill true false index st.centroid
          match s, s2 with
          | some s, some s2 =>
            match array_set st.tempresults i (some (s.tag parent_id)) with
            | none => none
            | some r1 =>
              match array_set r1 (i + 1) (some (s2.tag parent_id)) with
              | none => none
              | some r2 =>
                let r3 := qsort_first K (i + 1) r2
                let j := skip_invalid (i + 1) r3
                let fm1 := { st.fm with progress_counter := st.fm.progress_counter + 1 }
                let next : Option FastState :=
                  if i + 2 < expected_shards then
                    match r3[j]? with
                    | some (some sj) =>
                      some { st1 with fm := fm1, tempresults := r3.set j none,
                                      bm_parent := some (BKE_shard_create_dm sj),
                                      centroid := sj.centroid, rng := st.rng + 1 }
                    | _ => none
                  else some { st1 with fm := fm1, tempresults := r3, bm_parent := none,
                                       rng := st.rng + 1 }
                match next, left with
                | none, _ => none
                | some st2, 0 => some st2
                | some st2, left1 + 1 =>
                  handle_fast_bisect_loop K expected_shards algorithm parent_id left1 (i + 2) st2
          | _, _ =>
            handle_fast_bisect_loop K expected_shards algorithm parent_id left (i + 1)
              { st1 with rng := st.rng + 1 }

/-- The C function `handle_fast_bisect`. -/
def handle_fast_bisect (K : Kernel) (expected_shards : Nat) (algorithm : Algorithm)
    (parent_id : Int) (st : FastState) : Option FastState :=
  handle_fast_bisect_loop K expected_shards algorithm parent_id expected_shards 0 st

/-- The outcome of the retry loop of `handle_boolean_fractal`. -/
structure FractalCut where
  s : Option Shard
  s2 : Option Shard
  /-- The loop was left through `(*i)++; break`. -/
  gave_up : Bool
  rng : Nat
  /-- The number of calls of the boolean cut. -/
  attempts : Nat

/-- The loop `while (s == NULL || s2 == NULL)` of `handle_boolean_fractal`, entered with
`s == NULL`; `left` is `max_retries - index`.  Each attempt draws six random
numbers for the cutter plane. -/
def fractal_retry (K : Kernel) (dm_p : Option Mesh) (t : Shard) : Nat → Nat → Nat → FractalCut
  | 0, rng, n =>
    let r := K.shard_boolean_fractal dm_p t rng
    ⟨r.1, r.2, r.1.isNone || r.2.isNone, rng + 6, n + 1⟩
  | left + 1, rng, n =>
    let r := K.shard_boolean_fractal dm_p t rng
    if r.1.isNone || r.2.isNone then fractal_retry K dm_p t left (rng + 6) (n + 1)
    else ⟨r.1, r.2, false, rng + 6, n + 1⟩

/-- The retry limit `max_retries` of `handle_boolean_fractal`. -/
def max_retries : Nat := 20

/-- The state the loop over `handle_boolean_bisect` works on. -/
structure RefineState where
  fm : FracMesh
  tempshards : List (Option Shard)
  tempresults : List (Option Shard)
  dm_p : Option Mesh
  rng : Nat

/-- The C function `handle_boolean_fractal` (called with `s == NULL`): the new value of
`*i`, of `*tempresults`, of `*dm_p` and of the random generator. -/
def handle_boolean_fractal (K : Kernel) (t : Shard) (expected_shards : Nat)
    (dm_parent : Option Mesh) (parent_id : Int) (i : Nat) (tempresults : List (Option Shard))
    (dm_p : Option Mesh) (rng : Nat) :
    Option (Nat × List (Option Shard) × Option Mesh × Nat) :=
  let dm_p1 := if i = 0 then dm_parent else dm_p
  let cut := fractal_retry K dm_p1 t max_retries rng 0
  let i1 := if cut.gave_up then i + 1 else i
  match cut.s, cut.s2 with
  | some s, some s2 =>
    match array_set tempresults (i1 + 1) (some (s.tag parent_id)) with
    | none => none
    | some r1 =>
      match array_set r1 i1 (some (s2.tag parent_id)) with
      | none => none
      | some r2 =>
        let r3 := qsort_first K (i1 + 1) r2
        let j := skip_invalid (i1 + 1) r3
        if i1 + 2 < expected_shards then
          match r3[j]? with
          | some (some pj) => some (i1 + 1, r3.set j none, some (BKE_shard_create_dm pj), cut.rng)
          | _ => none
        else some (i1 + 1, r3, dm_p1, cut.rng)
  | _, _ => some (i1, tempresults, dm_p1, cut.rng)

/-- The C function `handle_boolean_bisect`: the returned flag (stop), the new value of
`*i` and the new state. -/
def handle_boolean_bisect (K : Kernel) (expected_shards : Nat) (algorithm : Algorithm)
    (parent_id : Int) (dm_parent bm_parent : Option Mesh) (i : Nat) (st : RefineState) :
    Option (Bool × Nat × RefineState) :=
  if st.fm.cancel = 1 then some (true, i, st)
  else
    match st.tempshards[i]? with
    | none => none
    | some none => some (true, i, st)
    | some (some t0) =>
      let t := t0.tag parent_id
      let st1 := { st with tempshards := st.tempshards.set i (some t) }
      if t.invalid then some (true, i, st1)
      else
        let count (x : RefineState) : RefineState :=
          { x with fm := { x.fm with progress_counter := x.fm.progress_counter + 1 } }
        if algorithm = .BOOLEAN_FRACTAL then
          match handle_boolean_fractal K t expected_shards dm_parent parent_id i st1.tempresults
              st1.dm_p st1.rng with
          | none => none
          | some (i1, r, dm_p, rng) =>
            some (false, i1, count { st1 with tempresults := r, dm_p := dm_p, rng := rng })
        else
          let s : Option Shard :=
            if algorithm = .BOOLEAN then K.shard_boolean dm_parent t
            else if algorithm = .BISECT ∨ algorithm = .BISECT_FILL then
              K.shard_bisect bm_parent t (algorithm = .BISECT_FILL) false true 0 zero_v3
            -- s = t: the entry of tempresults is the pointer tempshards[i] itself, see
            -- `linked_shard_freed`
            else some t
          match s with
          | some s =>
            match array_set st1.tempresults i (some (s.tag parent_id)) with
            | none => none
            | some r => some (false, i, count { st1 with tempresults := r })
          | none => some (false, i, count st1)

/-- The loop `for (i = 0; i < expected_shards; i++) handle_boolean_bisect(..., &i, ...)` of
`parse_cells` at index `i`, with `left` iterations remaining; the flag returned by
`handle_boolean_bisect` is not looked at. -/
def refine_loop (K : Kernel) (expected_shards : Nat) (algorithm : Algorithm) (parent_id : Int)
    (dm_parent bm_parent : Option Mesh) : Nat → Nat → RefineState → Option RefineState
  | 0, _, st => some st
  | left + 1, i, st =>
    match handle_boolean_bisect K expected_shards algorithm parent_id dm_parent bm_parent i st with
    | none => none
    | some (_, i1, st1) =>
      if i1 = i then
        refine_loop K expected_shards algorithm parent_id dm_parent bm_parent left (i + 1) st1
      else
        match left with
        | 0 => some st1
        | left1 + 1 =>
          refine_loop K expected_shards algorithm parent_id dm_parent bm_parent left1 (i1 + 1) st1

/-! ## The fracture pass -/

/-- An update through a pointer to the last element of a list. -/
def modify_last {α : Type} (f : α → α) : List α → List α
  | [] => []
  | [a] => [f a]
  | a :: b :: l => a :: modify_last f (b :: l)

/-- The value an `int` holds after an addition whose exact result is `x`: the result
modulo 2^32, in the range from -2^31 to 2^31 - 1. -/
def wrap_int (x : Int) : Int :=
  (x + 2147483648) % 4294967296 - 2147483648

/-- What the adding loop of `parse_cells` does to a shard after `add_shard`:
`s->shard_id += j+1; s->parent_id = parent_id;` (the two additions in `int`) and, for
`parent_id > -1`, the translation of the centroid and of every vertex by `-pcentroid`. -/
def finish_shard (j : Int) (parent_id : Int) (pcentroid : Vec3) (s : Shard) : Shard :=
  if -1 < parent_id then
    { s with shard_id := wrap_int (s.shard_id + wrap_int (j + 1)), parent_id := parent_id,
             centroid := sub_v3_v3 s.centroid pcentroid,
             mvert := s.mvert.map (fun v => ⟨sub_v3_v3 v.co pcentroid⟩) }
  else { s with shard_id := wrap_int (s.shard_id + wrap_int (j + 1)), parent_id := parent_id }

/-- The adding loop `for (i = 0; i < expected_shards; i++)` at the end of `parse_cells`,
over `tempresults`. -/
def add_results (mat : Mat4) (j : Int) (parent_id : Int) (pcentroid : Vec3) :
    List (Option Shard) → FracMesh → FracMesh
  | [], fm => fm
  | none :: rest, fm => add_results mat j parent_id pcentroid rest fm
  | some s :: rest, fm =>
    let fm1 := add_shard fm s mat
    add_results mat j parent_id pcentroid rest
      { fm1 with shard_map := modify_last (finish_shard j parent_id pcentroid) fm1.shard_map }

/-- The offset `j` of the adding loop of `parse_cells`: `j = 1; j += last->shard_id` in
dynamic mode (an addition in `int`). -/
def id_offset (mode : Mode) (shard_map : List Shard) : Int :=
  if mode = .DYNAMIC then
    match shard_map.getLast? with
    | some last => wrap_int (1 + last.shard_id)
    | none => 1
  else 0

/-- The state of `parse_cells` when it calls `do_prepare_cells`. -/
structure PassSetup where
  fm : FracMesh
  /-- The parent shard `p`. -/
  p : Shard
  /-- The position of `p` in the map while it is linked there. -/
  pos : Option Nat
  parent_id : Int
  pcentroid : Vec3

/-- The step `if (reset)` of `parse_cells`: every shard is unlinked from the map. -/
def reset_shard_map (fm : FracMesh) (reset : Bool) : FracMesh :=
  if reset then { fm with shard_map := [] } else fm

/-- The diff cache of `parse_cells`: rebuilt from the map in an incremental prefractured
pass (the kd-tree only for the algorithms that use it), dropped otherwise. -/
def rebuild_last_shards (fm1 : FracMesh) (algorithm : Algorithm) (mode : Mode) (reset : Bool) :
    FracMesh :=
  let do_tree : Bool :=
    algorithm ≠ .BISECT_FAST ∧ algorithm ≠ .BISECT_FAST_FILL ∧ algorithm ≠ .BOOLEAN_FRACTAL
  if mode = .PREFRACTURED ∧ reset = false then
    if fm1.last_shard_tree.isNone ∧ 0 < fm1.shard_count then
      let map := fm1.shard_map.map (fun t => { t with flag := clear_skip_delete t.flag })
      { fm1 with shard_map := map, shard_count := map.length,
                 last_shard_tree :=
                   if do_tree then some (map.map (fun t => t.raw_centroid)) else none,
                 last_shards := some ((List.range map.length).map some) }
    else fm1
  else { fm1 with last_shard_tree := none, last_shards := none }

/-- The step `p->flag = 0; p->flag |= SHARD_FRACTURED` of `parse_cells`, as far as it
reaches the map: `p` is linked at position `pos`. -/
def mark_fractured (fm2 : FracMesh) (pos : Option Nat) : FracMesh :=
  match pos with
  | some k =>
    { fm2 with shard_map := fm2.shard_map.modify (fun t => { t with flag := SHARD_FRACTURED }) k }
  | none => fm2

/-- The step `BLI_remlink(&fm->shard_map, p); fm->shard_count--` of the dynamic mode. -/
def unlink_parent (fm3 : FracMesh) (pos : Option Nat) : FracMesh :=
  { fm3 with shard_map := (match pos with
                           | some k => fm3.shard_map.eraseIdx k
                           | none => fm3.shard_map),
             shard_count := fm3.shard_count - 1 }

/-- The part of `parse_cells` between the lookup of the parent `p` and the call of
`do_prepare_cells`: reset, the diff cache, the flag of the parent and, in dynamic
mode, the removal of the parent from the map.  It describes the runs in which the parent
is not misused (`parent_misused`); `parse_cells` has no result for the others. -/
def parse_cells_setup (fm : FracMesh) (p0 : ShardRef) (parent_id : Int) (algorithm : Algorithm)
    (mode : Mode) (reset : Bool) : PassSetup :=
  let fm1 : FracMesh := reset_shard_map fm reset
  -- after a reset no shard is linked any more (`parse_cells` gets here with a reset only
  -- for a parent that never was linked, see `parent_misused`)
  let pos1 : Option Nat := if reset then none else p0.pos
  let fm2 : FracMesh := rebuild_last_shards fm1 algorithm mode reset
  let p1 : Shard := { p0.shard with flag := SHARD_FRACTURED }
  let fm3 : FracMesh := mark_fractured fm2 pos1
  if mode = .DYNAMIC then
    { fm := unlink_parent fm3 pos1, p := { p1 with shard_id := -2 }, pos := none,
      parent_id := p1.shard_id, pcentroid := p1.centroid }
  else { fm := fm3, p := p1, pos := pos1, parent_id := parent_id, pcentroid := zero_v3 }

/-- The refinement step of `parse_cells`, between `do_prepare_cells` and the adding loop:
the loop over `handle_boolean_bisect`, or `handle_fast_bisect` (a single cell
hands the parent itself on).  The result is the FracMesh and `tempresults`. -/
def refine_cells (K : Kernel) (expected_shards : Nat) (algorithm : Algorithm) (su : PassSetup)
    (pre : Prepared) (rng : Nat) : Option (FracMesh × List (Option Shard)) :=
  -- the diff cache is freed first
  let fm5 : FracMesh := { pre.fm with last_shard_tree := none, last_shards := none }
  let p_linked : Bool :=
    match su.pos with
    | some k => (match pre.slots[k]? with
                 | some (some _) => true
                 | _ => false)
    | none => false
  if algorithm ≠ .BISECT_FAST ∧ algorithm ≠ .BISECT_FAST_FILL then
    (refine_loop K expected_shards algorithm su.parent_id pre.dm_parent pre.bm_parent
      expected_shards 0 ⟨fm5, pre.tempshards, pre.tempresults, none, rng⟩).map
      (fun st => (st.fm, st.tempresults))
  else if expected_shards = 1 then
    -- tempresults[0] = p; p->shard_id = -1: appending a shard that is still linked in the
    -- map corrupts the list
    if p_linked then none
    else some (fm5, pre.tempresults.set 0 (some { su.p with shard_id := -1 }))
  else
    (handle_fast_bisect K expected_shards algorithm su.parent_id
      ⟨fm5, pre.tempshards, pre.tempresults, pre.bm_parent, pre.centroid, rng⟩).map
      (fun st => (st.fm, st.tempresults))

/-- The end of `parse_cells`: `shard_count` restarts at zero, the results are added and an
all-skipped pass gets the length of the map as its count. -/
def finish_pass (mat : Mat4) (mode : Mode) (su : PassSetup) (fm6 : FracMesh)
    (tempresults : List (Option Shard)) : FracMesh :=
  let fm7 : FracMesh := { fm6 with shard_count := 0 }
  let j : Int := id_offset mode fm7.shard_map
  let fm8 := add_results mat j su.parent_id su.pcentroid tempresults fm7
  if fm8.shard_count = 0 then { fm8 with shard_count := fm8.shard_map.length } else fm8

/-- Whether `parse_cells` uses its parent `p` in a way C leaves undefined.  With `reset`,
a parent that is linked in the map is freed with the map (`BKE_shard_free(t, true)` in the
reset loop), and `p->flag = 0` writes to it afterwards.  In dynamic mode,
`BLI_remlink(&fm->shard_map, p)` reads `p->next` and `p->prev`, which the temporary parent
of `BKE_shard_by_id` (from `MEM_mallocN`, never linked) does not have set. -/
def parent_misused (p0 : ShardRef) (mode : Mode) (reset : Bool) : Bool :=
  (reset && p0.pos.isSome) || (decide (mode = .DYNAMIC) && p0.pos.isNone)

/-- Whether the adding loop of `parse_cells` frees a shard it has just linked.  With the
algorithm NONE, `handle_boolean_bisect` stores the pointer `t = tempshards[i]` itself in
`tempresults[i]` (`s = t`); the adding loop passes it to `add_shard`, which links it into
the map, and then frees it as `tempshards[i]` (`BKE_shard_free(t, false)`) in the same
iteration: the map is left with a freed shard, which the next `add_shard` writes to. -/
def linked_shard_freed (algorithm : Algorithm) (tempresults : List (Option Shard)) : Bool :=
  decide (algorithm = .NONE) && tempresults.any Option.isSome

/-- The C function `parse_cells`; `expected_shards` is the number of cells and `rng` the
state of the random generator at the call. -/
def parse_cells (K : Kernel) (cells : List cell) (parent_id : Int) (fm : FracMesh)
    (algorithm : Algorithm) (dm : Option Mesh) (mat : Mat4) (mode : Mode) (reset : Bool)
    (rng : Nat) : Option FracMesh :=
  match BKE_shard_by_id K fm parent_id dm with
  | none => some { fm with last_shard_tree := none, last_shards := none }
  | some p0 =>
    if parent_misused p0 mode reset then none
    else
      let su := parse_cells_setup fm p0 parent_id algorithm mode reset
      match do_prepare_cells su.fm cells algorithm su.p zero_v3 with
      | none => none
      | some pre =>
        match refine_cells K cells.length algorithm su pre rng with
        | none => none
        | some (fm6, tempresults) =>
          if linked_shard_freed algorithm tempresults then none
          else some (finish_pass mat mode su fm6 tempresults)

/-- The C function `BKE_fracture_shard_by_points`, from the cells voro++ computed for the
point cloud (one cell per point) on. -/
def BKE_fracture_shard_by_points (K : Kernel) (fmesh : FracMesh) (id : Int) (cells : List cell)
    (algorithm : Algorithm) (dm : Option Mesh) (mat : Mat4) (mode : Mode) (reset : Bool)
    (rng : Nat) : Option FracMesh :=
  match BKE_shard_by_id K fmesh id dm with
  | none => some fmesh
  | some shard =>
    if shard.shard.flag.fractured then some fmesh
    else parse_cells K cells id fmesh algorithm dm mat mode reset rng

/-! ## The shard and island sequences of dynamic fracture -/

/-- An address: the sequences only copy their payloads (the `ListBase` of islands, the
`FracMesh` pointer, the cached mesh pointer) around. -/
abbrev Ptr := Nat

structure MeshIslandSequence where
  frame : Int
  is_new : Bool
  meshIslands : Ptr
  visible_dm : Ptr
deriving DecidableEq

structure ShardSequence where
  frame : Int
  is_new : Bool
  frac_mesh : Ptr
deriving DecidableEq

/-- The part of `FractureModifierData` the sequence functions work on.  Each doubly
linked chain is the list of its entries, a pointer to an entry is its position. -/
structure FractureModifierData where
  meshIsland_sequence : List MeshIslandSequence
  shard_sequence : List ShardSequence
  current_mi_entry : Option Nat
  current_shard_entry : Option Nat
  meshIslands : Ptr
  frac_mesh : Ptr
  visible_mesh_cached : Ptr
  last_frame : Int
  /-- The scene flag `RBW_FLAG_REFRESH_MODIFIERS`. -/
  refresh_modifiers : Bool
  /-- The scene flag `RBW_FLAG_OBJECT_CHANGED`. -/
  object_changed : Bool
deriving DecidableEq

/-- The three assignments both `BKE_get_next_entries` and `BKE_get_prev_entries` end with,
after the current pointers moved to positions `k` and `ks`. -/
def load_entries (fmd : FractureModifierData) (k ks : Nat) : Option FractureModifierData :=
  match fmd.meshIsland_sequence[k]?, fmd.shard_sequence[ks]? with
  | some mi, some sh =>
    some { fmd with current_mi_entry := some k, current_shard_entry := some ks,
                    meshIslands := mi.meshIslands, frac_mesh := sh.frac_mesh,
                    visible_mesh_cached := mi.visible_dm }
  | _, _ => none

/-- The C function `BKE_get_next_entries`. -/
def BKE_get_next_entries (fmd : FractureModifierData) : Option FractureModifierData :=
  match fmd.current_mi_entry with
  | none => none
  | some k =>
    if k + 1 < fmd.meshIsland_sequence.length then
      match fmd.current_shard_entry with
      | none => none
      | some ks => load_entries fmd (k + 1) (ks + 1)
    else some fmd

/-- The C function `BKE_get_prev_entries`. -/
def BKE_get_prev_entries (fmd : FractureModifierData) : Option FractureModifierData :=
  match fmd.current_mi_entry with
  | none => none
  | some 0 => some fmd
  | some (k + 1) =>
    match fmd.current_shard_entry with
    | some (ks + 1) => load_entries fmd k ks
    | _ => none

/-- The backward loop of `BKE_lookup_mesh_state`, with the current island entry at
position `k`: `while (prev != NULL && frame <= prev->frame)`.  (The call of
`BKE_free_constraints` in the loop does not touch the sequences.) -/
def lookup_backward (frame : Int) : Nat → FractureModifierData → Bool →
    Option (Bool × FractureModifierData)
  | 0, fmd, changed => some (changed, fmd)
  | k + 1, fmd, changed =>
    match fmd.meshIsland_sequence[k]? with
    | none => none
    | some prev =>
      if frame ≤ prev.frame then
        match BKE_get_prev_entries fmd with
        | none => none
        | some fmd1 => lookup_backward frame k fmd1 true
      else some (changed, fmd)

/-- The forward loop of `BKE_lookup_mesh_state`, with the current island entry at position
`k` and `left` entries after it: `while (next != NULL && next->is_new == false &&
frame > current->frame)`. -/
def lookup_forward (frame : Int) : Nat → Nat → FractureModifierData → Bool →
    Option (Bool × FractureModifierData)
  | 0, _, fmd, changed => some (changed, fmd)
  | left + 1, k, fmd, changed =>
    match fmd.meshIsland_sequence[k]?, fmd.meshIsland_sequence[k + 1]? with
    | some cur, some next =>
      if next.is_new = false ∧ cur.frame < frame then
        match BKE_get_next_entries fmd with
        | none => none
        | some fmd1 => lookup_forward frame left (k + 1) fmd1 true
      else some (changed, fmd)
    | _, _ => none

/-- The C function `BKE_lookup_mesh_state`: the returned flag and the new state. -/
def BKE_lookup_mesh_state (fmd : FractureModifierData) (frame : Int) (do_lookup : Bool) :
    Option (Bool × FractureModifierData) :=
  match fmd.current_mi_entry with
  | none => some (false, fmd)
  | some k =>
    match fmd.meshIsland_sequence[k]? with
    | none => none
    | some _ =>
      let backward : Bool := decide (frame < fmd.last_frame) && decide (0 < k)
      let forward : Bool :=
        decide (fmd.last_frame < frame) &&
          (match fmd.meshIsland_sequence[k + 1]? with
           | some next => !next.is_new
           | none => false)
      if do_lookup then
        if backward then lookup_backward frame k fmd false
        else if forward then
          lookup_forward frame (fmd.meshIsland_sequence.length - 1 - k) k fmd false
        else some (false, fmd)
      else if forward || backward then
        some (true, { fmd with refresh_modifiers := true, object_changed := true })
      else some (false, fmd)

/-! ## Constraint synthesis -/

/-- A rigid body constraint between the islands at positions `mi1` and `mi2`. -/
structure RigidBodyShardCon where
  mi1 : Nat
  mi2 : Nat
  type : Int
  breaking_threshold : ℚ
  /-- The flag `RBC_FLAG_USE_BREAKING`. -/
  use_breaking : Bool
  /-- The flag `RBC_FLAG_DISABLE_COLLISIONS`. -/
  disable_collisions : Bool
deriving DecidableEq

/-- Modelled from the spec: the rigid body types `RBO_TYPE_ACTIVE` and
`RBO_TYPE_PASSIVE` (the DNA enum is not part of the sources). -/
inductive RigidBodyType where
  | ACTIVE
  | PASSIVE
deriving DecidableEq

/-- The fields of `MeshIsland` the island creation, the clustering and the constraint
synthesis read and write; `participating_constraint_count` is the length of
`participating_constraints` and `vertex_count` the length of `vertex_indices`. -/
structure MeshIsland where
  id : Int
  setting_id : Int
  particle_index : Int
  thresh_weight : ℚ
  ground_weight : ℚ
  centroid : Vec3
  /-- Whether `mi->rigidbody` is set. -/
  rigidbody : Bool
  vertex_indices : List Int
  participating_constraints : List RigidBodyShardCon
  /-- The field `mi->rigidbody->type`. -/
  rigidbody_type : RigidBodyType := .ACTIVE
deriving DecidableEq

/-- Modelled from the spec: the target mode `constraint_target` (the DNA enum is not part
of the sources). -/
inductive Target where
  | CENTROID
  | VERTEX
deriving DecidableEq

structure ConstraintSetting where
  /-- The flag `FMC_FLAG_USE_CONSTRAINTS`. -/
  use_constraints : Bool
  /-- The flag `FMC_FLAG_USE_BREAKING`. -/
  use_breaking : Bool
  cluster_count : Int
  cluster_breaking_threshold : ℚ
  cluster_constraint_type : Int
  breaking_threshold : ℚ
  constraint_limit : Int
  contact_dist : ℚ
  constraint_target : Target
  /-- The id of `partner1`. -/
  partner1_id : Int
  /-- The id of `partner2`. -/
  partner2_id : Int
  meshConstraints : List RigidBodyShardCon

/-- The part of the modifier the constraint synthesis works on.  A pointer to an island
is its position in `islands`. -/
structure ConstraintData where
  constraint : ConstraintSetting
  /-- Whether `thresh_defgrp_name[0]` is set. -/
  thresh_defgrp : Bool
  origmat : Mat4
  /-- The hash `vertex_island_map`: vertex index to island. -/
  vertex_island_map : Nat → Option Nat
  /-- The vertex coordinates of `visible_mesh_cached`. -/
  visible_verts : List Vec3
  islands : List MeshIsland

/-- The rigid body and kd-tree calls of the constraint synthesis. -/
structure RigidBodyKernel where
  /-- The constant `RBC_TYPE_FIXED`. -/
  RBC_TYPE_FIXED : Int
  /-- The call `BKE_rigidbody_create_shard_constraint(scene, type)`; the endpoints of the
  result are not set yet. -/
  create_shard_constraint : Int → RigidBodyShardCon
  /-- The call `BLI_kdtree_range_search(combined_tree, co, &n3, dist)`: the indices of the
  hits, in the order of the result array. -/
  range_search : Vec3 → ℚ → List Nat

/-- The C function `check_mapping`. -/
def check_mapping (fmd : ConstraintData) (id : Int) : Bool :=
  fmd.constraint.partner1_id = id ∨ fmd.constraint.partner2_id = id

/-- The append of `rbsc` to `mi->participating_constraints` in `do_constraint`. -/
def add_participating (islands : List MeshIsland) (mi : Nat) (rbsc : RigidBodyShardCon) :
    List MeshIsland :=
  islands.modify
    (fun m => { m with participating_constraints := m.participating_constraints ++ [rbsc] }) mi

/-- The constraint `rbsc` that `do_constraint` sets up between the islands `a` (at
position `mi1`) and `b` (at position `mi2`). -/
def shard_constraint (R : RigidBodyKernel) (fmd : ConstraintData) (a b : MeshIsland)
    (mi1 mi2 : Nat) (con_type : Int) (thresh : ℚ) : RigidBodyShardCon :=
  let c0 := R.create_shard_constraint con_type
  let c1 : RigidBodyShardCon :=
    { c0 with mi1 := mi1, mi2 := mi2,
              use_breaking :=
                if thresh = 0 ∨ fmd.constraint.use_breaking = false then false
                else c0.use_breaking,
              disable_collisions := true }
  let c2 : RigidBodyShardCon :=
    if a.setting_id = b.setting_id then
      if a.particle_index ≠ -1 ∧ b.particle_index ≠ -1
          ∧ a.particle_index = b.particle_index then
        if 1 < fmd.constraint.cluster_count then
          { c1 with breaking_threshold := fmd.constraint.cluster_breaking_threshold }
        else { c1 with breaking_threshold := thresh }
      else if a.particle_index ≠ -1 ∧ b.particle_index ≠ -1
          ∧ a.particle_index ≠ b.particle_index then
        { c1 with type := fmd.constraint.cluster_constraint_type,
                  breaking_threshold := thresh }
      else { c1 with breaking_threshold := thresh }
    else c1
  if fmd.thresh_defgrp then
    { c2 with breaking_threshold := thresh * min a.thresh_weight b.thresh_weight }
  else c2

/-- The C function `do_constraint`. -/
def do_constraint (R : RigidBodyKernel) (fmd : ConstraintData) (mi1 mi2 : Nat) (con_type : Int)
    (thresh : ℚ) : Option ConstraintData :=
  match fmd.islands[mi1]?, fmd.islands[mi2]? with
  | some a, some b =>
    if !check_mapping fmd a.setting_id || !check_mapping fmd b.setting_id then some fmd
    else
      let rbsc := shard_constraint R fmd a b mi1 mi2 con_type thresh
      some { fmd with
        constraint :=
          { fmd.constraint with meshConstraints := fmd.constraint.meshConstraints ++ [rbsc] },
        islands := add_participating (add_participating fmd.islands mi1 rbsc) mi2 rbsc }
  | _, _ => none

/-- The two search loops of `connect_meshislands`: is there a constraint in the list of
`a` with `other` as an endpoint. -/
def con_found_in (a : MeshIsland) (other : Nat) : Bool :=
  a.participating_constraints.any (fun con => con.mi1 = other ∨ con.mi2 = other)

/-- The C function `connect_meshislands`. -/
def connect_meshislands (R : RigidBodyKernel) (fmd : ConstraintData) (mi1 mi2 : Option Nat)
    (con_type : Int) (thresh : ℚ) : Option ConstraintData :=
  match mi1, mi2 with
  | some i1, some i2 =>
    match fmd.islands[i1]?, fmd.islands[i2]? with
    | some a, some b =>
      let ok : Bool := a.rigidbody && b.rigidbody && fmd.constraint.use_constraints
      if ok then
        let con_found : Bool := con_found_in a i2 || con_found_in b i1
        if !con_found then do_constraint R fmd i1 i2 con_type thresh else some fmd
      else some fmd
    | _, _ => none
  | _, _ => some fmd

/-- The loop of `search_tree_based` over the hits of the range search, from hit `i` on. -/
def search_hits (R : RigidBodyKernel) (mi : Option Nat) : List Nat → Nat → ConstraintData →
    Option ConstraintData
  | [], _, fmd => some fmd
  | index :: rest, i, fmd =>
    let mi2 : Option (Option Nat) :=
      match fmd.constraint.constraint_target with
      | .CENTROID => if index < fmd.islands.length then some (some index) else none
      | .VERTEX => some (fmd.vertex_island_map index)
    match mi2 with
    | none => none
    | some mi2 =>
      if mi ≠ mi2 ∧ mi2 ≠ none then
        if (fmd.constraint.constraint_limit ≤ (i : Int)) ∧ 0 < fmd.constraint.constraint_limit
        then some fmd
        else
          match connect_meshislands R fmd mi mi2 R.RBC_TYPE_FIXED
              fmd.constraint.breaking_threshold with
          | none => none
          | some fmd1 => search_hits R mi rest (i + 1) fmd1
      else search_hits R mi rest (i + 1) fmd

/-- The C function `search_tree_based`; `co` is only read in vertex mode. -/
def search_tree_based (R : RigidBodyKernel) (fmd : ConstraintData) (mi : Option Nat) (co : Vec3) :
    Option ConstraintData :=
  let obj_centr : Option Vec3 :=
    match fmd.constraint.constraint_target with
    | .CENTROID =>
      (match mi with
       | some k => (fmd.islands[k]?).map (fun m => fmd.origmat m.centroid)
       | none => none)
    | .VERTEX => some (fmd.origmat co)
  match obj_centr with
  | none => none
  | some c => search_hits R mi (R.range_search c fmd.constraint.contact_dist) 0 fmd

/-- The loop of `create_constraints` at index `i`, with `left` iterations remaining. -/
def create_constraints_loop (R : RigidBodyKernel) : Nat → Nat → ConstraintData →
    Option ConstraintData
  | 0, _, fmd => some fmd
  | left + 1, i, fmd =>
    let step : Option ConstraintData :=
      match fmd.constraint.constraint_target with
      | .CENTROID =>
        if i < fmd.islands.length then search_tree_based R fmd (some i) zero_v3 else none
      | .VERTEX =>
        (match fmd.visible_verts[i]? with
         | some co => search_tree_based R fmd (fmd.vertex_island_map i) co
         | none => none)
    match step with
    | none => none
    | some fmd1 => create_constraints_loop R left (i + 1) fmd1

/-- The C function `create_constraints` for `count` searches. -/
def create_constraints (R : RigidBodyKernel) (fmd : ConstraintData) (count : Nat) :
    Option ConstraintData :=
  create_constraints_loop R count 0 fmd

/-! ## Clusters -/

/-- The first loop of `do_cluster_count` and of `do_cluster_group`: every island is set
free (`particle_index = -1`). -/
def clear_clusters (islands : List MeshIsland) : List MeshIsland :=
  islands.map (fun mi => { mi with particle_index := -1 })

/-- The state of the seed loop of `do_cluster_count`: the islands, the points inserted
into the kd-tree (the point inserted with index `k` is entry `k`) and the array
`seeds` (pointers to islands, as positions). -/
structure ClusterSeeds where
  islands : List MeshIsland
  tree : List Vec3
  seeds : List Nat

/-- The seed loop `for (k = 0; k < seed_count; k++)` of `do_cluster_count` at index `k`,
with `left` iterations remaining. -/
def seed_loop (mi_count seed_count : Nat) : Nat → Nat → ClusterSeeds → Option ClusterSeeds
  | 0, _, st => some st
  | left + 1, k, st =>
    let which_index := k * (mi_count / seed_count)
    -- BLI_findlink gives NULL past the end of the list
    match st.islands[which_index]? with
    | none => none
    | some which =>
      seed_loop mi_count seed_count left (k + 1)
        { islands := st.islands.set which_index { which with particle_index := (k : Int) },
          tree := st.tree ++ [which.centroid],
          seeds := st.seeds ++ [which_index] }

/-- The assignment loop of `do_cluster_count` at the island at position `p`, with `left`
islands remaining: `mi->particle_index = seeds[index]->particle_index`. -/
def assign_loop (tree : List Vec3) (seeds : List Nat) :
    Nat → Nat → List MeshIsland → Option (List MeshIsland)
  | 0, _, islands => some islands
  | left + 1, p, islands =>
    match islands[p]? with
    | none => none
    | some mi =>
      -- an index of -1 (empty tree) reads `seeds[-1]`
      match BLI_kdtree_find_nearest tree mi.centroid with
      | none => none
      | some index =>
        match seeds[index]? with
        | none => none
        | some q =>
          match islands[q]? with
          | none => none
          | some seed =>
            assign_loop tree seeds left (p + 1)
              (islands.set p { mi with particle_index := seed.particle_index })

/-- The C function `do_cluster_count`. -/
def do_cluster_count (fmd : ConstraintData) : Option ConstraintData :=
  if fmd.constraint.cluster_count < 2 then some fmd
  else
    let islands := clear_clusters fmd.islands
    let mi_count : Nat := islands.length
    let seed_count : Nat :=
      if (mi_count : Int) < fmd.constraint.cluster_count then mi_count
      else fmd.constraint.cluster_count.toNat
    match seed_loop mi_count seed_count seed_count 0 ⟨islands, [], []⟩ with
    | none => none
    | some st =>
      match assign_loop st.tree st.seeds mi_count 0 st.islands with
      | none => none
      | some islands1 => some { fmd with islands := islands1 }

/-- The C function `do_cluster_group`; `cluster_group` holds the locations `go->ob->loc`
of the objects of the group, `obmat` is the matrix of the object. -/
def do_cluster_group (fmd : ConstraintData) (cluster_group : List Vec3) (obmat : Mat4) :
    ConstraintData :=
  let islands := clear_clusters fmd.islands
  if 0 < cluster_group.length then
    { fmd with
      islands := islands.map (fun mi =>
        { mi with
          particle_index :=
            match BLI_kdtree_find_nearest cluster_group (obmat mi.centroid) with
            | some index => (index : Int)
            | none => -1 }) }
  else { fmd with islands := islands }

/-- The C function `do_clusters`; `cluster_group` is the field of the same name of the
constraint setting (`none`: no group). -/
def do_clusters (fmd : ConstraintData) (cluster_group : Option (List Vec3)) (obmat : Mat4) :
    Option ConstraintData :=
  match cluster_group with
  | some group => some (do_cluster_group fmd group obmat)
  | none => do_cluster_count fmd

/-! ## Islands from shards -/

/-- An object of the group `dm_group`: the type of its rigid body, when `go->ob` and
`go->ob->rigidbody_object` are set. -/
structure GroupObject where
  rigidbody_type : Option RigidBodyType
deriving DecidableEq

/-- What the island creation reads of the modifier, of the object and of the scene. -/
structure IslandSetup where
  fracture_mode : Mode
  /-- Whether `thresh_defgrp_name[0]` is set. -/
  thresh_defgrp : Bool
  /-- Whether `ground_defgrp_name[0]` is set. -/
  ground_defgrp : Bool
  /-- The deform vertices of `fracture->dm` (`none`: no such layer): for the vertex at an
  index, the weights `defvert_find_weight` finds in the threshold group and in the
  ground group. -/
  dvert : Option (Nat → ℚ × ℚ)
  /-- The hash `vert_index_map`: vertex index to object index (a missing key reads 0). -/
  vert_index_map : Option (Int → Int)
  /-- The objects of the group `dm_group`. -/
  dm_group : Option (List GroupObject)
  cluster_count : Int
  /-- The entry `current_mi_entry->prev`, when there is one: its frame and its islands. -/
  prev : Option (Int × List MeshIsland)
  /-- The point `centr` that `BKE_match_vertex_coords(mi, par, ob, frame, is_parent)`
  computes from the cached location and rotation of the parent island (the caches and
  the quaternion helpers are not part of the embedding). -/
  match_centroid : MeshIsland → MeshIsland → Int → Bool → Vec3

/-- The rule `mi->ground_weight > 0.5f ? RBO_TYPE_PASSIVE : RBO_TYPE_ACTIVE`. -/
def ground_type (mi : MeshIsland) : RigidBodyType :=
  if mi.ground_weight > 1 / 2 then .PASSIVE else .ACTIVE

/-- The C function `do_vert_index_map`: the returned type and the island (`vertex_indices`
is allocated at both call sites). -/
def do_vert_index_map (env : IslandSetup) (mi : MeshIsland) :
    Option (RigidBodyType × MeshIsland) :=
  let rb_type := ground_type mi
  match env.vert_index_map, env.dm_group with
  | some map, some group =>
    if env.cluster_count = 0 then
      match mi.vertex_indices[0]? with
      | none => none
      | some v =>
        let particle_index := map v
        -- BLI_findlink gives NULL for a negative index and past the end of the list
        let go : Option GroupObject :=
          if 0 ≤ particle_index then group[particle_index.toNat]? else none
        let rb_type1 : RigidBodyType :=
          match go with
          | some g => (match g.rigidbody_type with
                       | some t => t
                       | none => rb_type)
          | none => rb_type
        some (rb_type1, { mi with particle_index := particle_index })
    else some (rb_type, mi)
  | _, _ => some (rb_type, mi)

/-- The C function `do_verts_weights` for an island whose `vertex_count` is the `totvert`
of the shard. -/
def do_verts_weights (env : IslandSetup) (s : Shard) (mi : MeshIsland) (vertstart : Nat) :
    MeshIsland :=
  let idx : List Nat := (List.range s.totvert).map (fun k => vertstart + k)
  let thresh_weight : ℚ :=
    match env.dvert with
    | some w =>
      if env.thresh_defgrp then idx.foldl (fun acc v => acc + (w v).1) mi.thresh_weight
      else mi.thresh_weight
    | none => mi.thresh_weight
  let ground_weight : ℚ :=
    match env.dvert with
    | some w =>
      if env.ground_defgrp then idx.foldl (fun acc v => acc + (w v).2) mi.ground_weight
      else mi.ground_weight
    | none => mi.ground_weight
  { mi with
    vertex_indices := idx.map (fun (v : Nat) => (v : Int)),
    thresh_weight := if 0 < s.totvert then thresh_weight / (s.totvert : ℚ) else thresh_weight,
    ground_weight := if 0 < s.totvert then ground_weight / (s.totvert : ℚ) else ground_weight }

/-- The C function `find_meshisland`. -/
def find_meshisland (meshIslands : List MeshIsland) (id : Int) : Option MeshIsland :=
  meshIslands.find? (fun mi => mi.id = id)

/-- The island after `MEM_callocN`. -/
def calloc_meshisland : MeshIsland :=
  { id := 0, setting_id := 0, particle_index := 0, thresh_weight := 0, ground_weight := 0,
    centroid := (0, 0, 0), rigidbody := false, vertex_indices := [],
    participating_constraints := [], rigidbody_type := .ACTIVE }

/-- The dynamic block of `do_island_from_shard`: the island takes over the transformation
of its parent island in the previous entry, or of the island of the same id there
(`do_handle_parent_mi`, `BKE_match_vertex_coords`). -/
def take_over_parent (env : IslandSetup) (s : Shard) (mi : MeshIsland) : MeshIsland :=
  if env.fracture_mode = .DYNAMIC then
    match env.prev with
    | some (frame, islands) =>
      (match find_meshisland islands s.parent_id with
       | some par => { mi with centroid := env.match_centroid mi par frame true }
       | none =>
         (match find_meshisland islands s.shard_id with
          | some par => { mi with centroid := env.match_centroid mi par frame false }
          | none => mi))
    | none => mi
  else mi

/-- The island `do_island_from_shard` builds for a shard with at least one vertex. -/
def island_of_shard (env : IslandSetup) (s : Shard) (vertstart : Nat) : Option MeshIsland :=
  let mi1 := do_verts_weights env s
    { calloc_meshisland with participating_constraints := [], thresh_weight := 0,
                             ground_weight := 0 } vertstart
  let mi2 : MeshIsland := { mi1 with centroid := s.centroid, id := s.shard_id }
  let mi3 : MeshIsland := take_over_parent env s mi2
  let mi4 : MeshIsland := { mi3 with particle_index := -1 }
  match do_vert_index_map env mi4 with
  | none => none
  | some (rb_type, mi5) => some { mi5 with rigidbody := true, rigidbody_type := rb_type }

/-- The list `fracture->meshIslands` and the progress counter of the FracMesh. -/
structure IslandState where
  meshIslands : List MeshIsland
  progress_counter : Int

/-- The C function `do_island_from_shard`. -/
def do_island_from_shard (env : IslandSetup) (st : IslandState) (s : Shard) (vertstart : Nat) :
    Option IslandState :=
  if s.totvert = 0 then some st
  else
    match island_of_shard env s vertstart with
    | none => none
    | some mi =>
      some { meshIslands := st.meshIslands ++ [mi],
             progress_counter := st.progress_counter + 1 }

/-- The loop of `do_islands_from_shards` over the shard list. -/
def islands_loop (env : IslandSetup) : List Shard → Nat → IslandState → Option IslandState
  | [], _, st => some st
  | s :: rest, vertstart, st =>
    match do_island_from_shard env st s vertstart with
    | none => none
    | some st1 => islands_loop env rest (vertstart + s.totvert) st1

/-- The C function `do_islands_from_shards` (the island part of it). -/
def do_islands_from_shards (env : IslandSetup) (fm : FracMesh) (st : IslandState) :
    Option IslandState :=
  islands_loop env fm.shard_map 0 st

/-! ## The combined mesh -/

/-- The call `memcpy(dst + start, src, n * sizeof ...)` for an array `src` of `n` elements. -/
def memcpy_at {α : Type} (dst : List α) (start : Nat) (src : List α) : Option (List α) :=
  if start + src.length ≤ dst.length then
    some (dst.take start ++ src ++ dst.drop (start + src.length))
  else none

/-- The loop of `do_create` over the shard list. -/
def do_create_loop : List Shard → Nat → Nat → Nat → Mesh → Option Mesh
  | [], _, _, _, result => some result
  | shard :: rest, vertstart, polystart, loopstart, result =>
    match memcpy_at result.mvert vertstart shard.mvert,
        memcpy_at result.mpoly polystart
          (shard.mpoly.map (fun mp => { mp with loopstart := mp.loopstart + loopstart })),
        memcpy_at result.mloop loopstart
          (shard.mloop.map (fun ml => { ml with v := ml.v + vertstart })) with
    | some mverts, some mpolys, some mloops =>
      do_create_loop rest (vertstart + shard.totvert) (polystart + shard.totpoly)
        (loopstart + shard.totloop) ⟨mverts, mpolys, mloops⟩
    | _, _, _ => none

/-- The C function `do_create` on a shard list (the vertex, polygon and loop arrays of
the result). -/
def do_create (shardlist : List Shard) (num_verts num_loops num_polys : Nat) : Option Mesh :=
  do_create_loop shardlist 0 0 0
    ⟨List.replicate num_verts ⟨(0, 0, 0)⟩, List.replicate num_polys ⟨0, 0⟩,
     List.replicate num_loops ⟨0⟩⟩

/-- The C function `create_dm` on the shard list it selects (`islandShards` with the flag
`FM_FLAG_SHARDS_TO_ISLANDS`, the shard map otherwise). -/
def create_dm (shardlist : List Shard) : Option Mesh :=
  do_create shardlist (shardlist.map Shard.totvert).sum (shardlist.map Shard.totloop).sum
    (shardlist.map Shard.totpoly).sum

/-! ## Point cloud size -/

/-- The number of uniform points `get_points_global` asks for (`count` before its
generation loop): the fast bisect and the fractal algorithms double the amount,
because each cut makes two shards. -/
def uniform_point_count (algorithm : Algorithm) (shard_count : Int) : Int :=
  if algorithm = .BISECT_FAST ∨ algorithm = .BISECT_FAST_FILL ∨ algorithm = .BOOLEAN_FRACTAL then
    if 1 < shard_count ∨ algorithm = .BOOLEAN_FRACTAL then (shard_count - 1) * 2
    else shard_count
  else shard_count

/-! ## Predicates of the statements -/

/-- The shards the adding loop of `parse_cells` appends for `tempresults`, when the
running `shard_count` is `count` at its start. -/
def added_shards (mat : Mat4) (j : Int) (parent_id : Int) (pcentroid : Vec3) :
    Int → List (Option Shard) → List Shard
  | _, [] => []
  | count, none :: rest => added_shards mat j parent_id pcentroid count rest
  | count, some s :: rest =>
    finish_shard j parent_id pcentroid
        { s with mvert := s.mvert.map (fun mv => ⟨mat mv.co⟩), centroid := mat s.centroid,
                 shard_id := count }
      :: added_shards mat j parent_id pcentroid (count + 1) rest

/-- A cell has a neighbouring cell away from it, and all its neighbour indices are cells. -/
def has_far_neighbor (cells : List cell) (c : cell) : Prop :=
  (∀ n ∈ c.neighbors, -1 < n → ∃ cn, cells[n.toNat]? = some cn)
    ∧ ∃ n ∈ c.neighbors, -1 < n ∧ ∃ cn, cells[n.toNat]? = some cn ∧ cn.centroid ≠ c.centroid

/-- The second FracMesh is the first one up to its progress counter. -/
def only_progress (fm fm1 : FracMesh) : Prop :=
  fm1 = { fm with progress_counter := fm1.progress_counter }

/-- A shard with its flag word blanked out: what is left when flag updates are ignored. -/
def Shard.without_flag (s : Shard) : Shard := { s with flag := SHARD_INTACT }

/-- The number of non-null entries of `tempresults`. -/
def count_results (tempresults : List (Option Shard)) : Nat :=
  (tempresults.filter (fun x => x.isSome)).length

/-- The two current entries are at the same position of two chains of equal length. -/
def same_position (fmd : FractureModifierData) : Bool :=
  match fmd.current_mi_entry, fmd.current_shard_entry with
  | some k, some ks =>
    k = ks ∧ k < fmd.meshIsland_sequence.length
      ∧ fmd.meshIsland_sequence.length = fmd.shard_sequence.length
  | _, _ => false

/-- The live `meshIslands`, `frac_mesh` and cached mesh are those of the current entries. -/
def live_matches (fmd : FractureModifierData) : Bool :=
  match fmd.current_mi_entry, fmd.current_shard_entry with
  | some k, some ks =>
    (match fmd.meshIsland_sequence[k]?, fmd.shard_sequence[ks]? with
     | some mi, some sh =>
       fmd.meshIslands = mi.meshIslands ∧ fmd.frac_mesh = sh.frac_mesh
         ∧ fmd.visible_mesh_cached = mi.visible_dm
     | _, _ => false)
  | _, _ => false

/-- Neither the current entries nor the live `meshIslands`, `frac_mesh` and cached mesh
differ between the two states. -/
def same_live (fmd fmd1 : FractureModifierData) : Bool :=
  fmd1.current_mi_entry = fmd.current_mi_entry
    ∧ fmd1.current_shard_entry = fmd.current_shard_entry
    ∧ fmd1.meshIslands = fmd.meshIslands ∧ fmd1.frac_mesh = fmd.frac_mesh
    ∧ fmd1.visible_mesh_cached = fmd.visible_mesh_cached

/-- The constraint joins the unordered pair of islands `a`, `b`. -/
def RigidBodyShardCon.joins (c : RigidBodyShardCon) (a b : Nat) : Bool :=
  (c.mi1 = a ∧ c.mi2 = b) ∨ (c.mi1 = b ∧ c.mi2 = a)

/-- The constraint is recorded in the participating lists of both of its endpoints. -/
def listed (islands : List MeshIsland) (c : RigidBodyShardCon) : Prop :=
  (∃ a, islands[c.mi1]? = some a ∧ c ∈ a.participating_constraints)
    ∧ (∃ b, islands[c.mi2]? = some b ∧ c ∈ b.participating_constraints)

/-- No two constraints of the list join the same unordered pair of islands. -/
def distinct_pairs (l : List RigidBodyShardCon) : Prop :=
  l.Pairwise (fun c d => d.joins c.mi1 c.mi2 = false)

/-- The invariant of constraint synthesis, relative to the state `fmd0` it started from:
the constraints created so far join distinct pairs and are recorded by their
endpoints. -/
def synthesis_inv (fmd0 fmd : ConstraintData) : Prop :=
  ∃ created, fmd.constraint.meshConstraints = fmd0.constraint.meshConstraints ++ created
    ∧ distinct_pairs created ∧ ∀ c ∈ created, listed fmd.islands c

/-- The two current entries are at position `k` of chains of equal length. -/
def at_position (fmd : FractureModifierData) (k : Nat) : Prop :=
  fmd.current_mi_entry = some k ∧ fmd.current_shard_entry = some k
    ∧ k < fmd.meshIsland_sequence.length
    ∧ fmd.meshIsland_sequence.length = fmd.shard_sequence.length

/-- The chains and the last frame are those of `fmd`. -/
def same_chains (fmd f1 : FractureModifierData) : Prop :=
  f1.meshIsland_sequence = fmd.meshIsland_sequence ∧ f1.shard_sequence = fmd.shard_sequence
    ∧ f1.last_frame = fmd.last_frame

/-- The point with index `i` is a point of the tree nearest to `co`, the first one in
the order of insertion. -/
def is_nearest (tree : List Vec3) (co : Vec3) (i : Nat) : Prop :=
  ∃ p, tree[i]? = some p
    ∧ (∀ (j : Nat) (q : Vec3), tree[j]? = some q →
        len_squared_v3v3 p co ≤ len_squared_v3v3 q co)
    ∧ (∀ (j : Nat) (q : Vec3), j < i → tree[j]? = some q →
        len_squared_v3v3 p co < len_squared_v3v3 q co)

/-- The island a hit of the range search stands for in the loop of `search_tree_based`:
the entry of the array `meshIslands` in centroid mode (`none`: a read past the
array), the value of `vertex_island_map` in vertex mode. -/
def hit_island (fmd : ConstraintData) (index : Nat) : Option (Option Nat) :=
  match fmd.constraint.constraint_target with
  | .CENTROID => if index < fmd.islands.length then some (some index) else none
  | .VERTEX => some (fmd.vertex_island_map index)

/-- The islands of the hits that pass the test `(mi != mi2) && (mi2 != NULL)`, in the
order of the hits. -/
def other_islands (fmd : ConstraintData) (mi : Option Nat) (hits : List Nat) :
    List (Option Nat) :=
  hits.filterMap (fun index =>
    match hit_island fmd index with
    | some (some i2) => if mi ≠ some i2 then some (some i2) else none
    | _ => none)

/-- One call `connect_meshislands(rmd, mi, mi2, RBC_TYPE_FIXED, breaking_threshold)` after
the other, for the islands `mi2` of the list. -/
def connect_all (R : RigidBodyKernel) (mi : Option Nat) :
    List (Option Nat) → ConstraintData → Option ConstraintData
  | [], fmd => some fmd
  | mi2 :: rest, fmd =>
    match connect_meshislands R fmd mi mi2 R.RBC_TYPE_FIXED
        fmd.constraint.breaking_threshold with
    | none => none
    | some fmd1 => connect_all R mi rest fmd1

/-- The cell passes the tests of the skip branch of `do_prepare_cells` against the
previous shard with index `j`: the shard is the nearest one, it is closer than the
farthest neighbouring cell, at the same place and of the same volume. -/
def cell_matches (fm : FracMesh) (tree : List Vec3) (cells : List cell) (c : cell) (j : Nat) :
    Prop :=
  BLI_kdtree_find_nearest tree c.centroid = some j
    ∧ ∃ (max : ℚ) (n_co : Vec3) (last_shards : List (Option Nat)) (pos : Nat) (t : Shard),
        max_neighbor_dist cells c c.neighbors 0 = some max ∧ tree[j]? = some n_co
          ∧ fm.last_shards = some last_shards ∧ last_shards[j]? = some (some pos)
          ∧ fm.shard_map[pos]? = some t
          ∧ len_squared_v3v3 n_co c.centroid < max
          ∧ len_squared_v3v3 n_co c.centroid < 1 / 100000
          ∧ |c.volume - t.raw_volume| < 1 / 100000

/-- The entry `tempshards[i]` makes the refinement stop: it is null, or the shard has no
vertex, no loop or no polygon. -/
def stops_refinement (tempshards : List (Option Shard)) (i : Nat) : Prop :=
  tempshards[i]? = some none ∨ ∃ t, tempshards[i]? = some (some t) ∧ t.invalid = true

/-- The array `tempshards` after the assignments `t->parent_id = parent_id; t->flag =
SHARD_INTACT` to its entry `i`, when that is not null. -/
def tag_tempshard (tempshards : List (Option Shard)) (i : Nat) (parent_id : Int) :
    List (Option Shard) :=
  match tempshards[i]? with
  | some (some t) => tempshards.set i (some (t.tag parent_id))
  | _ => tempshards

/-- The value of `vertstart` when the loops over the shard list reach position `p`: the
sum of `totvert` over the shards before `p`. -/
def vertstart_at (shards : List Shard) (p : Nat) : Nat :=
  ((shards.take p).map Shard.totvert).sum

/-- The number of shards before position `p` that have a vertex. -/
def islands_before (shards : List Shard) (p : Nat) : Nat :=
  ((shards.take p).filter (fun s => s.totvert ≠ 0)).length

/-! ## Concrete inputs -/

/-- A kernel whose cuts hand the cell back and whose sort leaves the order alone. -/
def example_kernel : Kernel :=
  { shard_boolean := fun _ t => some t,
    shard_boolean_fractal := fun _ t _ => (some t, some t),
    shard_bisect := fun _ t _ _ _ _ _ => some t,
    frand := fun _ => 0,
    qsort_r := fun l => l,
    center_centroid := fun _ _ _ => (0, 0, 0) }

/-- A cell with one vertex at its centroid and one one-vertex face per neighbour. -/
def example_cell (c : Vec3) (volume : ℚ) (neighbors : List Int) : cell :=
  { verts := [c], faces := neighbors.map (fun n => ⟨[0], n⟩), centroid := c, volume := volume }

/-- The mesh of the object: a single one-vertex polygon. -/
def example_dm : Mesh := ⟨[⟨(0, 0, 0)⟩], [⟨0, 1⟩], [⟨0⟩]⟩

/-- Three cells in a row, each a neighbour of the two others. -/
def example_cells : List cell :=
  [example_cell (0, 0, 0) 1 [1, 2], example_cell (1, 0, 0) 1 [0, 2],
   example_cell (2, 0, 0) 1 [0, 1]]

/-- The same point cloud after the second and the third point moved. -/
def example_cells_moved : List cell :=
  [example_cell (0, 0, 0) 1 [1, 2], example_cell (1, 1, 0) 1 [0, 2],
   example_cell (2, 1, 0) 1 [0, 1]]

/-- The FracMesh a prefractured pass over `example_cells` leaves (shard ids 1, 2, 3). -/
def example_fracmesh : FracMesh :=
  (parse_cells example_kernel example_cells (-1) BKE_create_fracture_container .BOOLEAN
    (some example_dm) unit_m4 .PREFRACTURED false 0).getD BKE_create_fracture_container

/-- A point cloud of a single point: the faces of its cell are all walls. -/
def example_single_cell : List cell := [example_cell (3, 0, 0) 1 [-1]]

/-- The FracMesh a prefractured pass over `example_single_cell` leaves. -/
def example_single_fracmesh : FracMesh :=
  (parse_cells example_kernel example_single_cell (-1) BKE_create_fracture_container .BOOLEAN
    (some example_dm) unit_m4 .PREFRACTURED false 0).getD BKE_create_fracture_container

/-- A splinter matrix that doubles the first coordinate. -/
def example_splinter_mat : Mat4 := fun v => (2 * v.1, v.2.1, v.2.2)

/-- The shard ids of the map, in order. -/
def shard_ids (fm : FracMesh) : List Int := fm.shard_map.map (fun s => s.shard_id)

/-- The first FracMesh of dynamic fracture, as `shard_sequence_add` makes it: one shard
with id 0 that covers the whole mesh. -/
def example_dynamic_start : FracMesh :=
  { BKE_create_fracture_container with
    shard_map :=
      [{ BKE_create_fracture_shard example_kernel example_dm.mvert example_dm.mpoly
           example_dm.mloop with flag := SHARD_INTACT, shard_id := 0 }],
    shard_count := 1 }

/-- Three committed sequence entries with frame fields 1, 10 and 20, the current entries
at position `k`. -/
def example_sequences (k : Nat) (last_frame : Int) : FractureModifierData :=
  { meshIsland_sequence := [⟨1, false, 100, 200⟩, ⟨10, false, 101, 201⟩, ⟨20, false, 102, 202⟩],
    shard_sequence := [⟨1, false, 300⟩, ⟨10, false, 301⟩, ⟨20, false, 302⟩],
    current_mi_entry := some k, current_shard_entry := some k,
    meshIslands := 100 + k, frac_mesh := 300 + k, visible_mesh_cached := 200 + k,
    last_frame := last_frame, refresh_modifiers := false, object_changed := false }

/-- The FracMesh of `example_dynamic_start` after a dynamic pass that fractures the
shard 0 into one cell. -/
def example_dynamic_pass : FracMesh :=
  (parse_cells example_kernel example_single_cell 0 example_dynamic_start .BOOLEAN
    (some example_dm) unit_m4 .DYNAMIC false 0).getD BKE_create_fracture_container

/-- The FracMesh of `example_dynamic_start` after a dynamic pass that fractures the
shard 0 into the three cells of `example_cells`. -/
def example_dynamic_three : FracMesh :=
  (parse_cells example_kernel example_cells 0 example_dynamic_start .BOOLEAN
    (some example_dm) unit_m4 .DYNAMIC false 0).getD BKE_create_fracture_container

/-- The FracMesh of `example_dynamic_three` after a dynamic pass that fractures the
shard 3 into three cells again. -/
def example_dynamic_second : FracMesh :=
  (parse_cells example_kernel example_cells 3 example_dynamic_three .BOOLEAN
    (some example_dm) unit_m4 .DYNAMIC false 0).getD BKE_create_fracture_container

/-- The FracMesh `example_fracmesh` with its cancel flag set. -/
def example_cancelled_fracmesh : FracMesh := { example_fracmesh with cancel := 1 }

/-- The FracMesh a pass over the moved point cloud leaves when the cancel flag is set. -/
def example_cancelled_pass : FracMesh :=
  (parse_cells example_kernel example_cells_moved (-1) example_cancelled_fracmesh
    .BOOLEAN (some example_dm) unit_m4 .PREFRACTURED false 0).getD BKE_create_fracture_container

/-- The state the loop of `handle_fast_bisect` starts from for a request of two shards:
the two parsed cells, and no result yet. -/
def example_fast_state : FastState :=
  { fm := BKE_create_fracture_container,
    tempshards := [some (parse_cell (example_cell (0, 0, 0) 1 [1])),
                   some (parse_cell (example_cell (1, 0, 0) 1 [0]))],
    tempresults := [none, none],
    bm_parent := none, centroid := (0, 0, 0), rng := 0 }

/-- Rigid body calls whose range search reports the three islands for every point. -/
def example_rigidbody_kernel : RigidBodyKernel :=
  { RBC_TYPE_FIXED := 0,
    create_shard_constraint := fun t => ⟨0, 0, t, 0, true, false⟩,
    range_search := fun _ _ => [0, 1, 2] }

/-- An island with a rigid body and no constraint yet. -/
def example_island (id : Int) (c : Vec3) : MeshIsland :=
  { id := id, setting_id := 0, particle_index := -1, thresh_weight := 0, ground_weight := 0,
    centroid := c, rigidbody := true, vertex_indices := [], participating_constraints := [] }

/-- Three islands in a row, centroid search, no constraint limit. -/
def example_constraint_data : ConstraintData :=
  { constraint :=
      { use_constraints := true, use_breaking := true, cluster_count := 0,
        cluster_breaking_threshold := 0, cluster_constraint_type := 0, breaking_threshold := 10,
        constraint_limit := 0, contact_dist := 5, constraint_target := .CENTROID,
        partner1_id := 0, partner2_id := 0, meshConstraints := [] },
    thresh_defgrp := false, origmat := unit_m4, vertex_island_map := fun _ => none,
    visible_verts := [],
    islands := [example_island 0 (0, 0, 0), example_island 1 (1, 0, 0),
                example_island 2 (2, 0, 0)] }

/-- The constraint data after three searches over `example_constraint_data`. -/
def example_constraints_built : ConstraintData :=
  (create_constraints example_rigidbody_kernel example_constraint_data 3).getD
    example_constraint_data

/-- The sequences at their last entry, with live island data that is not the entry's. -/
def example_stale_sequences : FractureModifierData :=
  { example_sequences 2 0 with meshIslands := 7 }

/-- The constraint data of `example_constraint_data` with two clusters requested. -/
def example_cluster_data : ConstraintData :=
  { example_constraint_data with
    constraint := { example_constraint_data.constraint with cluster_count := 2 } }

/-- The constraint data after the clustering of `example_cluster_data`, with the
requested cluster count set to one afterwards. -/
def example_clustered_data : ConstraintData :=
  let fmd := (do_clusters example_cluster_data none unit_m4).getD example_cluster_data
  { fmd with constraint := { fmd.constraint with cluster_count := 1 } }

/-- Three islands put into one cluster by a cluster group of one object; the cluster
count is 0 and the cluster threshold 100. -/
def example_group_data : ConstraintData :=
  do_cluster_group
    { example_constraint_data with
      constraint := { example_constraint_data.constraint with cluster_breaking_threshold := 100 } }
    [(1, 0, 0)] unit_m4

/-- Two islands of one cluster with the threshold weights 1/2 and 1, a threshold group,
two clusters requested, cluster threshold 100. -/
def example_weighted_data : ConstraintData :=
  { example_constraint_data with
    constraint :=
      { example_constraint_data.constraint with
        cluster_count := 2, cluster_breaking_threshold := 100 },
    thresh_defgrp := true,
    islands := [{ example_island 0 (0, 0, 0) with particle_index := 0, thresh_weight := 1 / 2 },
                { example_island 1 (1, 0, 0) with particle_index := 0, thresh_weight := 1 }] }

/-- The constraint data of `example_constraint_data` with a limit of one. -/
def example_limited_data : ConstraintData :=
  { example_constraint_data with
    constraint := { example_constraint_data.constraint with constraint_limit := 1 } }

/-- A FracMesh of three shards: one vertex, no vertex, two vertices. -/
def example_shards_fracmesh : FracMesh :=
  { BKE_create_fracture_container with
    shard_map :=
      [{ parse_cell (example_cell (0, 0, 0) 1 [1]) with shard_id := 1 },
       { parse_cell ⟨[], [], (5, 0, 0), 1⟩ with shard_id := 2 },
       { parse_cell ⟨[(1, 0, 0), (2, 0, 0)], [⟨[0, 1], 0⟩], (1, 0, 0), 1⟩ with shard_id := 3 }],
    shard_count := 3 }

/-- Two cells far from each other. -/
def example_far_cells : List cell :=
  [example_cell (0, 0, 0) 1 [1], example_cell (10, 0, 0) 1 [0]]

/-- The FracMesh a prefractured pass over `example_far_cells` leaves. -/
def example_far_fracmesh : FracMesh :=
  (parse_cells example_kernel example_far_cells (-1) BKE_create_fracture_container .BOOLEAN
    (some example_dm) unit_m4 .PREFRACTURED false 0).getD BKE_create_fracture_container

/-- A cell without vertices and faces, followed by a cell with a vertex. -/
def example_invalid_cells : List cell :=
  [⟨[], [], (5, 0, 0), 1⟩, example_cell (1, 0, 0) 1 [0]]

/-- The FracMesh `example_fracmesh` as `parse_cells` hands it to `do_prepare_cells` in an
incremental prefractured pass: with the search tree and the array `last_shards` built. -/
def example_diff_fracmesh : FracMesh :=
  ((BKE_shard_by_id example_kernel example_fracmesh (-1) (some example_dm)).map
    (fun p0 =>
      (parse_cells_setup example_fracmesh p0 (-1) .BOOLEAN .PREFRACTURED false).fm)).getD
    BKE_create_fracture_container

/-- What `do_prepare_cells` leaves of `example_diff_fracmesh` for the moved point cloud. -/
def example_diff_prepared : Prepared :=
  (do_prepare_cells example_diff_fracmesh example_cells_moved .BOOLEAN
    (parse_cell (example_cell (0, 0, 0) 1 [1])) zero_v3).getD
    ⟨BKE_create_fracture_container, [], [], none, none, zero_v3, []⟩

/-- A state of the fast bisect loop whose first cell is missing. -/
def example_stopped_fast_state : FastState :=
  { example_fast_state with
    tempshards := [none, some (parse_cell (example_cell (1, 0, 0) 1 [0]))] }

/-- A state of the refinement loop whose first cell is missing. -/
def example_stopped_refine_state : RefineState :=
  { fm := BKE_create_fracture_container,
    tempshards := [none, some (parse_cell (example_cell (1, 0, 0) 1 [0]))],
    tempresults := [none, none], dm_p := none, rng := 0 }

/-! ## The size of a shard, and the predicates and inputs of the later statements -/

/-- Three cells far from each other. -/
def example_spread_cells : List cell :=
  [example_cell (0, 0, 0) 1 [1, 2], example_cell (100, 0, 0) 1 [0, 2],
   example_cell (200, 0, 0) 1 [0, 1]]

/-- The FracMesh a prefractured pass over `example_spread_cells` leaves. -/
def example_spread_fracmesh : FracMesh :=
  (parse_cells example_kernel example_spread_cells (-1) BKE_create_fracture_container .BOOLEAN
    (some example_dm) unit_m4 .PREFRACTURED false 0).getD BKE_create_fracture_container

/-- Three cells close to the first shard of `example_spread_fracmesh`. -/
def example_near_cells : List cell :=
  [example_cell (0, 0, 0) 1 [1, 2], example_cell (1, 0, 0) 1 [0, 2],
   example_cell (5, 0, 0) 1 [0, 1]]

/-- The face index `handle_fast_bisect` draws for the cell `t`:
`(int)(BLI_frand() * (t->totpoly - 1))`, and 1 in place of 0. -/
def fast_bisect_index (K : Kernel) (rng : Nat) (t : Shard) : Int :=
  if float_to_int (K.frand rng * (((t.totpoly : Int) - 1 : Int) : ℚ)) = 0 then 1
  else float_to_int (K.frand rng * (((t.totpoly : Int) - 1 : Int) : ℚ))

/-- A kernel whose fractal cut fails twenty times and gives two fragments at the twenty
first call (each call of the cut moves the random generator by six). -/
def example_late_kernel : Kernel :=
  { example_kernel with
    shard_boolean_fractal := fun _ t rng => if rng < 120 then (none, none) else (some t, some t) }

/-- The backward walk of `BKE_lookup_mesh_state` from position `k` ends at `k1`: every
entry it stepped onto has a frame at or after `frame`, and at `k1` there is no previous
entry or the previous entry has a frame before `frame`. -/
def backward_stop (seq : List MeshIslandSequence) (frame : Int) (k k1 : Nat) : Prop :=
  k1 ≤ k
    ∧ (∀ (j : Nat) (e : MeshIslandSequence), k1 ≤ j → j < k → seq[j]? = some e →
        frame ≤ e.frame)
    ∧ (k1 = 0 ∨ ∃ e, seq[k1 - 1]? = some e ∧ e.frame < frame)

/-- The forward walk of `BKE_lookup_mesh_state` from position `k` ends at `k1`: every
step left an entry with a frame before `frame` for a next entry that is not new, and at
`k1` there is no next entry, or the next entry is new, or the entry has a frame at or after
`frame`. -/
def forward_stop (seq : List MeshIslandSequence) (frame : Int) (k k1 : Nat) : Prop :=
  k ≤ k1
    ∧ (∀ (j : Nat) (c nx : MeshIslandSequence), k ≤ j → j < k1 → seq[j]? = some c →
        seq[j + 1]? = some nx → nx.is_new = false ∧ c.frame < frame)
    ∧ (seq[k1 + 1]? = none ∨ (∃ nx, seq[k1 + 1]? = some nx ∧ nx.is_new = true)
        ∨ ∃ c, seq[k1]? = some c ∧ frame ≤ c.frame)

/-- The number of face vertices of the cell before face `i`: the sum `c_0 + ... + c_{i-1}`
of the polygon vertex counts. -/
def loops_before (c : cell) (i : Nat) : Nat :=
  ((c.faces.take i).map (fun f => f.indices.length)).sum

/-- The value of `polystart` when the loop of `do_create` reaches position `p`: the sum
of `totpoly` over the shards before `p`. -/
def polystart_at (shards : List Shard) (p : Nat) : Nat :=
  ((shards.take p).map Shard.totpoly).sum

/-- The value of `loopstart` when the loop of `do_create` reaches position `p`: the sum
of `totloop` over the shards before `p`. -/
def loopstart_at (shards : List Shard) (p : Nat) : Nat :=
  ((shards.take p).map Shard.totloop).sum

/-- The arrays are well formed: every loop names a vertex of the array and the loop range of
every polygon lies inside the loop array. -/
def arrays_well_formed (totvert : Nat) (mpoly : List MPoly) (mloop : List MLoop) : Prop :=
  (∀ ml ∈ mloop, 0 ≤ ml.v ∧ ml.v < (totvert : Int))
    ∧ ∀ mp ∈ mpoly, 0 ≤ mp.loopstart ∧ 0 ≤ mp.totloop
        ∧ mp.loopstart + mp.totloop ≤ (mloop.length : Int)

/-- The shard is well formed. -/
def Shard.well_formed (s : Shard) : Prop := arrays_well_formed s.totvert s.mpoly s.mloop

/-- The mesh is well formed. -/
def Mesh.well_formed (m : Mesh) : Prop := arrays_well_formed m.mvert.length m.mpoly m.mloop

/-- The FracMesh the incremental pass over the moved point cloud leaves of
`example_fracmesh`. -/
def example_incremental_pass : FracMesh :=
  (parse_cells example_kernel example_cells_moved (-1) example_fracmesh .BOOLEAN
    (some example_dm) unit_m4 .PREFRACTURED false 0).getD BKE_create_fracture_container

/-- The state the loop of `handle_fast_bisect` starts from for three cells. -/
def example_odd_state : FastState :=
  { fm := BKE_create_fracture_container,
    tempshards := [some (parse_cell (example_cell (0, 0, 0) 1 [1])),
                   some (parse_cell (example_cell (1, 0, 0) 1 [0])),
                   some (parse_cell (example_cell (2, 0, 0) 1 [1]))],
    tempresults := [none, none, none],
    bm_parent := none, centroid := (0, 0, 0), rng := 0 }

/-- The read `fm->last_shards[i]` of the deletion loop of `do_prepare_cells` is inside the
array `last_shards`. -/
def deletion_read_in_bounds (last_shards : Option (List (Option Nat))) (i : Nat) : Prop :=
  ∃ arr, last_shards = some arr ∧ i < arr.length

theorem modify_last_append {α : Type} (f : α → α) (l : List α) (a : α) :
    modify_last f (l ++ [a]) = l ++ [f a] := by
  induction l with
  | nil => rfl
  | cons x l ih =>
    cases l with
    | nil => rfl
    | cons y l => 
      simp only [List.cons_append] at ih ⊢
      simp only [modify_last, ih]

theorem add_results_spec (mat : Mat4) (j : Int) (parent_id : Int) (pcentroid : Vec3) :
    ∀ (rs : List (Option Shard)) (fm : FracMesh),
      add_results mat j parent_id pcentroid rs fm =
        { fm with shard_map := fm.shard_map ++ added_shards mat j parent_id pcentroid fm.shard_count rs,
                  shard_count := fm.shard_count + (count_results rs : Int) } := by
  intro rs
  induction rs with
  | nil => intro fm; simp [add_results, added_shards, count_results]
  | cons r rest ih =>
    intro fm
    cases r with
    | none =>
      simp only [add_results, added_shards, ih]
      simp [count_results]
    | some s =>
      simp only [add_results, added_shards, ih, add_shard, modify_last_append]
      simp [count_results]
      omega

theorem wrap_int_add_wrap (a b : Int) : wrap_int (a + wrap_int b) = wrap_int (a + b) := by
  unfold wrap_int
  omega

theorem wrap_int_of_range (x : Int) (h1 : -2147483648 ≤ x) (h2 : x ≤ 2147483647) :
    wrap_int x = x := by
  unfold wrap_int
  omega

theorem added_shards_id (mat : Mat4) (j : Int) (parent_id : Int) (pcentroid : Vec3) :
    ∀ (rs : List (Option Shard)) (count : Int) (k : Nat)
      (h : k < (added_shards mat j parent_id pcentroid count rs).length),
      ((added_shards mat j parent_id pcentroid count rs).get ⟨k, h⟩).shard_id
        = wrap_int (count + k + (j + 1)) := by
  intro rs
  induction rs with
  | nil => intro count k h; simp [added_shards] at h
  | cons r rest ih =>
    intro count k h
    cases r with
    | none => simp only [added_shards] at h ⊢; exact ih count k h
    | some s =>
      simp only [added_shards] at h ⊢
      cases k with
      | zero =>
        simp only [List.get_eq_getElem, List.getElem_cons_zero, finish_shard]
        split <;> simp [wrap_int_add_wrap]
      | succ k =>
        simp only [List.get_eq_getElem, List.getElem_cons_succ]
        have := ih (count + 1) k (by simpa using h)
        simp only [List.get_eq_getElem] at this
        rw [this]
        congr 1
        push_cast
        ring

theorem added_shards_length (mat : Mat4) (j : Int) (parent_id : Int) (pcentroid : Vec3) :
    ∀ (rs : List (Option Shard)) (count : Int),
      (added_shards mat j parent_id pcentroid count rs).length = count_results rs := by
  intro rs
  induction rs with
  | nil => intro count; rfl
  | cons r rest ih =>
    intro count
    cases r with
    | none => simp only [added_shards, ih]; simp [count_results]
    | some s => simp only [added_shards, List.length_cons, ih]; simp [count_results]

theorem only_progress_refl (fm : FracMesh) : only_progress fm fm := rfl

theorem only_progress_trans {a b c : FracMesh} (h1 : only_progress a b) (h2 : only_progress b c) :
    only_progress a c := by
  unfold only_progress at *
  rw [h2, h1]

theorem only_progress_step (fm : FracMesh) (n : Int) :
    only_progress fm { fm with progress_counter := n } := rfl

theorem handle_boolean_bisect_fm (K : Kernel) (expected_shards : Nat) (algorithm : Algorithm)
    (parent_id : Int) (dm_parent bm_parent : Option Mesh) (i : Nat) (st : RefineState)
    (r : Bool × Nat × RefineState)
    (h : handle_boolean_bisect K expected_shards algorithm parent_id dm_parent bm_parent i st
      = some r) : only_progress st.fm r.2.2.fm := by
  unfold handle_boolean_bisect at h
  split at h
  · cases h; rfl
  · split at h
    · cases h
    · cases h; rfl
    · simp only at h
      split at h
      · cases h; rfl
      · split at h
        · split at h
          · cases h
          · cases h; rfl
        · split at h
          · split at h
            · cases h
            · cases h; rfl
          · cases h; rfl

theorem refine_loop_fm (K : Kernel) (expected_shards : Nat) (algorithm : Algorithm)
    (parent_id : Int) (dm_parent bm_parent : Option Mesh) :
    ∀ (left : Nat) (i : Nat) (st st1 : RefineState),
      refine_loop K expected_shards algorithm parent_id dm_parent bm_parent left i st = some st1 →
      only_progress st.fm st1.fm := by
  intro left
  induction left using Nat.strong_induction_on with
  | _ left ih =>
    intro i st st1 h
    cases left with
    | zero => simp only [refine_loop] at h; cases h; rfl
    | succ left =>
      simp only [refine_loop] at h
      split at h
      · cases h
      · rename_i stop i1 st2 hb
        have h1 := handle_boolean_bisect_fm _ _ _ _ _ _ _ _ _ hb
        split at h
        · exact only_progress_trans h1 (ih left (Nat.lt_succ_self _) _ _ _ h)
        · split at h
          · cases h; exact h1
          · rename_i left1
            exact only_progress_trans h1 (ih left1 (by omega) _ _ _ h)

theorem handle_fast_bisect_loop_fm (K : Kernel) (expected_shards : Nat) (algorithm : Algorithm)
    (parent_id : Int) :
    ∀ (left : Nat) (i : Nat) (st st1 : FastState),
      handle_fast_bisect_loop K expected_shards algorithm parent_id left i st = some st1 →
      only_progress st.fm st1.fm := by
  intro left
  induction left using Nat.strong_induction_on with
  | _ left ih =>
    intro i st st1 h
    cases left with
    | zero => simp only [handle_fast_bisect_loop] at h; cases h; rfl
    | succ left =>
      simp only [handle_fast_bisect_loop] at h
      split at h
      · cases h; rfl
      · split at h
        · cases h
        · cases h; rfl
        · split at h
          · cases h; rfl
          · split at h
            · split at h
              · cases h
              · split at h
                · cases h
                · split at h
                  · cases h
                  · rename_i st2 hn
                    have h2 : only_progress st.fm st2.fm := by
                      split at hn
                      · split at hn
                        · cases hn; rfl
                        · cases hn
                      · cases hn; rfl
                    cases h; exact h2
                  · rename_i st2 left1 hn
                    have h2 : only_progress st.fm st2.fm := by
                      split at hn
                      · split at hn
                        · cases hn; rfl
                        · cases hn
                      · cases hn; rfl
                    exact only_progress_trans h2 (ih left1 (by omega) _ _ _ h)
            · have h3 := ih left (Nat.lt_succ_self _) _ _ _ h
              exact h3

theorem refine_cells_fm (K : Kernel) (expected_shards : Nat) (algorithm : Algorithm)
    (su : PassSetup) (pre : Prepared) (rng : Nat) (r : FracMesh × List (Option Shard))
    (h : refine_cells K expected_shards algorithm su pre rng = some r) :
    only_progress { pre.fm with last_shard_tree := none, last_shards := none } r.1 := by
  unfold refine_cells at h
  simp only at h
  split at h
  · rw [Option.map_eq_some'] at h
    obtain ⟨st, hst, rfl⟩ := h
    exact refine_loop_fm _ _ _ _ _ _ _ _ _ _ hst
  · split at h
    · split at h
      · cases h
      · cases h; rfl
    · rw [Option.map_eq_some'] at h
      obtain ⟨st, hst, rfl⟩ := h
      exact handle_fast_bisect_loop_fm _ _ _ _ _ _ _ _ hst

theorem joins_iff (c : RigidBodyShardCon) (a b : Nat) :
    c.joins a b = true ↔ (c.mi1 = a ∧ c.mi2 = b) ∨ (c.mi1 = b ∧ c.mi2 = a) := by
  simp [RigidBodyShardCon.joins]

theorem add_participating_getElem? (islands : List MeshIsland) (i k : Nat)
    (c : RigidBodyShardCon) (m : MeshIsland) (h : islands[k]? = some m) :
    ∃ m1, (add_participating islands i c)[k]? = some m1
      ∧ (∀ x ∈ m.participating_constraints, x ∈ m1.participating_constraints)
      ∧ (k = i → c ∈ m1.participating_constraints) := by
  unfold add_participating
  rw [List.getElem?_modify, h]
  by_cases hik : i = k
  · subst hik
    refine ⟨{ m with participating_constraints := m.participating_constraints ++ [c] },
      by simp, ?_, ?_⟩
    · intro x hx; simp [hx]
    · intro _; simp
  · refine ⟨m, by simp [hik], fun x hx => hx, ?_⟩
    intro h'; exact absurd h'.symm hik

theorem listed_add (islands : List MeshIsland) (i : Nat) (c c1 : RigidBodyShardCon)
    (h : listed islands c) : listed (add_participating islands i c1) c := by
  obtain ⟨⟨a, ha, hca⟩, ⟨b, hb, hcb⟩⟩ := h
  obtain ⟨a1, ha1, hsub, _⟩ := add_participating_getElem? islands i c.mi1 c1 a ha
  obtain ⟨b1, hb1, hsub2, _⟩ := add_participating_getElem? islands i c.mi2 c1 b hb
  exact ⟨⟨a1, ha1, hsub _ hca⟩, ⟨b1, hb1, hsub2 _ hcb⟩⟩

theorem con_found_of_mem (a : MeshIsland) (c : RigidBodyShardCon) (other : Nat)
    (hc : c ∈ a.participating_constraints) (h : c.mi1 = other ∨ c.mi2 = other) :
    con_found_in a other = true := by
  unfold con_found_in
  rw [List.any_eq_true]
  exact ⟨c, hc, by simpa using h⟩

theorem shard_constraint_endpoints (R : RigidBodyKernel) (fmd : ConstraintData)
    (a b : MeshIsland) (mi1 mi2 : Nat) (con_type : Int) (thresh : ℚ) :
    (shard_constraint R fmd a b mi1 mi2 con_type thresh).mi1 = mi1
      ∧ (shard_constraint R fmd a b mi1 mi2 con_type thresh).mi2 = mi2 := by
  unfold shard_constraint
  simp only
  split <;> split <;> (try split) <;> (try split) <;> simp

theorem do_constraint_inv (R : RigidBodyKernel) (fmd0 fmd fmd1 : ConstraintData) (mi1 mi2 : Nat)
    (con_type : Int) (thresh : ℚ) (a b : MeshIsland)
    (ha : fmd.islands[mi1]? = some a) (hb : fmd.islands[mi2]? = some b)
    (hfa : con_found_in a mi2 = false) (hfb : con_found_in b mi1 = false)
    (hinv : synthesis_inv fmd0 fmd)
    (h : do_constraint R fmd mi1 mi2 con_type thresh = some fmd1) : synthesis_inv fmd0 fmd1 := by
  unfold do_constraint at h
  simp only [ha, hb] at h
  split at h
  · cases h; exact hinv
  · obtain ⟨created, hlist, hdist, hlisted⟩ := hinv
    simp only [Option.some.injEq] at h
    subst h
    have hmi := shard_constraint_endpoints R fmd a b mi1 mi2 con_type thresh
    generalize shard_constraint R fmd a b mi1 mi2 con_type thresh = rbsc at hmi ⊢
    refine ⟨created ++ [rbsc], ?_, ?_, ?_⟩
    · simp [hlist]
    · unfold distinct_pairs
      rw [List.pairwise_append]
      refine ⟨hdist, List.pairwise_singleton _ _, ?_⟩
      intro c hc d hd
      rw [List.mem_singleton] at hd
      subst hd
      by_contra hj
      have hj : d.joins c.mi1 c.mi2 = true := by simpa using hj
      rw [joins_iff, hmi.1, hmi.2] at hj
      obtain ⟨⟨a1, ha1, hca⟩, _⟩ := hlisted c hc
      rcases hj with ⟨h1, h2⟩ | ⟨h1, h2⟩
      · rw [← h1, ha] at ha1
        cases ha1
        have := con_found_of_mem a c mi2 hca (Or.inr h2.symm)
        rw [hfa] at this; cases this
      · rw [← h2, hb] at ha1
        cases ha1
        have := con_found_of_mem b c mi1 hca (Or.inr h1.symm)
        rw [hfb] at this; cases this
    · intro c hc
      rw [List.mem_append, List.mem_singleton] at hc
      rcases hc with hc | hc
      · exact listed_add _ _ _ _ (listed_add _ _ _ _ (hlisted c hc))
      · subst hc
        obtain ⟨a1, ha1, _, hin1⟩ := add_participating_getElem? fmd.islands mi1 mi1 c a ha
        obtain ⟨a2, ha2, hsub2, _⟩ :=
          add_participating_getElem? (add_participating fmd.islands mi1 c) mi2 mi1 c a1 ha1
        obtain ⟨b1, hb1, _, _⟩ := add_participating_getElem? fmd.islands mi1 mi2 c b hb
        obtain ⟨b2, hb2, _, hin2⟩ :=
          add_participating_getElem? (add_participating fmd.islands mi1 c) mi2 mi2 c b1 hb1
        refine ⟨⟨a2, ?_, hsub2 _ (hin1 rfl)⟩, ⟨b2, ?_, hin2 rfl⟩⟩
        · rw [hmi.1]; exact ha2
        · rw [hmi.2]; exact hb2

theorem connect_meshislands_inv (R : RigidBodyKernel) (fmd0 fmd fmd1 : ConstraintData)
    (mi1 mi2 : Option Nat) (con_type : Int) (thresh : ℚ) (hinv : synthesis_inv fmd0 fmd)
    (h : connect_meshislands R fmd mi1 mi2 con_type thresh = some fmd1) :
    synthesis_inv fmd0 fmd1 := by
  unfold connect_meshislands at h
  split at h
  · rename_i i1 i2
    split at h
    · rename_i a b ha hb
      simp only at h
      split at h
      · split at h
        · rename_i hnf
          have hnf : con_found_in a i2 = false ∧ con_found_in b i1 = false := by
            simpa using hnf
          exact do_constraint_inv R fmd0 fmd fmd1 i1 i2 con_type thresh a b ha hb hnf.1 hnf.2
            hinv h
        · cases h; exact hinv
      · cases h; exact hinv
    · cases h
  · cases h; exact hinv

theorem search_hits_inv (R : RigidBodyKernel) (fmd0 : ConstraintData) (mi : Option Nat) :
    ∀ (hits : List Nat) (i : Nat) (fmd fmd1 : ConstraintData), synthesis_inv fmd0 fmd →
      search_hits R mi hits i fmd = some fmd1 → synthesis_inv fmd0 fmd1 := by
  intro hits
  induction hits with
  | nil => intro i fmd fmd1 hinv h; simp only [search_hits] at h; cases h; exact hinv
  | cons index rest ih =>
    intro i fmd fmd1 hinv h
    simp only [search_hits] at h
    split at h
    · cases h
    · rename_i mi2 _
      split at h
      · split at h
        · cases h; exact hinv
        · split at h
          · cases h
          · rename_i fmd2 hc
            exact ih _ _ _ (connect_meshislands_inv R fmd0 fmd fmd2 _ _ _ _ hinv hc) h
      · exact ih _ _ _ hinv h

theorem search_tree_based_inv (R : RigidBodyKernel) (fmd0 fmd fmd1 : ConstraintData)
    (mi : Option Nat) (co : Vec3) (hinv : synthesis_inv fmd0 fmd)
    (h : search_tree_based R fmd mi co = some fmd1) : synthesis_inv fmd0 fmd1 := by
  unfold search_tree_based at h
  simp only at h
  split at h
  · cases h
  · exact search_hits_inv R fmd0 mi _ _ _ _ hinv h

theorem create_constraints_loop_inv (R : RigidBodyKernel) (fmd0 : ConstraintData) :
    ∀ (left i : Nat) (fmd fmd1 : ConstraintData), synthesis_inv fmd0 fmd →
      create_constraints_loop R left i fmd = some fmd1 → synthesis_inv fmd0 fmd1 := by
  intro left
  induction left with
  | zero => intro i fmd fmd1 hinv h; simp only [create_constraints_loop] at h; cases h; exact hinv
  | succ left ih =>
    intro i fmd fmd1 hinv h
    simp only [create_constraints_loop] at h
    split at h
    · cases h
    · rename_i fmd2 hstep
      refine ih _ _ _ ?_ h
      split at hstep
      · split at hstep
        · exact search_tree_based_inv R fmd0 fmd fmd2 _ _ hinv hstep
        · cases hstep
      · split at hstep
        · exact search_tree_based_inv R fmd0 fmd fmd2 _ _ hinv hstep
        · cases hstep

theorem distinct_pairs_filter (l : List RigidBodyShardCon) (h : distinct_pairs l) (a b : Nat) :
    (l.filter (fun c => c.joins a b)).length ≤ 1 := by
  induction l with
  | nil => simp
  | cons c l ih =>
    unfold distinct_pairs at h
    rw [List.pairwise_cons] at h
    by_cases hc : c.joins a b = true
    · have hnone : l.filter (fun c => c.joins a b) = [] := by
        rw [List.filter_eq_nil_iff]
        intro d hd hdj
        have hcd := h.1 d hd
        rw [joins_iff] at hc hdj
        have : d.joins c.mi1 c.mi2 = true := by
          rw [joins_iff]
          rcases hc with ⟨h1, h2⟩ | ⟨h1, h2⟩ <;> rcases hdj with ⟨h3, h4⟩ | ⟨h3, h4⟩ <;> omega
        rw [hcd] at this; cases this
      simp [List.filter_cons, hc, hnone]
    · simp only [List.filter_cons, hc]
      exact ih h.2

theorem same_position_iff (fmd : FractureModifierData) :
    same_position fmd = true ↔ ∃ k, at_position fmd k := by
  unfold same_position at_position
  cases h1 : fmd.current_mi_entry <;> cases h2 : fmd.current_shard_entry <;> simp
  intro _ _
  exact eq_comm

theorem load_entries_spec (fmd : FractureModifierData) (k : Nat)
    (hk : k < fmd.meshIsland_sequence.length)
    (hlen : fmd.meshIsland_sequence.length = fmd.shard_sequence.length) :
    ∃ f1, load_entries fmd k k = some f1 ∧ at_position f1 k ∧ same_chains fmd f1
      ∧ live_matches f1 = true := by
  have hk2 : k < fmd.shard_sequence.length := hlen ▸ hk
  simp only [load_entries, List.getElem?_eq_getElem hk, List.getElem?_eq_getElem hk2]
  refine ⟨_, rfl, ⟨rfl, rfl, hk, hlen⟩, ⟨rfl, rfl, rfl⟩, ?_⟩
  simp [live_matches, List.getElem?_eq_getElem hk, List.getElem?_eq_getElem hk2]

theorem get_next_spec (fmd : FractureModifierData) (k : Nat) (h : at_position fmd k) :
    (k + 1 < fmd.meshIsland_sequence.length →
      ∃ f1, BKE_get_next_entries fmd = some f1 ∧ at_position f1 (k + 1) ∧ same_chains fmd f1
        ∧ live_matches f1 = true)
    ∧ (¬ k + 1 < fmd.meshIsland_sequence.length → BKE_get_next_entries fmd = some fmd) := by
  obtain ⟨h1, h2, h3, h4⟩ := h
  constructor
  · intro hn
    simp only [BKE_get_next_entries, h1, h2, hn, if_true]
    exact load_entries_spec fmd (k + 1) hn h4
  · intro hn
    simp only [BKE_get_next_entries, h1, hn, if_false]

theorem get_prev_spec (fmd : FractureModifierData) (k : Nat) (h : at_position fmd (k + 1)) :
    ∃ f1, BKE_get_prev_entries fmd = some f1 ∧ at_position f1 k ∧ same_chains fmd f1
      ∧ live_matches f1 = true := by
  obtain ⟨h1, h2, h3, h4⟩ := h
  simp only [BKE_get_prev_entries, h1, h2]
  exact load_entries_spec fmd k (by omega) h4

theorem same_live_refl (fmd : FractureModifierData) : same_live fmd fmd = true := by
  simp [same_live]

theorem lookup_backward_spec (frame : Int) :
    ∀ (k : Nat) (fmd : FractureModifierData) (changed : Bool), at_position fmd k →
      ∃ r, lookup_backward frame k fmd changed = some r ∧ same_chains fmd r.2
        ∧ (∃ k1, k1 ≤ k ∧ at_position r.2 k1)
        ∧ ((r.2 = fmd ∧ r.1 = changed) ∨ (live_matches r.2 = true ∧ r.1 = true)) := by
  intro k
  induction k with
  | zero =>
    intro fmd changed h
    exact ⟨(changed, fmd), rfl, ⟨rfl, rfl, rfl⟩, ⟨0, le_refl _, h⟩, Or.inl ⟨rfl, rfl⟩⟩
  | succ k ih =>
    intro fmd changed h
    have hk : k < fmd.meshIsland_sequence.length := by have := h.2.2.1; omega
    simp only [lookup_backward, List.getElem?_eq_getElem hk]
    split
    · obtain ⟨f1, e1, p1, c1, l1⟩ := get_prev_spec fmd k h
      simp only [e1]
      obtain ⟨r, e2, c2, ⟨k1, hk1, p2⟩, hr⟩ := ih f1 true p1
      refine ⟨r, e2, ?_, ⟨k1, by omega, p2⟩, Or.inr ?_⟩
      · exact ⟨c2.1.trans c1.1, c2.2.1.trans c1.2.1, c2.2.2.trans c1.2.2⟩
      · rcases hr with ⟨rfl', hc⟩ | hr
        · exact ⟨by rw [rfl']; exact l1, hc⟩
        · exact hr
    · exact ⟨(changed, fmd), rfl, ⟨rfl, rfl, rfl⟩, ⟨k + 1, le_refl _, h⟩, Or.inl ⟨rfl, rfl⟩⟩

theorem lookup_forward_spec (frame : Int) :
    ∀ (left k : Nat) (fmd : FractureModifierData) (changed : Bool), at_position fmd k →
      k + left < fmd.meshIsland_sequence.length →
      ∃ r, lookup_forward frame left k fmd changed = some r ∧ same_chains fmd r.2
        ∧ (∃ k1, k ≤ k1 ∧ at_position r.2 k1)
        ∧ ((r.2 = fmd ∧ r.1 = changed) ∨ (live_matches r.2 = true ∧ r.1 = true)) := by
  intro left
  induction left with
  | zero =>
    intro k fmd changed h _
    exact ⟨(changed, fmd), rfl, ⟨rfl, rfl, rfl⟩, ⟨k, le_refl _, h⟩, Or.inl ⟨rfl, rfl⟩⟩
  | succ left ih =>
    intro k fmd changed h hl
    have hk : k < fmd.meshIsland_sequence.length := by omega
    have hk1 : k + 1 < fmd.meshIsland_sequence.length := by omega
    simp only [lookup_forward, List.getElem?_eq_getElem hk, List.getElem?_eq_getElem hk1]
    split
    · obtain ⟨f1, e1, p1, c1, l1⟩ := (get_next_spec fmd k h).1 hk1
      simp only [e1]
      obtain ⟨r, e2, c2, ⟨k1, hk1', p2⟩, hr⟩ := ih (k + 1) f1 true p1 (by rw [c1.1]; omega)
      refine ⟨r, e2, ?_, ⟨k1, by omega, p2⟩, Or.inr ?_⟩
      · exact ⟨c2.1.trans c1.1, c2.2.1.trans c1.2.1, c2.2.2.trans c1.2.2⟩
      · rcases hr with ⟨rfl', hc⟩ | hr
        · exact ⟨by rw [rfl']; exact l1, hc⟩
        · exact hr
    · exact ⟨(changed, fmd), rfl, ⟨rfl, rfl, rfl⟩, ⟨k, le_refl _, h⟩, Or.inl ⟨rfl, rfl⟩⟩

theorem lookup_spec (fmd : FractureModifierData) (frame : Int) (do_lookup : Bool) (k : Nat)
    (h : at_position fmd k) :
    ∃ r, BKE_lookup_mesh_state fmd frame do_lookup = some r
      ∧ (∃ k1, at_position r.2 k1)
      ∧ (same_live fmd r.2 = true ∨ live_matches r.2 = true) := by
  have hk : k < fmd.meshIsland_sequence.length := h.2.2.1
  simp only [BKE_lookup_mesh_state, h.1, List.getElem?_eq_getElem hk]
  cases do_lookup
  · simp only [Bool.false_eq_true, if_false]
    split
    · refine ⟨_, rfl, ⟨k, ?_⟩, Or.inl ?_⟩
      · exact ⟨rfl, h.2.1, h.2.2.1, h.2.2.2⟩
      · simp [same_live, h.1]
    · exact ⟨_, rfl, ⟨k, h⟩, Or.inl (same_live_refl fmd)⟩
  · simp only [if_true]
    split
    · obtain ⟨r, e, _, ⟨k1, _, p⟩, hr⟩ := lookup_backward_spec frame k fmd false h
      refine ⟨r, e, ⟨k1, p⟩, ?_⟩
      rcases hr with ⟨e1, _⟩ | ⟨l, _⟩
      · left; rw [e1]; exact same_live_refl fmd
      · right; exact l
    · split
      · obtain ⟨r, e, _, ⟨k1, _, p⟩, hr⟩ :=
          lookup_forward_spec frame (fmd.meshIsland_sequence.length - 1 - k) k fmd false h
            (by omega)
        refine ⟨r, e, ⟨k1, p⟩, ?_⟩
        rcases hr with ⟨e1, _⟩ | ⟨l, _⟩
        · left; rw [e1]; exact same_live_refl fmd
        · right; exact l
      · exact ⟨_, rfl, ⟨k, h⟩, Or.inl (same_live_refl fmd)⟩

/-! ### The stages of a pass -/

theorem reduceOption_map_some {α : Type} (l : List α) : (l.map some).reduceOption = l := by
  induction l with
  | nil => rfl
  | cons a l ih => simp [List.reduceOption_cons_of_some, ih]

theorem delete_shards_none :
    ∀ (d : List Int) (i : Nat) (slots : List (Option Shard))
      (r : List (Option Shard) × Option (List (Option Nat))),
      delete_shards d i slots none = some r → r.1 = slots := by
  intro d
  induction d with
  | nil => intro i slots r h; simp only [delete_shards] at h; cases h; rfl
  | cons x d ih =>
    intro i slots r h
    simp only [delete_shards] at h
    split at h
    · cases h
    · exact ih _ _ _ h

theorem do_prepare_cells_map (fm : FracMesh) (cells : List cell) (algorithm : Algorithm)
    (p : Shard) (centroid : Vec3) (pre : Prepared)
    (h : do_prepare_cells fm cells algorithm p centroid = some pre) :
    pre.fm.shard_map = pre.slots.reduceOption ∧ pre.fm.cancel = fm.cancel
      ∧ pre.tempresults = List.replicate cells.length none
      ∧ (fm.last_shards = none → pre.slots = fm.shard_map.map some) := by
  unfold do_prepare_cells at h
  simp only at h
  split at h
  · cases h
  · split at h
    · cases h
    · rename_i m hm slots last_shards hd
      cases h
      refine ⟨rfl, rfl, rfl, ?_⟩
      intro hl
      rw [hl] at hd
      exact delete_shards_none _ _ _ _ hd

theorem finish_pass_shard_map (mat : Mat4) (mode : Mode) (su : PassSetup) (fm6 : FracMesh)
    (tempresults : List (Option Shard)) :
    (finish_pass mat mode su fm6 tempresults).shard_map =
      fm6.shard_map ++ added_shards mat (id_offset mode fm6.shard_map) su.parent_id su.pcentroid
        0 tempresults := by
  unfold finish_pass
  simp only [add_results_spec]
  split <;> rfl

/-- How a pass that ran to its end is put together. -/
theorem parse_cells_some (K : Kernel) (cells : List cell) (parent_id : Int) (fm fm1 : FracMesh)
    (algorithm : Algorithm) (dm : Option Mesh) (mat : Mat4) (mode : Mode) (reset : Bool)
    (rng : Nat) (p0 : ShardRef) (hp : BKE_shard_by_id K fm parent_id dm = some p0)
    (h : parse_cells K cells parent_id fm algorithm dm mat mode reset rng = some fm1) :
    ∃ pre r,
      do_prepare_cells (parse_cells_setup fm p0 parent_id algorithm mode reset).fm cells algorithm
          (parse_cells_setup fm p0 parent_id algorithm mode reset).p zero_v3 = some pre
        ∧ refine_cells K cells.length algorithm
            (parse_cells_setup fm p0 parent_id algorithm mode reset) pre rng = some r
        ∧ fm1 = finish_pass mat mode (parse_cells_setup fm p0 parent_id algorithm mode reset)
            r.1 r.2 := by
  unfold parse_cells at h
  simp only [hp] at h
  split at h
  · cases h
  · split at h
    · cases h
    · rename_i pre hpre
      split at h
      · cases h
      · rename_i fm6 tempresults hr
        split at h
        · cases h
        · cases h
          exact ⟨pre, (fm6, tempresults), hpre, hr, rfl⟩

/-- A pass that ran to its end did not misuse its parent. -/
theorem parse_cells_parent_used (K : Kernel) (cells : List cell) (parent_id : Int)
    (fm fm1 : FracMesh) (algorithm : Algorithm) (dm : Option Mesh) (mat : Mat4) (mode : Mode)
    (reset : Bool) (rng : Nat) (p0 : ShardRef)
    (hp : BKE_shard_by_id K fm parent_id dm = some p0)
    (h : parse_cells K cells parent_id fm algorithm dm mat mode reset rng = some fm1) :
    parent_misused p0 mode reset = false := by
  unfold parse_cells at h
  simp only [hp] at h
  split at h
  · cases h
  · rename_i hm
    simpa using hm

theorem linked_shard_freed_replicate (algorithm : Algorithm) (n : Nat) :
    linked_shard_freed algorithm (List.replicate n none) = false := by
  unfold linked_shard_freed
  rw [Bool.and_eq_false_iff]
  right
  rw [List.any_eq_false]
  intro x hx
  rw [List.eq_of_mem_replicate hx]
  simp

theorem modify_eraseIdx {α : Type} (f : α → α) :
    ∀ (l : List α) (k : Nat), (l.modify f k).eraseIdx k = l.eraseIdx k := by
  intro l
  induction l with
  | nil => intro k; cases k <;> rfl
  | cons a l ih =>
    intro k
    cases k with
    | zero => rfl
    | succ k => simp only [List.modify_succ_cons, List.eraseIdx_cons_succ, ih]

/-- The map a dynamic pass appends its shards to: the old map without the parent. -/
theorem parse_cells_setup_dynamic (fm : FracMesh) (p0 : ShardRef) (parent_id : Int)
    (algorithm : Algorithm) (reset : Bool) :
    (parse_cells_setup fm p0 parent_id algorithm .DYNAMIC reset).fm.shard_map =
        (if reset then [] else
          match p0.pos with
          | some k => fm.shard_map.eraseIdx k
          | none => fm.shard_map)
      ∧ (parse_cells_setup fm p0 parent_id algorithm .DYNAMIC reset).fm.last_shards = none := by
  unfold parse_cells_setup
  cases reset
  · cases hpos : p0.pos with
    | none => simp [unlink_parent, mark_fractured, rebuild_last_shards, reset_shard_map]
    | some k =>
      simp [unlink_parent, mark_fractured, rebuild_last_shards, reset_shard_map, modify_eraseIdx]
  · simp [unlink_parent, mark_fractured, rebuild_last_shards, reset_shard_map]

/-! ### A cancelled pass -/

theorem reduceOption_set_none_sublist {α : Type} :
    ∀ (slots : List (Option α)) (pos : Nat),
      (slots.set pos none).reduceOption.Sublist slots.reduceOption := by
  intro slots
  induction slots with
  | nil => intro pos; simp
  | cons x slots ih =>
    intro pos
    cases pos with
    | zero =>
      cases x with
      | none => simp
      | some a => simp [List.reduceOption_cons_of_some, List.reduceOption_cons_of_none]
    | succ pos =>
      cases x with
      | none => simpa [List.reduceOption_cons_of_none] using ih pos
      | some a =>
        simp only [List.set_cons_succ, List.reduceOption_cons_of_some]
        exact (ih pos).cons₂ a

theorem delete_shards_sublist :
    ∀ (d : List Int) (i : Nat) (slots : List (Option Shard)) (ls : Option (List (Option Nat)))
      (r : List (Option Shard) × Option (List (Option Nat))),
      delete_shards d i slots ls = some r → r.1.reduceOption.Sublist slots.reduceOption := by
  intro d
  induction d with
  | nil => intro i slots ls r h; simp only [delete_shards] at h; cases h; exact List.Sublist.refl _
  | cons x d ih =>
    intro i slots ls r h
    simp only [delete_shards] at h
    split at h
    · split at h
      · cases h
      · split at h
        · split at h
          · exact (ih _ _ _ _ h).trans (reduceOption_set_none_sublist _ _)
          · cases h
        · cases h
    · exact ih _ _ _ _ h

theorem do_prepare_cells_sublist (fm : FracMesh) (cells : List cell) (algorithm : Algorithm)
    (p : Shard) (centroid : Vec3) (pre : Prepared)
    (h : do_prepare_cells fm cells algorithm p centroid = some pre) :
    pre.fm.shard_map.Sublist fm.shard_map := by
  unfold do_prepare_cells at h
  simp only at h
  split at h
  · cases h
  · split at h
    · cases h
    · rename_i m hm slots last_shards hd
      cases h
      have := delete_shards_sublist _ _ _ _ _ hd
      rwa [reduceOption_map_some] at this

theorem refine_loop_cancel (K : Kernel) (expected_shards : Nat) (algorithm : Algorithm)
    (parent_id : Int) (dm_parent bm_parent : Option Mesh) :
    ∀ (left : Nat) (i : Nat) (st : RefineState), st.fm.cancel = 1 →
      refine_loop K expected_shards algorithm parent_id dm_parent bm_parent left i st = some st := by
  intro left
  induction left with
  | zero => intro i st _; rfl
  | succ left ih =>
    intro i st hc
    simp only [refine_loop, handle_boolean_bisect, hc, if_true]
    exact ih _ _ hc

theorem handle_fast_bisect_loop_cancel (K : Kernel) (expected_shards : Nat)
    (algorithm : Algorithm) (parent_id : Int) (left i : Nat) (st : FastState)
    (hc : st.fm.cancel = 1) :
    handle_fast_bisect_loop K expected_shards algorithm parent_id left i st = some st := by
  cases left with
  | zero => rfl
  | succ left => simp only [handle_fast_bisect_loop, hc, if_true]

theorem refine_cells_cancel (K : Kernel) (expected_shards : Nat) (algorithm : Algorithm)
    (su : PassSetup) (pre : Prepared) (rng : Nat) (r : FracMesh × List (Option Shard))
    (hc : pre.fm.cancel = 1)
    (hfast : ¬ ((algorithm = .BISECT_FAST ∨ algorithm = .BISECT_FAST_FILL) ∧ expected_shards = 1))
    (h : refine_cells K expected_shards algorithm su pre rng = some r) :
    r.2 = pre.tempresults := by
  unfold refine_cells at h
  simp only at h
  split at h
  · rw [refine_loop_cancel _ _ _ _ _ _ _ _ _ hc] at h
    cases h; rfl
  · rename_i ha
    split at h
    · rename_i h1
      exfalso
      apply hfast
      refine ⟨?_, h1⟩
      by_contra hn
      push_neg at hn
      exact ha ⟨hn.1, hn.2⟩
    · unfold handle_fast_bisect at h
      rw [handle_fast_bisect_loop_cancel _ _ _ _ _ _ _ hc] at h
      cases h; rfl

theorem added_shards_replicate_none (mat : Mat4) (j : Int) (parent_id : Int) (pcentroid : Vec3)
    (count : Int) : ∀ n : Nat,
      added_shards mat j parent_id pcentroid count (List.replicate n none) = [] := by
  intro n
  induction n with
  | zero => rfl
  | succ n ih => simp only [List.replicate_succ, added_shards, ih]

theorem map_without_flag_modify (l : List Shard) (f : ShardFlag) (k : Nat) :
    (l.modify (fun t => { t with flag := f }) k).map Shard.without_flag
      = l.map Shard.without_flag := by
  induction l generalizing k with
  | nil => cases k <;> rfl
  | cons a l ih =>
    cases k with
    | zero => simp [List.modify, Shard.without_flag]
    | succ k => simp only [List.modify_succ_cons, List.map_cons, ih]

theorem reset_shard_map_sublist (fm : FracMesh) (reset : Bool) :
    (reset_shard_map fm reset).shard_map.Sublist fm.shard_map
      ∧ (reset_shard_map fm reset).cancel = fm.cancel := by
  unfold reset_shard_map
  cases reset
  · exact ⟨List.Sublist.refl _, rfl⟩
  · exact ⟨List.nil_sublist _, rfl⟩

theorem rebuild_last_shards_flags (fm : FracMesh) (algorithm : Algorithm) (mode : Mode)
    (reset : Bool) :
    (rebuild_last_shards fm algorithm mode reset).shard_map.map Shard.without_flag
        = fm.shard_map.map Shard.without_flag
      ∧ (rebuild_last_shards fm algorithm mode reset).cancel = fm.cancel := by
  unfold rebuild_last_shards
  simp only
  split
  · split
    · refine ⟨?_, rfl⟩
      simp only [List.map_map]
      rfl
    · exact ⟨rfl, rfl⟩
  · exact ⟨rfl, rfl⟩

theorem mark_fractured_flags (fm : FracMesh) (pos : Option Nat) :
    (mark_fractured fm pos).shard_map.map Shard.without_flag
        = fm.shard_map.map Shard.without_flag
      ∧ (mark_fractured fm pos).cancel = fm.cancel := by
  unfold mark_fractured
  cases pos with
  | none => exact ⟨rfl, rfl⟩
  | some k => exact ⟨map_without_flag_modify _ _ _, rfl⟩

theorem unlink_parent_sublist (fm : FracMesh) (pos : Option Nat) :
    (unlink_parent fm pos).shard_map.Sublist fm.shard_map
      ∧ (unlink_parent fm pos).cancel = fm.cancel := by
  unfold unlink_parent
  cases pos with
  | none => exact ⟨List.Sublist.refl _, rfl⟩
  | some k => exact ⟨List.eraseIdx_sublist _ _, rfl⟩

theorem parse_cells_setup_sublist (fm : FracMesh) (p0 : ShardRef) (parent_id : Int)
    (algorithm : Algorithm) (mode : Mode) (reset : Bool) :
    ((parse_cells_setup fm p0 parent_id algorithm mode reset).fm.shard_map.map
        Shard.without_flag).Sublist (fm.shard_map.map Shard.without_flag)
      ∧ (parse_cells_setup fm p0 parent_id algorithm mode reset).fm.cancel = fm.cancel := by
  have h1 := reset_shard_map_sublist fm reset
  have h2 := rebuild_last_shards_flags (reset_shard_map fm reset) algorithm mode reset
  have h3 := mark_fractured_flags (rebuild_last_shards (reset_shard_map fm reset) algorithm mode
    reset) (if reset then none else p0.pos)
  have h4 := unlink_parent_sublist (mark_fractured (rebuild_last_shards (reset_shard_map fm reset)
    algorithm mode reset) (if reset then none else p0.pos)) (if reset then none else p0.pos)
  have hbase : ((mark_fractured (rebuild_last_shards (reset_shard_map fm reset) algorithm mode
      reset) (if reset then none else p0.pos)).shard_map.map Shard.without_flag).Sublist
      (fm.shard_map.map Shard.without_flag) := by
    rw [h3.1, h2.1]
    exact h1.1.map _
  have hc : (mark_fractured (rebuild_last_shards (reset_shard_map fm reset) algorithm mode
      reset) (if reset then none else p0.pos)).cancel = fm.cancel := by
    rw [h3.2, h2.2, h1.2]
  unfold parse_cells_setup
  simp only
  split
  · exact ⟨(h4.1.map _).trans hbase, h4.2.trans hc⟩
  · exact ⟨hbase, hc⟩

/-! ### A pass without a diff cache -/

theorem delete_shards_zeros (n : Nat) :
    ∀ (i : Nat) (slots : List (Option Shard)) (ls : Option (List (Option Nat))),
      delete_shards (List.replicate n 0) i slots ls = some (slots, ls) := by
  induction n with
  | zero => intro i slots ls; rfl
  | succ n ih =>
    intro i slots ls
    simp only [List.replicate_succ, delete_shards, ne_eq, not_true_eq_false, if_false]
    exact ih _ _ _

theorem prepare_tempshards_zeros :
    ∀ (cells : List cell),
      prepare_tempshards cells (List.replicate cells.length 0)
        = cells.map (fun c => some (parse_cell c)) := by
  intro cells
  induction cells with
  | nil => rfl
  | cons c cells ih =>
    simp only [List.length_cons, List.replicate_succ, prepare_tempshards, ne_eq,
      not_true_eq_false, if_false, List.map_cons, ih]

theorem prepare_tempshards_ones :
    ∀ (cells : List cell),
      prepare_tempshards cells (List.replicate cells.length 1)
        = List.replicate cells.length none := by
  intro cells
  induction cells with
  | nil => rfl
  | cons c cells ih =>
    simp only [List.length_cons, List.replicate_succ, prepare_tempshards, ne_eq,
      one_ne_zero, not_false_eq_true, if_true, ih]

theorem tag_tag (s : Shard) (parent_id : Int) :
    (s.tag parent_id).tag parent_id = s.tag parent_id := rfl

theorem tag_invalid (s : Shard) (parent_id : Int) : (s.tag parent_id).invalid = s.invalid := rfl

/-- The passthrough loop: with the algorithm NONE every valid parsed cell is handed on. -/
theorem refine_loop_none (K : Kernel) (expected_shards : Nat) (parent_id : Int)
    (dm_parent bm_parent : Option Mesh) (fm : FracMesh) (hc : fm.cancel ≠ 1) :
    ∀ (todo : List cell) (done : List (Option Shard)) (dm_p : Option Mesh) (rng : Nat)
      (pc : Int),
      (∀ c ∈ todo, (parse_cell c).invalid = false) →
      ∃ dm_p1 rng1 pc1,
        refine_loop K expected_shards .NONE parent_id dm_parent bm_parent todo.length done.length
            ⟨{ fm with progress_counter := pc },
              done ++ todo.map (fun c => some (parse_cell c)),
              done ++ List.replicate todo.length none, dm_p, rng⟩
          = some ⟨{ fm with progress_counter := pc1 },
              done ++ todo.map (fun c => some ((parse_cell c).tag parent_id)),
              done ++ todo.map (fun c => some ((parse_cell c).tag parent_id)), dm_p1, rng1⟩ := by
  intro todo
  induction todo with
  | nil =>
    intro done dm_p rng pc _
    exact ⟨dm_p, rng, pc, rfl⟩
  | cons c todo ih =>
    intro done dm_p rng pc hv
    have hvc : (parse_cell c).invalid = false := hv c (List.mem_cons_self _ _)
    have hget : (done ++ (c :: todo).map (fun c => some (parse_cell c)))[done.length]?
        = some (some (parse_cell c)) := by
      rw [List.getElem?_append_right (le_refl _)]
      simp
    have hset : array_set (done ++ List.replicate (c :: todo).length none) done.length
        (some ((parse_cell c).tag parent_id))
        = some ((done ++ [some ((parse_cell c).tag parent_id)])
            ++ List.replicate todo.length none) := by
      unfold array_set
      rw [if_pos (by simp)]
      simp [List.replicate_succ]
    have hset2 : (done ++ (c :: todo).map (fun c => some (parse_cell c))).set done.length
        (some ((parse_cell c).tag parent_id))
        = (done ++ [some ((parse_cell c).tag parent_id)])
            ++ todo.map (fun c => some (parse_cell c)) := by
      simp
    obtain ⟨dm_p1, rng1, pc1, hih⟩ := ih (done ++ [some ((parse_cell c).tag parent_id)]) dm_p rng
      (pc + 1) (fun c hc => hv c (List.mem_cons_of_mem _ hc))
    refine ⟨dm_p1, rng1, pc1, ?_⟩
    simp only [List.length_cons, refine_loop, handle_boolean_bisect, hc, if_false, hget,
      tag_invalid, hvc, Bool.false_eq_true, reduceCtorEq, or_self, hset2, tag_tag]
    simp only [List.length_cons] at hset
    simp only [hset, if_true]
    simp only [List.length_append, List.length_singleton, List.append_assoc, List.singleton_append,
      List.map_cons] at hih ⊢
    exact hih

/-! ### The setup of a pass -/

theorem prepare_maps_no_tree (fm : FracMesh) (cells : List cell) (algorithm : Algorithm)
    (halg : algorithm ≠ .BISECT_FAST ∧ algorithm ≠ .BISECT_FAST_FILL
      ∧ algorithm ≠ .BOOLEAN_FRACTAL)
    (htree : fm.last_shard_tree = none) :
    prepare_maps fm cells algorithm
      = some ⟨List.replicate cells.length 0, List.replicate fm.shard_count.toNat 0⟩ := by
  unfold prepare_maps
  simp [halg.1, halg.2.1, halg.2.2, htree]

theorem mark_fractured_tree (fm : FracMesh) (pos : Option Nat) :
    (mark_fractured fm pos).last_shard_tree = fm.last_shard_tree
      ∧ (mark_fractured fm pos).last_shards = fm.last_shards
      ∧ (mark_fractured fm pos).shard_count = fm.shard_count
      ∧ (mark_fractured fm pos).last_expected_shards = fm.last_expected_shards := by
  cases pos <;> exact ⟨rfl, rfl, rfl, rfl⟩

theorem parse_cells_setup_empty (fm : FracMesh) (p0 : ShardRef) (parent_id : Int)
    (algorithm : Algorithm) (mode : Mode) (reset : Bool)
    (hE : reset = true ∨ (fm.shard_map = [] ∧ fm.shard_count = 0 ∧ fm.last_shard_tree = none)) :
    (parse_cells_setup fm p0 parent_id algorithm mode reset).fm.shard_map = []
      ∧ (parse_cells_setup fm p0 parent_id algorithm mode reset).fm.last_shard_tree = none
      ∧ (parse_cells_setup fm p0 parent_id algorithm mode reset).fm.cancel = fm.cancel := by
  have h0 : (reset_shard_map fm reset).shard_map = [] := by
    rcases hE with rfl | ⟨h1, _, _⟩
    · rfl
    · cases reset
      · exact h1
      · rfl
  have h2 := rebuild_last_shards_flags (reset_shard_map fm reset) algorithm mode reset
  have h3 := mark_fractured_flags (rebuild_last_shards (reset_shard_map fm reset) algorithm mode
    reset) (if reset then none else p0.pos)
  have h4 := unlink_parent_sublist (mark_fractured (rebuild_last_shards (reset_shard_map fm reset)
    algorithm mode reset) (if reset then none else p0.pos)) (if reset then none else p0.pos)
  have hm3 : (mark_fractured (rebuild_last_shards (reset_shard_map fm reset) algorithm mode
      reset) (if reset then none else p0.pos)).shard_map = [] := by
    have := h3.1
    rw [h2.1, h0] at this
    simpa using this
  have ht2 : (rebuild_last_shards (reset_shard_map fm reset) algorithm mode reset).last_shard_tree
      = none := by
    unfold rebuild_last_shards
    rcases hE with rfl | ⟨_, hcount, htree⟩
    · simp
    · cases reset
      · cases mode
        · simp [reset_shard_map, hcount, htree]
        · simp
      · simp
  have ht3 := (mark_fractured_tree (rebuild_last_shards (reset_shard_map fm reset) algorithm mode
      reset) (if reset then none else p0.pos)).1
  refine ⟨?_, ?_, (parse_cells_setup_sublist fm p0 parent_id algorithm mode reset).2⟩
  · unfold parse_cells_setup
    simp only
    split
    · have := h4.1
      rw [hm3] at this
      exact List.eq_nil_of_sublist_nil this
    · exact hm3
  · unfold parse_cells_setup
    simp only
    split
    · unfold unlink_parent
      exact ht3.trans ht2
    · exact ht3.trans ht2

theorem parse_cells_setup_parent (fm : FracMesh) (p0 : ShardRef) (parent_id : Int)
    (algorithm : Algorithm) (mode : Mode) (reset : Bool) :
    (parse_cells_setup fm p0 parent_id algorithm mode reset).parent_id
        = (if mode = .DYNAMIC then p0.shard.shard_id else parent_id)
      ∧ (parse_cells_setup fm p0 parent_id algorithm mode reset).pcentroid
        = (if mode = .DYNAMIC then p0.shard.centroid else zero_v3) := by
  unfold parse_cells_setup
  cases mode <;> simp

theorem added_shards_map (mat : Mat4) (j : Int) (parent_id : Int) (pcentroid : Vec3)
    (g : cell → Shard) :
    ∀ (cells : List cell) (count : Int) (i : Nat) (c : cell), cells[i]? = some c →
      (added_shards mat j parent_id pcentroid count (cells.map (fun c => some (g c))))[i]?
        = some (finish_shard j parent_id pcentroid
            { g c with mvert := (g c).mvert.map (fun mv => ⟨mat mv.co⟩),
                       centroid := mat (g c).centroid, shard_id := count + i }) := by
  intro cells
  induction cells with
  | nil => intro count i c h; simp at h
  | cons c0 cells ih =>
    intro count i c h
    cases i with
    | zero =>
      simp only [List.getElem?_cons_zero, Option.some.injEq] at h
      subst h
      simp [added_shards]
    | succ i =>
      simp only [List.getElem?_cons_succ] at h
      simp only [List.map_cons, added_shards, List.getElem?_cons_succ]
      rw [ih (count + 1) i c h]
      simp only [Nat.cast_add, Nat.cast_one]
      congr 3
      ring

/-! ### The nearest neighbour search -/

theorem len_squared_nonneg (a b : Vec3) : 0 ≤ len_squared_v3v3 a b := by
  unfold len_squared_v3v3
  exact add_nonneg (add_nonneg (mul_self_nonneg _) (mul_self_nonneg _)) (mul_self_nonneg _)

theorem len_squared_self (a : Vec3) : len_squared_v3v3 a a = 0 := by
  unfold len_squared_v3v3
  ring

theorem len_squared_pos (a b : Vec3) (h : a ≠ b) : 0 < len_squared_v3v3 a b := by
  rcases lt_or_eq_of_le (len_squared_nonneg a b) with h1 | h1
  · exact h1
  · exfalso
    apply h
    unfold len_squared_v3v3 at h1
    obtain ⟨a1, a2, a3⟩ := a
    obtain ⟨b1, b2, b3⟩ := b
    simp only at h1
    have e1 : b1 - a1 = 0 := by nlinarith [mul_self_nonneg (b1 - a1), mul_self_nonneg (b2 - a2), mul_self_nonneg (b3 - a3)]
    have e2 : b2 - a2 = 0 := by nlinarith [mul_self_nonneg (b1 - a1), mul_self_nonneg (b2 - a2), mul_self_nonneg (b3 - a3)]
    have e3 : b3 - a3 = 0 := by nlinarith [mul_self_nonneg (b1 - a1), mul_self_nonneg (b2 - a2), mul_self_nonneg (b3 - a3)]
    have f1 : a1 = b1 := by linarith
    have f2 : a2 = b2 := by linarith
    have f3 : a3 = b3 := by linarith
    rw [f1, f2, f3]

theorem kdtree_nearest_zero (co : Vec3) :
    ∀ (l : List Vec3) (k b : Nat),
      kdtree_nearest_from co l k (some (b, 0)) = some (b, 0) := by
  intro l
  induction l with
  | nil => intro k b; rfl
  | cons p l ih =>
    intro k b
    simp only [kdtree_nearest_from]
    rw [if_neg (not_lt.mpr (len_squared_nonneg p co))]
    exact ih _ _

theorem kdtree_nearest_hit (co : Vec3) (l2 : List Vec3) :
    ∀ (l1 : List Vec3) (k : Nat) (best : Option (Nat × ℚ)),
      (∀ p ∈ l1, p ≠ co) → (∀ b d, best = some (b, d) → 0 < d) →
      kdtree_nearest_from co (l1 ++ co :: l2) k best = some (k + l1.length, 0) := by
  intro l1
  induction l1 with
  | nil =>
    intro k best _ hb
    cases best with
    | none =>
      simp only [List.nil_append, kdtree_nearest_from, len_squared_self]
      rw [kdtree_nearest_zero]; rfl
    | some bd =>
      obtain ⟨b, d⟩ := bd
      have := hb b d rfl
      simp only [List.nil_append, kdtree_nearest_from, len_squared_self, this, if_true]
      rw [kdtree_nearest_zero]; rfl
  | cons p l1 ih =>
    intro k best hne hb
    have hp : 0 < len_squared_v3v3 p co := len_squared_pos p co (hne p (List.mem_cons_self _ _))
    have hne' : ∀ q ∈ l1, q ≠ co := fun q hq => hne q (List.mem_cons_of_mem _ hq)
    have e : (p :: l1) ++ co :: l2 = p :: (l1 ++ co :: l2) := rfl
    rw [e]
    cases best with
    | none =>
      simp only [kdtree_nearest_from]
      rw [ih (k + 1) _ hne' (by intro b d h; cases h; exact hp)]
      simp only [List.length_cons]; congr 2; omega
    | some bd =>
      obtain ⟨b, d⟩ := bd
      simp only [kdtree_nearest_from]
      split
      · rw [ih (k + 1) _ hne' (by intro b d h; cases h; exact hp)]
        simp only [List.length_cons]; congr 2; omega
      · rw [ih (k + 1) _ hne' (by intro b' d' h; cases h; exact hb b d rfl)]
        simp only [List.length_cons]; congr 2; omega

theorem find_nearest_hit (co : Vec3) (l1 l2 : List Vec3) (h : ∀ p ∈ l1, p ≠ co) :
    BLI_kdtree_find_nearest (l1 ++ co :: l2) co = some l1.length := by
  unfold BLI_kdtree_find_nearest
  rw [kdtree_nearest_hit co l2 l1 0 none h (by intro b d h; cases h)]
  simp

theorem max_neighbor_dist_spec (cells : List cell) (c : cell) :
    ∀ (l : List Int) (max0 : ℚ),
      (∀ n ∈ l, -1 < n → ∃ cn, cells[n.toNat]? = some cn) →
      ∃ m, max_neighbor_dist cells c l max0 = some m ∧ max0 ≤ m
        ∧ ∀ n ∈ l, -1 < n → ∀ cn, cells[n.toNat]? = some cn →
            len_squared_v3v3 cn.centroid c.centroid ≤ m := by
  intro l
  induction l with
  | nil => intro max0 _; exact ⟨max0, rfl, le_refl _, by simp⟩
  | cons n l ih =>
    intro max0 hr
    have hr' : ∀ n ∈ l, -1 < n → ∃ cn, cells[n.toNat]? = some cn :=
      fun n hn => hr n (List.mem_cons_of_mem _ hn)
    simp only [max_neighbor_dist]
    split
    · rename_i hn
      obtain ⟨cn, hcn⟩ := hr n (List.mem_cons_self _ _) hn
      simp only [hcn]
      split
      · rename_i hgt
        obtain ⟨m, hm, hle, hall⟩ := ih (len_squared_v3v3 cn.centroid c.centroid) hr'
        refine ⟨m, hm, le_trans (le_of_lt hgt) hle, ?_⟩
        intro n' hn' hpos cn' hcn'
        rcases List.mem_cons.mp hn' with rfl | hmem
        · rw [hcn] at hcn'; cases hcn'; exact hle
        · exact hall n' hmem hpos cn' hcn'
      · rename_i hgt
        obtain ⟨m, hm, hle, hall⟩ := ih max0 hr'
        refine ⟨m, hm, hle, ?_⟩
        intro n' hn' hpos cn' hcn'
        rcases List.mem_cons.mp hn' with rfl | hmem
        · rw [hcn] at hcn'; cases hcn'; exact le_trans (not_lt.mp hgt) hle
        · exact hall n' hmem hpos cn' hcn'
    · rename_i hn
      obtain ⟨m, hm, hle, hall⟩ := ih max0 hr'
      refine ⟨m, hm, hle, ?_⟩
      intro n' hn' hpos cn' hcn'
      rcases List.mem_cons.mp hn' with rfl | hmem
      · exact absurd hpos hn
      · exact hall n' hmem hpos cn' hcn'

theorem max_neighbor_dist_pos (cells : List cell) (c : cell) (h : has_far_neighbor cells c) :
    ∃ m, max_neighbor_dist cells c c.neighbors 0 = some m ∧ 0 < m := by
  obtain ⟨hr, n, hn, hpos, cn, hcn, hne⟩ := h
  obtain ⟨m, hm, _, hall⟩ := max_neighbor_dist_spec cells c c.neighbors 0 hr
  exact ⟨m, hm, lt_of_lt_of_le (len_squared_pos _ _ hne) (hall n hn hpos cn hcn)⟩

/-! ### The diff cache on an unchanged point cloud -/

theorem diff_cell_skip (g : FracMesh) (tree : List Vec3) (cells : List cell) (i : Nat) (c : cell)
    (m : DiffMaps) (mx : ℚ) (ls : List (Option Nat)) (t : Shard)
    (h1 : max_neighbor_dist cells c c.neighbors 0 = some mx) (hmx : 0 < mx)
    (h2 : BLI_kdtree_find_nearest tree c.centroid = some i)
    (h3 : tree[i]? = some c.centroid)
    (h4 : g.last_shards = some ls) (h4' : ls[i]? = some (some i))
    (h5 : g.shard_map[i]? = some t) (h5' : t.raw_volume = c.volume)
    (h6 : i < m.skipmap.length) (h6' : i < m.deletemap.length) :
    diff_cell g tree cells i c m = some ⟨m.skipmap.set i 1, m.deletemap.set i 0⟩ := by
  unfold diff_cell
  simp only [h1, h2, h3, h4, h4', h5, h5', len_squared_self, hmx, if_true, sub_self, abs_zero,
    array_set, h6, h6']
  norm_num

theorem set_replicate_append {α : Type} (a b c : α) (l : List α) :
    ∀ i : Nat, (List.replicate i a ++ b :: l).set i c = List.replicate i a ++ c :: l := by
  intro i
  induction i with
  | zero => rfl
  | succ i ih => simp only [List.replicate_succ, List.cons_append, List.set_cons_succ, ih]

theorem replicate_append_cons {α : Type} (a : α) (l : List α) :
    ∀ i : Nat, List.replicate i a ++ a :: l = List.replicate (i + 1) a ++ l := by
  intro i
  induction i with
  | zero => rfl
  | succ i ih =>
    rw [List.replicate_succ, List.cons_append, ih]
    rfl

theorem diff_cells_all_skip (g : FracMesh) (cells : List cell)
    (hnodup : (cells.map (fun c => c.centroid)).Nodup)
    (hfar : ∀ c ∈ cells, has_far_neighbor cells c)
    (hls : g.last_shards = some ((List.range cells.length).map some))
    (hvol : ∀ (i : Nat) (c : cell), cells[i]? = some c →
      ∃ t, g.shard_map[i]? = some t ∧ t.raw_volume = c.volume) :
    ∀ (rest done : List cell), cells = done ++ rest →
      diff_cells g (cells.map (fun c => c.centroid)) cells rest done.length
          ⟨List.replicate done.length 1 ++ List.replicate rest.length 0,
            List.replicate done.length 0 ++ List.replicate rest.length 1⟩
        = some ⟨List.replicate cells.length 1, List.replicate cells.length 0⟩ := by
  intro rest
  induction rest with
  | nil =>
    intro done hsplit
    simp only [diff_cells, List.length_nil, List.replicate_zero, List.append_nil, hsplit]
  | cons c rest ih =>
    intro done hsplit
    have hi : cells[done.length]? = some c := by
      rw [hsplit, List.getElem?_append_right (le_refl _)]; simp
    have hlen : done.length < cells.length := by
      rw [hsplit]; simp
    obtain ⟨mx, h1, hmx⟩ := max_neighbor_dist_pos cells c
      (hfar c (by rw [hsplit]; simp))
    have hT : cells.map (fun c => c.centroid)
        = done.map (fun c => c.centroid) ++ c.centroid :: rest.map (fun c => c.centroid) := by
      rw [hsplit]; simp
    have hne : ∀ p ∈ done.map (fun c => c.centroid), p ≠ c.centroid := by
      intro p hp heq
      rw [hT, List.nodup_append] at hnodup
      exact hnodup.2.2 hp (by rw [heq]; exact List.mem_cons_self _ _)
    have h2 : BLI_kdtree_find_nearest (cells.map (fun c => c.centroid)) c.centroid
        = some done.length := by
      rw [hT]
      have := find_nearest_hit c.centroid (done.map (fun c => c.centroid))
        (rest.map (fun c => c.centroid)) hne
      simpa using this
    have h3 : (cells.map (fun c => c.centroid))[done.length]? = some c.centroid := by
      rw [List.getElem?_map, hi]; rfl
    have h4' : ((List.range cells.length).map some)[done.length]? = some (some done.length) := by
      rw [List.getElem?_map, List.getElem?_range hlen]; rfl
    obtain ⟨t, h5, h5'⟩ := hvol done.length c hi
    have hstep := diff_cell_skip g (cells.map (fun c => c.centroid)) cells done.length c
      ⟨List.replicate done.length 1 ++ List.replicate (c :: rest).length 0,
        List.replicate done.length 0 ++ List.replicate (c :: rest).length 1⟩
      mx _ t h1 hmx h2 h3 hls h4' h5 h5' (by simp) (by simp)
    simp only [diff_cells, hstep]
    have hnext := ih (done ++ [c]) (by rw [hsplit]; simp)
    simp only [List.length_append, List.length_singleton] at hnext
    simp only [List.length_cons, List.replicate_succ, set_replicate_append,
      replicate_append_cons]
    exact hnext

/-! ### The repeated pass -/

theorem refine_loop_all_skipped (K : Kernel) (expected_shards : Nat) (algorithm : Algorithm)
    (parent_id : Int) (dm_parent bm_parent : Option Mesh) (n : Nat) :
    ∀ (left : Nat) (i : Nat) (st : RefineState), st.tempshards = List.replicate n none →
      i + left ≤ n →
      refine_loop K expected_shards algorithm parent_id dm_parent bm_parent left i st = some st := by
  intro left
  induction left with
  | zero => intro i st _ _; rfl
  | succ left ih =>
    intro i st hts hle
    have hget : st.tempshards[i]? = some none := by
      rw [hts, List.getElem?_replicate]
      simp; omega
    simp only [refine_loop, handle_boolean_bisect, hget, ite_self, if_true]
    exact ih _ _ hts (by omega)

theorem whole_mesh_parent (K : Kernel) (fm : FracMesh) (d : Mesh) :
    ∃ p0, BKE_shard_by_id K fm (-1) (some d) = some p0 ∧ p0.pos = none := by
  unfold BKE_shard_by_id
  rw [if_neg (by decide), if_pos rfl]
  exact ⟨_, rfl, rfl⟩

theorem parse_cells_setup_incremental (fm : FracMesh) (p0 : ShardRef) (parent_id : Int)
    (algorithm : Algorithm) (hpos : p0.pos = none)
    (halg : algorithm ≠ .BISECT_FAST ∧ algorithm ≠ .BISECT_FAST_FILL
      ∧ algorithm ≠ .BOOLEAN_FRACTAL)
    (hcount : 0 < fm.shard_count) (htree : fm.last_shard_tree = none) :
    (parse_cells_setup fm p0 parent_id algorithm .PREFRACTURED false).fm =
      { fm with
        shard_map := fm.shard_map.map (fun t => { t with flag := clear_skip_delete t.flag }),
        shard_count := fm.shard_map.length,
        last_shard_tree := some (fm.shard_map.map (fun t => t.raw_centroid)),
        last_shards := some ((List.range fm.shard_map.length).map some) } := by
  unfold parse_cells_setup
  simp [reset_shard_map, rebuild_last_shards, mark_fractured, hpos, halg.1, halg.2.1, halg.2.2,
    hcount, htree, Function.comp_def]

/-! ### Sorting and counting the results -/

theorem count_results_set_some (s : Shard) :
    ∀ (l : List (Option Shard)) (i : Nat), l[i]? = some none →
      count_results (l.set i (some s)) = count_results l + 1 := by
  intro l
  induction l with
  | nil => intro i h; simp at h
  | cons x l ih =>
    intro i h
    cases i with
    | zero =>
      simp only [List.getElem?_cons_zero, Option.some.injEq] at h
      subst h
      simp [count_results]
    | succ i =>
      simp only [List.getElem?_cons_succ] at h
      have := ih i h
      simp only [count_results] at this ⊢
      cases x <;> simp [List.filter_cons, this]

theorem count_results_set_none (s : Shard) :
    ∀ (l : List (Option Shard)) (j : Nat), l[j]? = some (some s) →
      count_results (l.set j none) + 1 = count_results l := by
  intro l
  induction l with
  | nil => intro i h; simp at h
  | cons x l ih =>
    intro i h
    cases i with
    | zero =>
      simp only [List.getElem?_cons_zero, Option.some.injEq] at h
      subst h
      simp [count_results]
    | succ i =>
      simp only [List.getElem?_cons_succ] at h
      have := ih i h
      simp only [count_results] at this ⊢
      cases x <;> simp [List.filter_cons] <;> omega

theorem qsort_first_length (K : Kernel) (hperm : ∀ l, (K.qsort_r l).Perm l) (n : Nat)
    (l : List (Option Shard)) : (qsort_first K n l).length = l.length := by
  unfold qsort_first
  rw [List.length_append, (hperm _).length_eq, ← List.length_append, List.take_append_drop]

theorem qsort_first_count (K : Kernel) (hperm : ∀ l, (K.qsort_r l).Perm l) (n : Nat)
    (l : List (Option Shard)) : count_results (qsort_first K n l) = count_results l := by
  unfold qsort_first count_results
  rw [List.filter_append, List.length_append, ((hperm _).filter _).length_eq,
    ← List.length_append, ← List.filter_append, List.take_append_drop]

theorem qsort_first_tail (K : Kernel) (hperm : ∀ l, (K.qsort_r l).Perm l) (n : Nat)
    (l : List (Option Shard)) (hn : n ≤ l.length) (idx : Nat) (h : n ≤ idx) :
    (qsort_first K n l)[idx]? = l[idx]? := by
  unfold qsort_first
  have hl : (K.qsort_r (l.take n)).length = n := by
    rw [(hperm _).length_eq, List.length_take]; omega
  rw [List.getElem?_append_right (by omega), hl, List.getElem?_drop]
  congr 1; omega

theorem takeWhile_none_stop :
    ∀ (l : List (Option Shard)), (∃ x ∈ l, x.isSome = true) →
      ∃ s, l[(l.takeWhile (fun x => x.isNone)).length]? = some (some s) := by
  intro l
  induction l with
  | nil => intro h; obtain ⟨x, hx, _⟩ := h; cases hx
  | cons x l ih =>
    intro h
    cases x with
    | some s => exact ⟨s, by simp [List.takeWhile]⟩
    | none =>
      have h' : ∃ x ∈ l, x.isSome = true := by
        obtain ⟨y, hy, hs⟩ := h
        rcases List.mem_cons.mp hy with rfl | hy
        · cases hs
        · exact ⟨y, hy, hs⟩
      obtain ⟨s, hs⟩ := ih h'
      exact ⟨s, by simpa [List.takeWhile] using hs⟩

theorem skip_invalid_spec (K : Kernel) (hperm : ∀ l, (K.qsort_r l).Perm l) (i : Nat)
    (l : List (Option Shard)) (s : Shard) (hi : i + 1 ≤ l.length) (hs : l[i]? = some (some s)) :
    ∃ sj, (qsort_first K (i + 1) l)[skip_invalid (i + 1) (qsort_first K (i + 1) l)]? = some (some sj)
      ∧ skip_invalid (i + 1) (qsort_first K (i + 1) l) < i + 1 := by
  have hl : (K.qsort_r (l.take (i + 1))).length = i + 1 := by
    rw [(hperm _).length_eq, List.length_take]; omega
  have htake : (qsort_first K (i + 1) l).take (i + 1) = K.qsort_r (l.take (i + 1)) := by
    unfold qsort_first
    rw [List.take_append_eq_append_take, hl]
    simp [List.take_of_length_le (le_of_eq hl)]
  have hmem : ∃ x ∈ K.qsort_r (l.take (i + 1)), x.isSome = true := by
    refine ⟨some s, ?_, rfl⟩
    rw [(hperm _).mem_iff]
    rw [List.mem_iff_getElem?]
    exact ⟨i, by rw [List.getElem?_take_of_lt (by omega)]; exact hs⟩
  obtain ⟨sj, hsj⟩ := takeWhile_none_stop _ hmem
  unfold skip_invalid
  rw [htake]
  have hlt : ((K.qsort_r (l.take (i + 1))).takeWhile (fun x => x.isNone)).length < i + 1 := by
    by_contra hge
    rw [List.getElem?_eq_none (by omega)] at hsj
    cases hsj
  refine ⟨sj, ?_, hlt⟩
  rw [← htake] at hsj
  rw [List.getElem?_take_of_lt] at hsj
  · rw [htake] at hsj
    exact hsj
  · rw [htake]; exact hlt

/-! ### The loop of the fast bisect -/

theorem handle_fast_bisect_loop_count (K : Kernel) (E : Nat) (algorithm : Algorithm)
    (parent_id : Int)
    (hbis : ∀ bm t fill ci co idx c, (K.shard_bisect bm t fill ci co idx c).isSome = true)
    (hperm : ∀ l, (K.qsort_r l).Perm l) :
    ∀ (r i : Nat) (st : FastState),
      st.fm.cancel ≠ 1 →
      (∀ idx, i ≤ idx → idx < E → ∃ t, st.tempshards[idx]? = some (some t) ∧ t.invalid = false) →
      st.tempresults.length = E →
      (∀ idx, i ≤ idx → idx < E → st.tempresults[idx]? = some none) →
      i + 2 * r = E →
      ∃ st1, handle_fast_bisect_loop K E algorithm parent_id (2 * r) i st = some st1 ∧
        count_results st1.tempresults =
          if r = 0 then count_results st.tempresults
          else count_results st.tempresults + r + 1 := by
  intro r
  induction r with
  | zero =>
    intro i st _ _ _ _ _
    exact ⟨st, by simp [handle_fast_bisect_loop], by simp⟩
  | succ r ih =>
    intro i st hc hts htr hnone hE
    have e : 2 * (r + 1) = (2 * r + 1) + 1 := by ring
    rw [e]
    obtain ⟨t0, ht0, hinv⟩ := hts i (le_refl _) (by omega)
    have hinv1 : (t0.tag parent_id).invalid = false := by rw [tag_invalid]; exact hinv
    simp only [handle_fast_bisect_loop, if_neg hc, ht0, hinv1, Bool.false_eq_true, if_false]
    split
    · rename_i s s2 hs hs2
      have hi0 : st.tempresults[i]? = some none := hnone i (le_refl _) (by omega)
      have hi1 : st.tempresults[i + 1]? = some none := hnone (i + 1) (by omega) (by omega)
      have h1 : array_set st.tempresults i (some (s.tag parent_id))
          = some (st.tempresults.set i (some (s.tag parent_id))) := by
        simp only [array_set]; rw [if_pos]; omega
      have h2 : array_set (st.tempresults.set i (some (s.tag parent_id))) (i + 1)
            (some (s2.tag parent_id))
          = some ((st.tempresults.set i (some (s.tag parent_id))).set (i + 1)
              (some (s2.tag parent_id))) := by
        simp only [array_set]; rw [if_pos]; rw [List.length_set]; omega
      simp only [h1, h2]
      generalize hr2 : (st.tempresults.set i (some (s.tag parent_id))).set (i + 1)
              (some (s2.tag parent_id)) = r2
      have hlen2 : r2.length = E := by rw [← hr2]; simp [htr]
      have hcount2 : count_results r2 = count_results st.tempresults + 2 := by
        rw [← hr2, count_results_set_some, count_results_set_some _ _ _ hi0]
        rw [List.getElem?_set_ne (by omega)]; exact hi1
      have hr2i : r2[i]? = some (some (s.tag parent_id)) := by
        rw [← hr2, List.getElem?_set_ne (by omega)]
        simp [List.getElem?_set, hi0]
        omega
      have hr2tail : ∀ idx, i + 2 ≤ idx → idx < E → r2[idx]? = some none := by
        intro idx h1 h2
        rw [← hr2, List.getElem?_set_ne (by omega), List.getElem?_set_ne (by omega)]
        exact hnone idx (by omega) h2
      have hts2 : ∀ idx, i + 2 ≤ idx → idx < E →
          ∃ t, (st.tempshards.set i (some (t0.tag parent_id)))[idx]? = some (some t)
            ∧ t.invalid = false := by
        intro idx h1 h2
        rw [List.getElem?_set_ne (by omega)]
        exact hts idx (by omega) h2
      have hr3tail : ∀ idx, i + 2 ≤ idx → idx < E →
          (qsort_first K (i + 1) r2)[idx]? = some none := by
        intro idx h1 h2
        rw [qsort_first_tail K hperm _ _ (by omega) _ (by omega)]
        exact hr2tail idx h1 h2
      by_cases hlt : i + 2 < E
      · obtain ⟨sj, hsj, hj⟩ := skip_invalid_spec K hperm i r2 _ (by omega) hr2i
        simp only [if_pos hlt, hsj]
        obtain ⟨st1, hst1, hcount⟩ := ih (i + 2)
          { fm := { st.fm with progress_counter := st.fm.progress_counter + 1 },
            tempshards := st.tempshards.set i (some (t0.tag parent_id)),
            tempresults := (qsort_first K (i + 1) r2).set
              (skip_invalid (i + 1) (qsort_first K (i + 1) r2)) none,
            bm_parent := some (BKE_shard_create_dm sj),
            centroid := sj.centroid, rng := st.rng + 1 }
          hc hts2
          (by simp only [List.length_set]; rw [qsort_first_length K hperm]; exact hlen2)
          (by
            intro idx h1 h2
            show ((qsort_first K (i + 1) r2).set _ none)[idx]? = some none
            rw [List.getElem?_set_ne (by omega)]
            exact hr3tail idx h1 h2)
          (by omega)
        refine ⟨st1, hst1, ?_⟩
        rw [hcount]
        have hr : r ≠ 0 := by omega
        have h3 := count_results_set_none sj _ _ hsj
        rw [qsort_first_count K hperm, hcount2] at h3
        simp only [if_neg hr, if_neg (Nat.succ_ne_zero r)]
        omega
      · obtain ⟨st1, hst1, hcount⟩ := ih (i + 2)
          { fm := { st.fm with progress_counter := st.fm.progress_counter + 1 },
            tempshards := st.tempshards.set i (some (t0.tag parent_id)),
            tempresults := qsort_first K (i + 1) r2,
            bm_parent := none,
            centroid := st.centroid, rng := st.rng + 1 }
          hc hts2
          (by rw [qsort_first_length K hperm]; exact hlen2)
          hr3tail
          (by omega)
        simp only [if_neg hlt]
        refine ⟨st1, hst1, ?_⟩
        rw [hcount]
        have hr : r = 0 := by omega
        simp only [if_pos hr, if_neg (Nat.succ_ne_zero r), qsort_first_count K hperm, hcount2]
        omega
    · rename_i hno
      exfalso
      obtain ⟨s, hs⟩ := Option.isSome_iff_exists.mp (hbis st.bm_parent (t0.tag parent_id)
        (decide (algorithm = .BISECT_FAST_FILL)) false true
        (if float_to_int (K.frand st.rng * ((((t0.tag parent_id).totpoly : Int) - 1 : Int) : ℚ)) = 0
          then 1
          else float_to_int (K.frand st.rng * ((((t0.tag parent_id).totpoly : Int) - 1 : Int) : ℚ)))
        st.centroid)
      obtain ⟨s2, hs2⟩ := Option.isSome_iff_exists.mp (hbis st.bm_parent (t0.tag parent_id)
        (decide (algorithm = .BISECT_FAST_FILL)) true false
        (if float_to_int (K.frand st.rng * ((((t0.tag parent_id).totpoly : Int) - 1 : Int) : ℚ)) = 0
          then 1
          else float_to_int (K.frand st.rng * ((((t0.tag parent_id).totpoly : Int) - 1 : Int) : ℚ)))
        st.centroid)
      exact hno s s2 hs hs2

/-! ### The ids of a dynamic pass -/

theorem dynamic_pass_ids (K : Kernel) (cells : List cell) (parent_id : Int) (fm fm1 : FracMesh)
    (algorithm : Algorithm) (dm : Option Mesh) (mat : Mat4) (reset : Bool) (rng : Nat)
    (p0 : ShardRef) (hp : BKE_shard_by_id K fm parent_id dm = some p0)
    (h : parse_cells K cells parent_id fm algorithm dm mat .DYNAMIC reset rng = some fm1)
    (base : List Shard)
    (hbase : (parse_cells_setup fm p0 parent_id algorithm .DYNAMIC reset).fm.shard_map = base) :
    ∃ new, fm1.shard_map = base ++ new
      ∧ ∀ (k : Nat) (hk : k < new.length),
          (new.get ⟨k, hk⟩).shard_id =
            match base.getLast? with
            | some last => wrap_int (last.shard_id + 2 + k)
            | none => wrap_int (2 + k) := by
  obtain ⟨pre, r, hpre, hr, rfl⟩ := parse_cells_some K cells parent_id fm fm1 algorithm dm mat
    .DYNAMIC reset rng p0 hp h
  have hlast := (parse_cells_setup_dynamic fm p0 parent_id algorithm reset).2
  obtain ⟨hm, _, _, hs⟩ := do_prepare_cells_map _ _ _ _ _ _ hpre
  have hfm := refine_cells_fm _ _ _ _ _ _ _ hr
  have hmap : r.1.shard_map = base := by
    rw [hfm]
    simp only
    rw [hm, hs hlast, reduceOption_map_some, hbase]
  rw [finish_pass_shard_map, hmap]
  refine ⟨_, rfl, ?_⟩
  intro k hk
  rw [added_shards_id]
  unfold id_offset
  simp only [if_true]
  cases hl : base.getLast? with
  | none =>
    simp only
    congr 1
    push_cast
    ring
  | some last =>
    simp only
    unfold wrap_int
    omega

/-! ### Point count and concrete inputs -/

/-- An option that holds a value is that value. -/
theorem eq_some_getD {α : Type} (o : Option α) (d : α) (h : o.isSome = true) :
    o = some (o.getD d) := by
  cases o with
  | none => cases h
  | some x => rfl

/-- The point count of `get_points_global` for the fast bisect algorithms. -/
theorem uniform_point_count_fast (algorithm : Algorithm) (n : Nat) (hn : 2 ≤ n)
    (halg : algorithm = .BISECT_FAST ∨ algorithm = .BISECT_FAST_FILL) :
    (uniform_point_count algorithm (n : Int)).toNat = 2 * (n - 1) := by
  have h1 : (1 : Int) < (n : Int) := by omega
  have h2 : uniform_point_count algorithm (n : Int) = ((n : Int) - 1) * 2 := by
    unfold uniform_point_count
    rcases halg with h | h <;> subst h <;> simp [h1]
  rw [h2]
  omega

/-- The count of results in an array of nulls. -/
theorem count_results_replicate_none (n : Nat) : count_results (List.replicate n none) = 0 := by
  induction n with
  | zero => rfl
  | succ n ih => simp [count_results, List.replicate_succ]

/-! ## Properties of the fracture pass, the constraints and the sequences -/

/-- C1 (the code diverges): an incremental prefractured pass numbers the shards it adds
from 1 again, while the shards it keeps hold on to their ids.  The pass over `example_cells`
leaves the ids 1, 2, 3; the next pass, over the point cloud with two points moved, keeps
the shard 1 and adds two shards with the ids 1 and 2, so the id 1 is in the map twice. -/
theorem incremental_pass_repeats_shard_id :
    shard_ids example_fracmesh = [1, 2, 3]
      ∧ (parse_cells example_kernel example_cells_moved (-1) example_fracmesh .BOOLEAN
          (some example_dm) unit_m4 .PREFRACTURED false 0).map shard_ids = some [1, 1, 2] := by
  decide!

/-- C2: whatever the number of searches and the target mode (centroid or vertex), the
constraints a run of `create_constraints` creates join pairwise different unordered
pairs of islands: for all islands `a` and `b`, at most one of them joins `a` and `b`.
When no constraint exists at the start (new islands, with empty participating lists), at
most one constraint of the whole list joins `a` and `b`. -/
theorem constraints_join_distinct_pairs (R : RigidBodyKernel) (fmd fmd1 : ConstraintData) (count : Nat)
    (hrun : create_constraints R fmd count = some fmd1) (a b : Nat) :
    (∃ created, fmd1.constraint.meshConstraints = fmd.constraint.meshConstraints ++ created
        ∧ (created.filter (fun c => c.joins a b)).length ≤ 1)
      ∧ (fmd.constraint.meshConstraints = [] →
          (fmd1.constraint.meshConstraints.filter (fun c => c.joins a b)).length ≤ 1) := by
  have hinv0 : synthesis_inv fmd fmd := ⟨[], by simp, List.Pairwise.nil, by simp⟩
  obtain ⟨created, hl, hd, _⟩ := create_constraints_loop_inv R fmd count 0 fmd fmd1 hinv0 hrun
  refine ⟨⟨created, hl, distinct_pairs_filter created hd a b⟩, ?_⟩
  intro h0
  rw [hl, h0, List.nil_append]
  exact distinct_pairs_filter created hd a b

/-- C2, at a concrete input: three searches over three islands in reach of each other
make the constraints 0-1, 0-2 and 1-2, each pair once. -/
theorem constraints_join_distinct_pairs_witness :
    create_constraints example_rigidbody_kernel example_constraint_data 3
        = some example_constraints_built
      ∧ example_constraints_built.constraint.meshConstraints.map (fun c => (c.mi1, c.mi2))
        = [(0, 1), (0, 2), (1, 2)]
      ∧ (example_constraints_built.constraint.meshConstraints.filter
          (fun c => c.joins 0 1)).length ≤ 1 :=
  ⟨eq_some_getD _ _ (by decide!), by decide!,
    (constraints_join_distinct_pairs example_rigidbody_kernel example_constraint_data
      example_constraints_built 3 (eq_some_getD _ _ (by decide!)) 0 1).2 rfl⟩

/-- C3 fails for a point cloud of one point: the faces of the only cell are walls, so the
cell has no neighbour to measure a distance to, and the repeated pass does not mark it
skip (`skipmap` 0) and deletes the shard of the first pass (`deletemap` 1). -/
theorem single_cell_pass_deletes_shard :
    shard_ids example_single_fracmesh = [1]
      ∧ ((BKE_shard_by_id example_kernel example_single_fracmesh (-1) (some example_dm)).bind
          (fun p0 =>
            prepare_maps
              (parse_cells_setup example_single_fracmesh p0 (-1) .BOOLEAN .PREFRACTURED false).fm
              example_single_cell .BOOLEAN)).map (fun m => (m.skipmap, m.deletemap))
        = some ([0], [1]) := by
  decide!

/-- C3 (amended): take an algorithm that keeps the diff cache (any but the fast bisects
and the fractal boolean), a FracMesh whose shards are in order those of the cells (same raw
centroid and raw volume), that holds at least one shard and no search tree of an earlier
pass, and whose last pass expected at least as many shards as there are cells, and a point
cloud whose cell centroids are pairwise distinct and whose every cell has a neighbouring
cell away from it.  Then the repeated prefractured pass without reset marks every cell
skip and no shard delete, returns, and leaves the shards of the map as they were, up to
the cleared skip and delete flags. -/
theorem repeated_pass_skips_every_cell (K : Kernel) (cells : List cell) (fm : FracMesh) (algorithm : Algorithm)
    (d : Mesh) (mat : Mat4) (rng : Nat)
    (halg : algorithm ≠ .BISECT_FAST ∧ algorithm ≠ .BISECT_FAST_FILL
      ∧ algorithm ≠ .BOOLEAN_FRACTAL)
    (hraw : fm.shard_map.map (fun s => (s.raw_centroid, s.raw_volume))
      = cells.map (fun c => (c.centroid, c.volume)))
    (hcount : 0 < fm.shard_count) (htree : fm.last_shard_tree = none)
    (hexp : (cells.length : Int) ≤ fm.last_expected_shards)
    (hnodup : (cells.map (fun c => c.centroid)).Nodup)
    (hfar : ∀ c ∈ cells, has_far_neighbor cells c) :
    ∃ p0, BKE_shard_by_id K fm (-1) (some d) = some p0
      ∧ prepare_maps (parse_cells_setup fm p0 (-1) algorithm .PREFRACTURED false).fm cells algorithm
          = some ⟨List.replicate cells.length 1, List.replicate cells.length 0⟩
      ∧ ∃ fm1, parse_cells K cells (-1) fm algorithm (some d) mat .PREFRACTURED false rng = some fm1
          ∧ fm1.shard_map
              = fm.shard_map.map (fun t => { t with flag := clear_skip_delete t.flag }) := by
  obtain ⟨p0, hp, hpos⟩ := whole_mesh_parent K fm d
  refine ⟨p0, hp, ?_⟩
  have hsu := parse_cells_setup_incremental fm p0 (-1) algorithm hpos halg hcount htree
  have hlen : fm.shard_map.length = cells.length := by
    have := congrArg List.length hraw
    simpa using this
  have hcen : fm.shard_map.map (fun t => t.raw_centroid) = cells.map (fun c => c.centroid) := by
    have := congrArg (List.map Prod.fst) hraw
    simpa [List.map_map, Function.comp_def] using this
  have hvol : ∀ (i : Nat) (c : cell), cells[i]? = some c →
      ∃ t, (fm.shard_map.map (fun t => { t with flag := clear_skip_delete t.flag }))[i]? = some t
        ∧ t.raw_volume = c.volume := by
    intro i c hi
    have h1 := congrArg (fun l => l[i]?) hraw
    simp only [List.getElem?_map, hi, Option.map_some'] at h1
    cases hs : fm.shard_map[i]? with
    | none => rw [hs] at h1; cases h1
    | some s =>
      rw [hs] at h1
      simp only [Option.map_some', Option.some.injEq, Prod.mk.injEq] at h1
      exact ⟨{ s with flag := clear_skip_delete s.flag }, by rw [List.getElem?_map, hs]; rfl,
        h1.2⟩
  generalize hg : (parse_cells_setup fm p0 (-1) algorithm .PREFRACTURED false) = su at hsu ⊢
  have hmaps : prepare_maps su.fm cells algorithm
      = some ⟨List.replicate cells.length 1, List.replicate cells.length 0⟩ := by
    have hloop := diff_cells_all_skip su.fm cells hnodup hfar
      (by rw [hsu]; simp only; rw [hlen])
      (by rw [hsu]; exact hvol) cells [] rfl
    simp only [List.length_nil, List.replicate_zero, List.nil_append] at hloop
    unfold prepare_maps
    rw [hsu]
    simp only [halg.1, halg.2.1, halg.2.2, or_self, if_false, hexp, if_true, fill_vn_i]
    rw [if_neg (by omega)]
    simp only [Option.map_some', Int.toNat_ofNat, hcen, hlen]
    rw [hsu] at hloop
    simp only [hcen, hlen] at hloop
    exact hloop
  refine ⟨hmaps, ?_⟩
  have hpre : ∃ pre, do_prepare_cells su.fm cells algorithm su.p zero_v3 = some pre
      ∧ pre.tempshards = List.replicate cells.length none
      ∧ pre.tempresults = List.replicate cells.length none
      ∧ pre.fm.shard_map = su.fm.shard_map := by
    unfold do_prepare_cells
    simp only [hmaps, delete_shards_zeros, prepare_tempshards_ones, ite_self]
    exact ⟨_, rfl, rfl, rfl, reduceOption_map_some _⟩
  obtain ⟨pre, hpre, hts, htr, hpm⟩ := hpre
  have href : refine_cells K cells.length algorithm su pre rng
      = some ({ pre.fm with last_shard_tree := none, last_shards := none }, pre.tempresults) := by
    unfold refine_cells
    have hfast : algorithm ≠ .BISECT_FAST ∧ algorithm ≠ .BISECT_FAST_FILL := ⟨halg.1, halg.2.1⟩
    simp only [hfast, ne_eq, not_false_eq_true, and_self, if_true]
    rw [refine_loop_all_skipped K cells.length algorithm su.parent_id pre.dm_parent pre.bm_parent
      cells.length cells.length 0 _ hts (by omega)]
    rfl
  refine ⟨finish_pass mat .PREFRACTURED su
    { pre.fm with last_shard_tree := none, last_shards := none } pre.tempresults, ?_, ?_⟩
  · have hmis : parent_misused p0 .PREFRACTURED false = false := by
      simp [parent_misused]
    unfold parse_cells
    simp only [hp, hmis, hg, hpre, href, htr, linked_shard_freed_replicate]
    rfl
  · rw [finish_pass_shard_map, htr, added_shards_replicate_none, List.append_nil]
    simp only [hpm, hsu]

/-- C3 (amended), at a concrete input: the pass over `example_cells` run again on
`example_fracmesh`. -/
theorem repeated_pass_skips_every_cell_witness :
    ∃ p0, BKE_shard_by_id example_kernel example_fracmesh (-1) (some example_dm) = some p0
      ∧ prepare_maps
          (parse_cells_setup example_fracmesh p0 (-1) .BOOLEAN .PREFRACTURED false).fm
          example_cells .BOOLEAN
          = some ⟨List.replicate example_cells.length 1, List.replicate example_cells.length 0⟩
      ∧ ∃ fm1, parse_cells example_kernel example_cells (-1) example_fracmesh .BOOLEAN
            (some example_dm) unit_m4 .PREFRACTURED false 0 = some fm1
          ∧ fm1.shard_map
              = example_fracmesh.shard_map.map
                  (fun t => { t with flag := clear_skip_delete t.flag }) :=
  repeated_pass_skips_every_cell example_kernel example_cells example_fracmesh .BOOLEAN
    example_dm unit_m4 0 (by decide) (by decide!) (by decide!) (by decide!) (by decide!)
    (by decide!)
    (by
      intro c hc
      simp only [example_cells, List.mem_cons, List.mem_singleton, List.not_mem_nil,
        or_false] at hc
      rcases hc with rfl | rfl | rfl
      · refine ⟨?_, 1, by simp [example_cell, cell.neighbors], by decide, ?_⟩
        · intro n hn _
          simp [example_cell, cell.neighbors] at hn
          rcases hn with rfl | rfl <;> simp [example_cells]
        · exact ⟨_, rfl, by decide!⟩
      · refine ⟨?_, 0, by simp [example_cell, cell.neighbors], by decide, ?_⟩
        · intro n hn _
          simp [example_cell, cell.neighbors] at hn
          rcases hn with rfl | rfl <;> simp [example_cells]
        · exact ⟨_, rfl, by decide!⟩
      · refine ⟨?_, 0, by simp [example_cell, cell.neighbors], by decide, ?_⟩
        · intro n hn _
          simp [example_cell, cell.neighbors] at hn
          rcases hn with rfl | rfl <;> simp [example_cells]
        · exact ⟨_, rfl, by decide!⟩)

/-- C4 fails: with the cancel flag set, the pass over the moved point cloud still runs its
deletion loop and takes the shards 2 and 3 out of the map. -/
theorem cancelled_pass_drops_shards :
    example_cancelled_fracmesh.cancel = 1
      ∧ shard_ids example_cancelled_fracmesh = [1, 2, 3]
      ∧ (parse_cells example_kernel example_cells_moved (-1) example_cancelled_fracmesh
          .BOOLEAN (some example_dm) unit_m4 .PREFRACTURED false 0).map shard_ids
        = some [1] := by
  decide!

/-- C4 (amended): when the cancel flag is set, a pass that returns adds no shard and
changes no shard but for its flag word: the shards of the map after the pass are, flags
apart, a subsequence of the shards before it (the reset, the deletion loop and the
unlinking of a dynamic parent still take shards out).  The fast bisect algorithms with a
single cell are left out: they hand the parent shard on as the result. -/
theorem cancelled_pass_only_removes_shards (K : Kernel) (cells : List cell) (parent_id : Int) (fm fm1 : FracMesh)
    (algorithm : Algorithm) (dm : Option Mesh) (mat : Mat4) (mode : Mode) (reset : Bool)
    (rng : Nat) (hcancel : fm.cancel = 1)
    (hfast : ¬ ((algorithm = .BISECT_FAST ∨ algorithm = .BISECT_FAST_FILL) ∧ cells.length = 1))
    (h : parse_cells K cells parent_id fm algorithm dm mat mode reset rng = some fm1) :
    (fm1.shard_map.map Shard.without_flag).Sublist (fm.shard_map.map Shard.without_flag) := by
  cases hp : BKE_shard_by_id K fm parent_id dm with
  | none =>
    unfold parse_cells at h
    simp only [hp] at h
    cases h
    exact List.Sublist.refl _
  | some p0 =>
    obtain ⟨pre, r, hpre, hr, rfl⟩ := parse_cells_some K cells parent_id fm fm1 algorithm dm mat
      mode reset rng p0 hp h
    obtain ⟨hsub, hc⟩ := parse_cells_setup_sublist fm p0 parent_id algorithm mode reset
    obtain ⟨_, hc2, htr, _⟩ := do_prepare_cells_map _ _ _ _ _ _ hpre
    have hsub2 := do_prepare_cells_sublist _ _ _ _ _ _ hpre
    have hfm := refine_cells_fm _ _ _ _ _ _ _ hr
    have hres := refine_cells_cancel K cells.length algorithm _ pre rng r
      (by rw [hc2, hc, hcancel]) hfast hr
    rw [finish_pass_shard_map, hres, htr, added_shards_replicate_none, List.append_nil, hfm]
    exact (hsub2.map _).trans hsub

/-- C4 (amended), at a concrete input: the cancelled pass over the moved point cloud. -/
theorem cancelled_pass_only_removes_shards_witness :
    example_cancelled_fracmesh.cancel = 1
      ∧ (example_cancelled_pass.shard_map.map Shard.without_flag).Sublist
          (example_cancelled_fracmesh.shard_map.map Shard.without_flag) :=
  ⟨by decide!, cancelled_pass_only_removes_shards example_kernel example_cells_moved (-1)
    example_cancelled_fracmesh example_cancelled_pass .BOOLEAN (some example_dm)
    unit_m4 .PREFRACTURED false 0 (by decide!) (by decide)
    (eq_some_getD
      (parse_cells example_kernel example_cells_moved (-1) example_cancelled_fracmesh
        .BOOLEAN (some example_dm) unit_m4 .PREFRACTURED false 0)
      BKE_create_fracture_container (by decide!))⟩

/-- C5 (the code diverges): the first dynamic pass fractures the shard 0 into one shard
with the id 2; the next pass fractures that shard 2, and the shard it adds gets the id 2
again (and so is its own parent): the offset of the new ids is read from the last shard
of the map after the parent has been taken out. -/
theorem dynamic_pass_reissues_parent_id :
    example_dynamic_pass.shard_map.map (fun s => (s.shard_id, s.parent_id)) = [(2, 0)]
      ∧ (parse_cells example_kernel example_single_cell 2 example_dynamic_pass .BOOLEAN
          (some example_dm) unit_m4 .DYNAMIC false 0).map
          (fun fm => fm.shard_map.map (fun s => (s.shard_id, s.parent_id)))
        = some [(2, 2)] := by
  decide!

/-- C6 fails: with the shards 2, 3, 4 in the map, the dynamic pass that fractures the shard
3 into three cells leaves 2 and 4 and adds the ids 6, 7, 8, not 5, 6, 7: the first new id
is the last id plus 2. -/
theorem dynamic_ids_skip_one :
    shard_ids example_dynamic_three = [2, 3, 4]
      ∧ (parse_cells example_kernel example_cells 3 example_dynamic_three .BOOLEAN
          (some example_dm) unit_m4 .DYNAMIC false 0).map shard_ids
        = some [2, 4, 6, 7, 8] := by
  decide!

/-- C6 (amended): a dynamic pass that finds its parent and returns has run without reset on
a parent linked in the map; it leaves the map as the old map without the parent, followed
by the new shards.  When the map without the parent is not empty and `last` is its last
shard, the k-th new shard has the id `last.shard_id + 2 + k`, computed in `int`, which is
that number as long as it is in the range of `int`; and `last` has the largest id of the
map without the parent when the ids of that map ascend in list order. -/
theorem dynamic_ids_follow_last_shard (K : Kernel) (cells : List cell) (parent_id : Int) (fm fm1 : FracMesh)
    (algorithm : Algorithm) (dm : Option Mesh) (mat : Mat4) (reset : Bool) (rng : Nat)
    (p0 : ShardRef) (hp : BKE_shard_by_id K fm parent_id dm = some p0)
    (h : parse_cells K cells parent_id fm algorithm dm mat .DYNAMIC reset rng = some fm1) :
    ∃ pos new, reset = false ∧ p0.pos = some pos
      ∧ fm1.shard_map = fm.shard_map.eraseIdx pos ++ new
      ∧ ∀ last, (fm.shard_map.eraseIdx pos).getLast? = some last →
          (∀ (k : Nat) (hk : k < new.length),
            (new.get ⟨k, hk⟩).shard_id = wrap_int (last.shard_id + 2 + k)
              ∧ (-2147483648 ≤ last.shard_id + 2 + k → last.shard_id + 2 + k ≤ 2147483647 →
                  (new.get ⟨k, hk⟩).shard_id = last.shard_id + 2 + k))
            ∧ ((fm.shard_map.eraseIdx pos).Pairwise (fun a b => a.shard_id ≤ b.shard_id) →
                ∀ t ∈ fm.shard_map.eraseIdx pos, t.shard_id ≤ last.shard_id) := by
  have hmis := parse_cells_parent_used K cells parent_id fm fm1 algorithm dm mat .DYNAMIC reset
    rng p0 hp h
  have hreset : reset = false := by
    cases reset
    · rfl
    · cases hpos : p0.pos <;> simp [parent_misused, hpos] at hmis
  subst hreset
  cases hpos : p0.pos with
  | none => simp [parent_misused, hpos] at hmis
  | some pos =>
    obtain ⟨new, hnew, hid⟩ := dynamic_pass_ids K cells parent_id fm fm1 algorithm dm mat false
      rng p0 hp h _ (parse_cells_setup_dynamic fm p0 parent_id algorithm false).1
    simp only [hpos, Bool.false_eq_true, if_false] at hnew hid
    refine ⟨pos, new, rfl, rfl, hnew, ?_⟩
    intro last hlast
    refine ⟨?_, ?_⟩
    · intro k hk
      have hk1 := hid k hk
      rw [hlast] at hk1
      simp only at hk1
      exact ⟨hk1, fun h1 h2 => by rw [hk1, wrap_int_of_range _ h1 h2]⟩
    · intro hsorted t ht
      have hdl := List.dropLast_append_getLast? last (by rw [hlast]; rfl)
      rw [← hdl] at hsorted ht
      rcases List.mem_append.mp ht with ht1 | ht1
      · exact (List.pairwise_append.mp hsorted).2.2 t ht1 last (List.mem_singleton.mpr rfl)
      · rw [List.mem_singleton.mp ht1]

/-- C6 (amended), at a concrete input: the dynamic pass that fractures the shard 3 of
`example_dynamic_three`, whose map without the parent ends with the shard 4; the new shards
get the ids 6, 7 and 8. -/
theorem dynamic_ids_follow_last_shard_witness :
    shard_ids example_dynamic_three = [2, 3, 4]
      ∧ shard_ids example_dynamic_second = [2, 4, 6, 7, 8]
      ∧ ∃ p0, BKE_shard_by_id example_kernel example_dynamic_three 3 (some example_dm) = some p0
      ∧ ∃ pos new, false = false ∧ p0.pos = some pos
        ∧ example_dynamic_second.shard_map = example_dynamic_three.shard_map.eraseIdx pos ++ new
        ∧ ∀ last, (example_dynamic_three.shard_map.eraseIdx pos).getLast? = some last →
            (∀ (k : Nat) (hk : k < new.length),
              (new.get ⟨k, hk⟩).shard_id = wrap_int (last.shard_id + 2 + k)
                ∧ (-2147483648 ≤ last.shard_id + 2 + k → last.shard_id + 2 + k ≤ 2147483647 →
                    (new.get ⟨k, hk⟩).shard_id = last.shard_id + 2 + k))
              ∧ ((example_dynamic_three.shard_map.eraseIdx pos).Pairwise
                    (fun a b => a.shard_id ≤ b.shard_id) →
                  ∀ t ∈ example_dynamic_three.shard_map.eraseIdx pos,
                    t.shard_id ≤ last.shard_id) := by
  obtain ⟨p0, hp⟩ := Option.isSome_iff_exists.mp
    (show (BKE_shard_by_id example_kernel example_dynamic_three 3 (some example_dm)).isSome
      = true by decide!)
  exact ⟨by decide!, by decide!, p0, hp, dynamic_ids_follow_last_shard example_kernel
    example_cells 3 example_dynamic_three example_dynamic_second .BOOLEAN (some example_dm)
    unit_m4 false 0 p0 hp (eq_some_getD _ _ (by decide!))⟩

/-- C7 (the code diverges): with the algorithm NONE, on a reset or empty FracMesh that is
not cancelled, and a point cloud of at least one cell whose cells all parse to a valid
shard, the pass has no defined result.  Where it does not misuse its parent already, the
cells are parsed into `tempshards`, `handle_boolean_bisect` stores every one of these
shards itself in `tempresults`, and the adding loop frees each of them right after
`add_shard` has linked it into the map. -/
theorem passthrough_frees_linked_shards (K : Kernel) (cells : List cell) (parent_id : Int) (fm : FracMesh)
    (dm : Option Mesh) (mat : Mat4) (mode : Mode) (reset : Bool) (rng : Nat) (p0 : ShardRef)
    (hp : BKE_shard_by_id K fm parent_id dm = some p0)
    (hcancel : fm.cancel ≠ 1)
    (hne : cells ≠ [])
    (hvalid : ∀ c ∈ cells, (parse_cell c).invalid = false)
    (hE : reset = true ∨ (fm.shard_map = [] ∧ fm.shard_count = 0 ∧ fm.last_shard_tree = none)) :
    parse_cells K cells parent_id fm .NONE dm mat mode reset rng = none
      ∧ (parent_misused p0 mode reset = false →
          ∃ pre fm6,
            do_prepare_cells (parse_cells_setup fm p0 parent_id .NONE mode reset).fm cells .NONE
                (parse_cells_setup fm p0 parent_id .NONE mode reset).p zero_v3 = some pre
              ∧ pre.tempshards = cells.map (fun c => some (parse_cell c))
              ∧ refine_cells K cells.length .NONE
                  (parse_cells_setup fm p0 parent_id .NONE mode reset) pre rng
                = some (fm6, cells.map (fun c => some ((parse_cell c).tag
                    (parse_cells_setup fm p0 parent_id .NONE mode reset).parent_id)))
              ∧ linked_shard_freed .NONE (cells.map (fun c => some ((parse_cell c).tag
                  (parse_cells_setup fm p0 parent_id .NONE mode reset).parent_id))) = true) := by
  have hrun : ∃ pre fm6,
      do_prepare_cells (parse_cells_setup fm p0 parent_id .NONE mode reset).fm cells .NONE
          (parse_cells_setup fm p0 parent_id .NONE mode reset).p zero_v3 = some pre
        ∧ pre.tempshards = cells.map (fun c => some (parse_cell c))
        ∧ refine_cells K cells.length .NONE
            (parse_cells_setup fm p0 parent_id .NONE mode reset) pre rng
          = some (fm6, cells.map (fun c => some ((parse_cell c).tag
              (parse_cells_setup fm p0 parent_id .NONE mode reset).parent_id)))
        ∧ linked_shard_freed .NONE (cells.map (fun c => some ((parse_cell c).tag
            (parse_cells_setup fm p0 parent_id .NONE mode reset).parent_id))) = true := by
    obtain ⟨hmap, htree, hc⟩ := parse_cells_setup_empty fm p0 parent_id .NONE mode reset hE
    generalize parse_cells_setup fm p0 parent_id .NONE mode reset = su at hmap htree hc
    have hmaps := prepare_maps_no_tree su.fm cells .NONE (by decide) htree
    have hc1 : su.fm.cancel ≠ 1 := by rw [hc]; exact hcancel
    have hpre : ∃ pre, do_prepare_cells su.fm cells .NONE su.p zero_v3 = some pre
        ∧ pre.tempshards = cells.map (fun c => some (parse_cell c))
        ∧ pre.tempresults = List.replicate cells.length none
        ∧ pre.fm.cancel = su.fm.cancel := by
      unfold do_prepare_cells
      simp only [hmaps, delete_shards_zeros, hc1, if_false, prepare_tempshards_zeros]
      exact ⟨_, rfl, rfl, rfl, rfl⟩
    obtain ⟨pre, hpre, hts, htr, hpc2⟩ := hpre
    obtain ⟨dm_p1, rng1, pc1, hloop⟩ := refine_loop_none K cells.length su.parent_id
      pre.dm_parent pre.bm_parent { pre.fm with last_shard_tree := none, last_shards := none }
      (by simp only; rw [hpc2]; exact hc1) cells [] none rng pre.fm.progress_counter hvalid
    simp only [List.nil_append, List.length_nil] at hloop
    refine ⟨pre, { pre.fm with last_shard_tree := none, last_shards := none,
                               progress_counter := pc1 }, hpre, hts, ?_, ?_⟩
    · unfold refine_cells
      simp only [ne_eq, reduceCtorEq, not_false_eq_true, and_self, if_true, hts, htr]
      rw [hloop]
      rfl
    · cases cells with
      | nil => exact absurd rfl hne
      | cons c rest => simp [linked_shard_freed]
  refine ⟨?_, fun _ => hrun⟩
  obtain ⟨pre, fm6, hpre, _, href, hfreed⟩ := hrun
  unfold parse_cells
  simp only [hp]
  split
  · rfl
  · simp only [hpre, href, hfreed, if_true]

/-- C7 (the code diverges), at a concrete input: the pass over `example_cells` on an empty
FracMesh. -/
theorem passthrough_frees_linked_shards_witness :
    ∃ p0, BKE_shard_by_id example_kernel BKE_create_fracture_container (-1) (some example_dm)
        = some p0
      ∧ parent_misused p0 .PREFRACTURED false = false
      ∧ parse_cells example_kernel example_cells (-1) BKE_create_fracture_container .NONE
          (some example_dm) example_splinter_mat .PREFRACTURED false 0 = none := by
  obtain ⟨p0, hp⟩ := Option.isSome_iff_exists.mp
    (show (BKE_shard_by_id example_kernel BKE_create_fracture_container (-1)
      (some example_dm)).isSome = true by decide!)
  have hpos : p0.pos = none := by
    have h1 : ((BKE_shard_by_id example_kernel BKE_create_fracture_container (-1)
        (some example_dm)).map (fun r => r.pos)) = some none := by decide!
    rw [hp] at h1
    simpa using h1
  exact ⟨p0, hp, by simp [parent_misused, hpos],
    (passthrough_frees_linked_shards example_kernel example_cells (-1)
      BKE_create_fracture_container (some example_dm) example_splinter_mat .PREFRACTURED false 0
      p0 hp (by decide) (by decide) (by decide!) (Or.inr ⟨rfl, rfl, rfl⟩)).1⟩

/-- C8: when `n >= 2` shards are requested from a fast bisect algorithm, the point cloud
has `uniform_point_count = 2 * (n - 1)` cells; if every cell parsed to a valid shard,
every bisection returns a shard, the sort only rearranges the entries, nothing was
cancelled and `tempresults` starts as an array of nulls, then `handle_fast_bisect` returns
with exactly `n` non-null entries in `tempresults`, and the adding loop of `parse_cells`
makes the map `n` shards longer. -/
theorem fast_bisect_reaches_shard_count (K : Kernel) (algorithm : Algorithm) (parent_id : Int)
    (n : Nat) (st : FastState) (mat : Mat4) (j : Int) (pcentroid : Vec3) (fm : FracMesh)
    (hn : 2 ≤ n)
    (halg : algorithm = .BISECT_FAST ∨ algorithm = .BISECT_FAST_FILL)
    (hbis : ∀ bm t fill ci co idx c, (K.shard_bisect bm t fill ci co idx c).isSome = true)
    (hsort : ∀ l, (K.qsort_r l).Perm l)
    (hcancel : st.fm.cancel ≠ 1)
    (hcells : st.tempshards.length = (uniform_point_count algorithm (n : Int)).toNat
      ∧ ∀ x ∈ st.tempshards, ∃ t, x = some t ∧ t.invalid = false)
    (hres : st.tempresults
      = List.replicate (uniform_point_count algorithm (n : Int)).toNat none) :
    ∃ st1, handle_fast_bisect K (uniform_point_count algorithm (n : Int)).toNat algorithm
          parent_id st = some st1
      ∧ count_results st1.tempresults = n
      ∧ (add_results mat j parent_id pcentroid st1.tempresults fm).shard_map.length
          = fm.shard_map.length + n := by
  rw [uniform_point_count_fast algorithm n hn halg] at hcells hres ⊢
  obtain ⟨hlen, hvalid⟩ := hcells
  obtain ⟨st1, hst1, hcount⟩ := handle_fast_bisect_loop_count K (2 * (n - 1)) algorithm
    parent_id hbis hsort (n - 1) 0 st hcancel
    (by
      intro idx _ hidx
      have hlt : idx < st.tempshards.length := by omega
      obtain ⟨t, ht, hinv⟩ := hvalid _ (List.getElem_mem hlt)
      exact ⟨t, by rw [List.getElem?_eq_getElem hlt, ht], hinv⟩)
    (by rw [hres, List.length_replicate])
    (by
      intro idx _ hidx
      rw [hres, List.getElem?_replicate, if_pos hidx])
    (by omega)
  have hr : n - 1 ≠ 0 := by omega
  rw [hres, count_results_replicate_none, if_neg hr] at hcount
  have hn1 : count_results st1.tempresults = n := by omega
  refine ⟨st1, hst1, hn1, ?_⟩
  rw [add_results_spec]
  simp only [List.length_append, added_shards_length, hn1]

/-- C8, at a concrete input: two shards requested, two valid cells. -/
theorem fast_bisect_reaches_shard_count_witness :
    2 ≤ 2 ∧ example_fast_state.fm.cancel ≠ 1
      ∧ ∃ st1, handle_fast_bisect example_kernel
            (uniform_point_count .BISECT_FAST ((2 : Nat) : Int)).toNat .BISECT_FAST (-1)
            example_fast_state = some st1
          ∧ count_results st1.tempresults = 2
          ∧ (add_results unit_m4 0 (-1) zero_v3 st1.tempresults
              BKE_create_fracture_container).shard_map.length
            = BKE_create_fracture_container.shard_map.length + 2 :=
  ⟨le_refl 2, by decide,
    fast_bisect_reaches_shard_count example_kernel .BISECT_FAST (-1) 2 example_fast_state
      unit_m4 0 zero_v3 BKE_create_fracture_container (le_refl 2) (Or.inl rfl)
      (fun _ _ _ _ _ _ _ => rfl) (fun l => List.Perm.refl l) (by decide)
      ⟨by decide!, by
        intro x hx
        simp only [example_fast_state, List.mem_cons, List.mem_singleton, List.not_mem_nil,
          or_false] at hx
        rcases hx with rfl | rfl
        · exact ⟨_, rfl, by decide!⟩
        · exact ⟨_, rfl, by decide!⟩⟩
      (by decide!)⟩

/-- C9 fails: at the last entry of the chains, with live island data that is not the
entry's, `BKE_get_next_entries` returns without loading anything: the entries are at the
same position, and the live data is still not that of the position. -/
theorem next_entries_keep_stale_live_data :
    same_position example_stale_sequences = true
      ∧ (BKE_get_next_entries example_stale_sequences).map
          (fun f => (same_position f, live_matches f)) = some (true, false) := by
  decide

/-- C9 (amended): if the two current entries are at the same position of two chains of
equal length, each of `BKE_get_next_entries`, `BKE_get_prev_entries` and
`BKE_lookup_mesh_state` (any frame, any `do_lookup`) returns with the two entries at the
same position again, and either it left the current entries and the live `meshIslands`,
`frac_mesh` and cached mesh as they were, or the live data is that of the new position. -/
theorem sequences_move_together (fmd : FractureModifierData) (frame : Int) (do_lookup : Bool)
    (h : same_position fmd = true) :
    (∃ f1, BKE_get_next_entries fmd = some f1 ∧ same_position f1 = true
        ∧ (same_live fmd f1 = true ∨ live_matches f1 = true))
      ∧ (∃ f1, BKE_get_prev_entries fmd = some f1 ∧ same_position f1 = true
        ∧ (same_live fmd f1 = true ∨ live_matches f1 = true))
      ∧ (∃ r, BKE_lookup_mesh_state fmd frame do_lookup = some r ∧ same_position r.2 = true
        ∧ (same_live fmd r.2 = true ∨ live_matches r.2 = true)) := by
  obtain ⟨k, hk⟩ := (same_position_iff fmd).mp h
  refine ⟨?_, ?_, ?_⟩
  · by_cases hn : k + 1 < fmd.meshIsland_sequence.length
    · obtain ⟨f1, h1, h2, _, h4⟩ := (get_next_spec fmd k hk).1 hn
      exact ⟨f1, h1, (same_position_iff f1).mpr ⟨_, h2⟩, Or.inr h4⟩
    · exact ⟨fmd, (get_next_spec fmd k hk).2 hn, h, Or.inl (same_live_refl fmd)⟩
  · cases k with
    | zero =>
      refine ⟨fmd, ?_, h, Or.inl (same_live_refl fmd)⟩
      simp only [BKE_get_prev_entries, hk.1]
    | succ k =>
      obtain ⟨f1, h1, h2, _, h4⟩ := get_prev_spec fmd k hk
      exact ⟨f1, h1, (same_position_iff f1).mpr ⟨_, h2⟩, Or.inr h4⟩
  · obtain ⟨r, h1, h2, h3⟩ := lookup_spec fmd frame do_lookup k hk
    exact ⟨r, h1, (same_position_iff r.2).mpr h2, h3⟩

/-- C9 (amended), at a concrete input: the three-entry chains with the current entries
at the middle. -/
theorem sequences_move_together_witness :
    same_position (example_sequences 1 0) = true
      ∧ (∃ f1, BKE_get_next_entries (example_sequences 1 0) = some f1
          ∧ same_position f1 = true
          ∧ (same_live (example_sequences 1 0) f1 = true ∨ live_matches f1 = true))
      ∧ (∃ f1, BKE_get_prev_entries (example_sequences 1 0) = some f1
          ∧ same_position f1 = true
          ∧ (same_live (example_sequences 1 0) f1 = true ∨ live_matches f1 = true))
      ∧ (∃ r, BKE_lookup_mesh_state (example_sequences 1 0) 15 true = some r
          ∧ same_position r.2 = true
          ∧ (same_live (example_sequences 1 0) r.2 = true ∨ live_matches r.2 = true)) :=
  ⟨by decide, sequences_move_together (example_sequences 1 0) 15 true (by decide)⟩

/-- C10 fails: from the frame-1 entry (last frame 1), the lookup of frame 15 ends at
position 2, the entry whose frame field is 20. -/
theorem lookup_15_ends_at_frame_20 :
    (BKE_lookup_mesh_state (example_sequences 0 1) 15 true).map
        (fun r => (r.2.current_mi_entry, r.2.meshIsland_sequence[2]?.map (fun e => e.frame)))
      = some (some 2, some 20) := by
  decide

/-- C10 (amended): with the three committed entries of frames 1, 10 and 20 and the current
entries at position `k`, the lookup of frame 15 ends at the frame-20 entry when the last
frame is before 15 or the current entry is the frame-20 one already, and otherwise leaves
the current entries where they are. -/
theorem lookup_15_from_three_entries (k : Nat) (last_frame : Int) (hk : k < 3) :
    (BKE_lookup_mesh_state (example_sequences k last_frame) 15 true).map
        (fun r => (r.2.current_mi_entry, r.2.current_shard_entry))
      = some (if last_frame < 15 ∨ k = 2 then (some 2, some 2) else (some k, some k)) := by
  have hcases : (last_frame < 15 ∧ ¬ 15 < last_frame) ∨ (¬ last_frame < 15 ∧ 15 < last_frame)
      ∨ (¬ last_frame < 15 ∧ ¬ 15 < last_frame) := by omega
  interval_cases k <;> rcases hcases with ⟨h, h2⟩ | ⟨h, h2⟩ | ⟨h, h2⟩ <;>
    simp [BKE_lookup_mesh_state, example_sequences, lookup_forward, lookup_backward,
      BKE_get_next_entries, load_entries, h, h2]

/-- C10 (amended), at a concrete input: from the frame-10 entry, with 12 as the last
frame, the lookup of frame 15 moves on to the frame-20 entry. -/
theorem lookup_15_from_three_entries_witness :
    1 < 3
      ∧ (BKE_lookup_mesh_state (example_sequences 1 12) 15 true).map
          (fun r => (r.2.current_mi_entry, r.2.current_shard_entry))
        = some (if (12 : Int) < 15 ∨ 1 = 2 then (some 2, some 2) else (some 1, some 1)) :=
  ⟨by decide, lookup_15_from_three_entries 1 12 (by decide)⟩

/-! ## Lemmas for the clusters, the islands and the diff pass -/

/-! ### The nearest neighbour search, in general -/

theorem kdtree_nearest_from_spec (co : Vec3) :
    ∀ (pts pre : List Vec3) (best : Option (Nat × ℚ)),
      ((best = none ∧ pre = []) ∨
        (∃ b p, best = some (b, len_squared_v3v3 p co) ∧ pre[b]? = some p
          ∧ (∀ (j : Nat) (q : Vec3), pre[j]? = some q →
              len_squared_v3v3 p co ≤ len_squared_v3v3 q co)
          ∧ (∀ (j : Nat) (q : Vec3), j < b → pre[j]? = some q →
              len_squared_v3v3 p co < len_squared_v3v3 q co))) →
      (kdtree_nearest_from co pts pre.length best = none ∧ pre ++ pts = []) ∨
        (∃ b, (kdtree_nearest_from co pts pre.length best).map Prod.fst = some b
          ∧ is_nearest (pre ++ pts) co b) := by
  intro pts
  induction pts with
  | nil =>
    intro pre best h
    rcases h with ⟨rfl, rfl⟩ | ⟨b, p, rfl, hp, hle, hlt⟩
    · exact Or.inl ⟨rfl, rfl⟩
    · refine Or.inr ⟨b, rfl, ?_⟩
      rw [List.append_nil]
      exact ⟨p, hp, hle, hlt⟩
  | cons pt rest ih =>
    intro pre best h
    have e : pre ++ pt :: rest = (pre ++ [pt]) ++ rest := by simp
    have hl : (pre ++ [pt]).length = pre.length + 1 := by simp
    have hget : (pre ++ [pt])[pre.length]? = some pt := by simp
    have hsplit : ∀ (j : Nat) (q : Vec3), (pre ++ [pt])[j]? = some q →
        (j < pre.length ∧ pre[j]? = some q) ∨ (j = pre.length ∧ q = pt) := by
      intro j q hj
      rcases Nat.lt_or_ge j pre.length with hlt | hge
      · left
        rw [List.getElem?_append_left hlt] at hj
        exact ⟨hlt, hj⟩
      · right
        rw [List.getElem?_append_right hge] at hj
        have h0 : j - pre.length = 0 := by
          by_contra hne
          have : ([pt] : List Vec3)[j - pre.length]? = none :=
            List.getElem?_eq_none (by simp; omega)
          rw [this] at hj
          cases hj
        rw [h0] at hj
        simp at hj
        exact ⟨by omega, hj.symm⟩
    rw [e]
    rcases h with ⟨rfl, rfl⟩ | ⟨b, p, rfl, hp, hle, hlt⟩
    · simp only [kdtree_nearest_from]
      have := ih ([] ++ [pt]) (some (0, len_squared_v3v3 pt co))
        (Or.inr ⟨0, pt, rfl, by simp, by
          intro j q hj
          rcases hsplit j q hj with ⟨h1, _⟩ | ⟨_, rfl⟩
          · simp at h1
          · exact le_refl _, by
          intro j q hj0
          omega⟩)
      simpa using this
    · simp only [kdtree_nearest_from]
      by_cases hc : len_squared_v3v3 pt co < len_squared_v3v3 p co
      · rw [if_pos hc]
        have := ih (pre ++ [pt]) (some (pre.length, len_squared_v3v3 pt co))
          (Or.inr ⟨pre.length, pt, rfl, hget, by
            intro j q hj
            rcases hsplit j q hj with ⟨_, h2⟩ | ⟨_, rfl⟩
            · exact le_of_lt (lt_of_lt_of_le hc (hle j q h2))
            · exact le_refl _, by
            intro j q hj0 hj
            rcases hsplit j q hj with ⟨_, h2⟩ | ⟨h1, _⟩
            · exact lt_of_lt_of_le hc (hle j q h2)
            · omega⟩)
        rw [hl] at this
        exact this
      · rw [if_neg hc]
        have hb : b < pre.length := by
          by_contra hge
          rw [List.getElem?_eq_none (by omega)] at hp
          cases hp
        have := ih (pre ++ [pt]) (some (b, len_squared_v3v3 p co))
          (Or.inr ⟨b, p, rfl, by rw [List.getElem?_append_left hb]; exact hp, by
            intro j q hj
            rcases hsplit j q hj with ⟨_, h2⟩ | ⟨_, rfl⟩
            · exact hle j q h2
            · exact not_lt.mp hc, by
            intro j q hj0 hj
            rcases hsplit j q hj with ⟨_, h2⟩ | ⟨h1, _⟩
            · exact hlt j q hj0 h2
            · omega⟩)
        rw [hl] at this
        exact this

theorem find_nearest_spec (tree : List Vec3) (co : Vec3) :
    (BLI_kdtree_find_nearest tree co = none ∧ tree = []) ∨
      (∃ b, BLI_kdtree_find_nearest tree co = some b ∧ is_nearest tree co b) := by
  have := kdtree_nearest_from_spec co tree [] none (Or.inl ⟨rfl, rfl⟩)
  simp only [List.length_nil, List.nil_append] at this
  unfold BLI_kdtree_find_nearest
  rcases this with ⟨h1, h2⟩ | ⟨b, h1, h2⟩
  · exact Or.inl ⟨by rw [h1]; rfl, h2⟩
  · exact Or.inr ⟨b, h1, h2⟩

theorem is_nearest_unique (tree : List Vec3) (co : Vec3) (i j : Nat)
    (hi : is_nearest tree co i) (hj : is_nearest tree co j) : i = j := by
  obtain ⟨p, hp, hple, hplt⟩ := hi
  obtain ⟨q, hq, hqle, hqlt⟩ := hj
  rcases Nat.lt_trichotomy i j with h | h | h
  · have h1 := hqlt i p h hp
    have h2 := hple j q hq
    exact absurd (lt_of_lt_of_le h1 h2) (lt_irrefl _)
  · exact h
  · have h1 := hplt j q h hq
    have h2 := hqle i p hp
    exact absurd (lt_of_lt_of_le h1 h2) (lt_irrefl _)

theorem find_nearest_iff (tree : List Vec3) (co : Vec3) (i : Nat) :
    BLI_kdtree_find_nearest tree co = some i ↔ is_nearest tree co i := by
  constructor
  · intro h
    rcases find_nearest_spec tree co with ⟨h1, _⟩ | ⟨b, h1, h2⟩
    · rw [h1] at h; cases h
    · rw [h1] at h; cases h; exact h2
  · intro h
    rcases find_nearest_spec tree co with ⟨_, h2⟩ | ⟨b, h1, h2⟩
    · obtain ⟨p, hp, _⟩ := h
      rw [h2] at hp
      simp at hp
    · rw [h1, is_nearest_unique tree co i b h h2]

/-- A point the search returns is the first of the tree at its own place. -/
theorem is_nearest_self (tree : List Vec3) (co : Vec3) (i : Nat) (p : Vec3)
    (h : is_nearest tree co i) (hp : tree[i]? = some p) : is_nearest tree p i := by
  obtain ⟨p1, hp1, hle, hlt⟩ := h
  rw [hp] at hp1
  cases hp1
  refine ⟨p, hp, ?_, ?_⟩
  · intro j q _
    rw [len_squared_self]
    exact len_squared_nonneg q p
  · intro j q hj hq
    rw [len_squared_self]
    apply len_squared_pos
    intro heq
    subst heq
    exact absurd (hlt j q hj hq) (lt_irrefl _)

/-! ### The loops of the clustering -/

theorem seed_positions (n k : Nat) (hk : 1 ≤ k) (hkn : k ≤ n) :
    1 ≤ n / k ∧ (∀ j, j < k → j * (n / k) < n)
      ∧ (∀ i j, i * (n / k) = j * (n / k) → i = j) := by
  have hstep : 1 ≤ n / k := Nat.div_pos hkn (by omega)
  refine ⟨hstep, ?_, ?_⟩
  · intro j hj
    have h1 : (j + 1) * (n / k) ≤ k * (n / k) := Nat.mul_le_mul_right _ (by omega)
    have h2 : k * (n / k) ≤ n := Nat.mul_div_le n k
    have h3 : (j + 1) * (n / k) = j * (n / k) + n / k := by ring
    omega
  · intro i j h
    exact Nat.eq_of_mul_eq_mul_right (by omega) h

theorem seed_loop_spec (islands0 : List MeshIsland) (n k : Nat) (hk : 1 ≤ k) (hkn : k ≤ n)
    (hn : islands0.length = n) :
    ∀ (left kc : Nat) (st : ClusterSeeds), kc + left = k →
      st.islands.length = n → st.tree.length = kc → st.seeds.length = kc →
      (∀ j, j < kc → st.seeds[j]? = some (j * (n / k))) →
      (∀ j, j < kc → ∃ m0, islands0[j * (n / k)]? = some m0
        ∧ st.tree[j]? = some m0.centroid) →
      (∀ q m0, islands0[q]? = some m0 → ∃ m, st.islands[q]? = some m
        ∧ m = { m0 with particle_index := m.particle_index }
        ∧ (∀ j, j < kc → q = j * (n / k) → m.particle_index = (j : Int))) →
      ∃ st1, seed_loop n k left kc st = some st1
        ∧ st1.islands.length = n ∧ st1.tree.length = k ∧ st1.seeds.length = k
        ∧ (∀ j, j < k → st1.seeds[j]? = some (j * (n / k)))
        ∧ (∀ j, j < k → ∃ m0, islands0[j * (n / k)]? = some m0
            ∧ st1.tree[j]? = some m0.centroid)
        ∧ (∀ q m0, islands0[q]? = some m0 → ∃ m, st1.islands[q]? = some m
            ∧ m = { m0 with particle_index := m.particle_index }
            ∧ (∀ j, j < k → q = j * (n / k) → m.particle_index = (j : Int))) := by
  obtain ⟨hstep, hpos, hinj⟩ := seed_positions n k hk hkn
  intro left
  induction left with
  | zero =>
    intro kc st hkc h1 h2 h3 h4 h5 h6
    have : kc = k := by omega
    subst this
    exact ⟨st, rfl, h1, h2, h3, h4, h5, h6⟩
  | succ left ih =>
    intro kc st hkc h1 h2 h3 h4 h5 h6
    have hw : kc * (n / k) < n := hpos kc (by omega)
    have hw0 : kc * (n / k) < islands0.length := by omega
    obtain ⟨wm, hwm, hwe, hwp⟩ := h6 _ _ (List.getElem?_eq_getElem hw0)
    simp only [seed_loop, hwm]
    apply ih (kc + 1) _ (by omega)
    · simp [h1]
    · simp [h2]
    · simp [h3]
    · intro j hj
      rcases Nat.lt_or_ge j kc with hlt | hge
      · rw [List.getElem?_append_left (by omega)]
        exact h4 j hlt
      · have : j = kc := by omega
        subst this
        rw [List.getElem?_append_right (by omega), h3]
        simp
    · intro j hj
      rcases Nat.lt_or_ge j kc with hlt | hge
      · obtain ⟨m0, hm0, ht⟩ := h5 j hlt
        refine ⟨m0, hm0, ?_⟩
        rw [List.getElem?_append_left (by omega)]
        exact ht
      · have : j = kc := by omega
        subst this
        refine ⟨_, List.getElem?_eq_getElem hw0, ?_⟩
        rw [List.getElem?_append_right (by omega), h2]
        simp only [Nat.sub_self, List.getElem?_cons_zero, Option.some.injEq]
        rw [hwe]
    · intro q m0 hq
      by_cases hqw : q = kc * (n / k)
      · subst hqw
        have hm0 : m0 = islands0[kc * (n / k)] := by
          rw [List.getElem?_eq_getElem hw0] at hq
          exact (Option.some.inj hq).symm
        refine ⟨{ wm with particle_index := (kc : Int) }, ?_, ?_, ?_⟩
        · simp only
          rw [List.getElem?_set_self (by omega)]
        · rw [hwe, hm0]
        · intro j _ hj
          rw [hinj _ _ hj]
      · obtain ⟨m, hm, hme, hmp⟩ := h6 q m0 hq
        refine ⟨m, ?_, hme, ?_⟩
        · simp only
          rw [List.getElem?_set_ne (Ne.symm hqw)]
          exact hm
        · intro j hj hqj
          rcases Nat.lt_or_ge j kc with hlt | hge
          · exact hmp j hlt hqj
          · have : j = kc := by omega
            subst this
            exact absurd hqj hqw

theorem assign_loop_spec (islands0 : List MeshIsland) (tree : List Vec3) (seeds : List Nat)
    (n k : Nat) (hk : 1 ≤ k) (hkn : k ≤ n) (hn : islands0.length = n)
    (htree : tree.length = k)
    (hseeds : ∀ j, j < k → seeds[j]? = some (j * (n / k)))
    (hcen : ∀ j, j < k → ∃ m0, islands0[j * (n / k)]? = some m0
      ∧ tree[j]? = some m0.centroid) :
    ∀ (left p : Nat) (isl : List MeshIsland), p + left = n →
      isl.length = n →
      (∀ (q : Nat) (m0 : MeshIsland), islands0[q]? = some m0 → ∃ m, isl[q]? = some m
        ∧ m = { m0 with particle_index := m.particle_index }
        ∧ (q < p → ∀ idx, is_nearest tree m0.centroid idx → m.particle_index = (idx : Int))
        ∧ (p ≤ q → ∀ j, j < k → q = j * (n / k) → m.particle_index = (j : Int))) →
      ∃ isl1, assign_loop tree seeds left p isl = some isl1
        ∧ isl1.length = n
        ∧ (∀ (q : Nat) (m0 : MeshIsland), islands0[q]? = some m0 →
            ∃ (m : MeshIsland) (idx : Nat), isl1[q]? = some m
            ∧ m = { m0 with particle_index := (idx : Int) }
            ∧ is_nearest tree m0.centroid idx) := by
  obtain ⟨hstep, hpos, hinj⟩ := seed_positions n k hk hkn
  intro left
  induction left with
  | zero =>
    intro p isl hp hlen hinv
    have : p = n := by omega
    subst this
    refine ⟨isl, rfl, hlen, ?_⟩
    intro q m0 hq
    obtain ⟨m, hm, hme, hlt, _⟩ := hinv q m0 hq
    have hqn : q < p := by
      by_contra hge
      rw [List.getElem?_eq_none (by omega)] at hq
      cases hq
    rcases find_nearest_spec tree m0.centroid with ⟨_, h2⟩ | ⟨b, _, h2⟩
    · rw [h2] at htree
      simp at htree
      omega
    · refine ⟨m, b, hm, ?_, h2⟩
      rw [← hlt hqn b h2]
      exact hme
  | succ left ih =>
    intro p isl hp hlen hinv
    have hp0 : p < islands0.length := by omega
    obtain ⟨mi, hmi, hmie, _, _⟩ := hinv p _ (List.getElem?_eq_getElem hp0)
    have hcp : mi.centroid = (islands0[p]).centroid := by rw [hmie]
    rcases find_nearest_spec tree mi.centroid with ⟨_, h2⟩ | ⟨idx, hfind, hnear⟩
    · rw [h2] at htree
      simp at htree
      omega
    have hidx : idx < k := by
      obtain ⟨pt, hpt, _⟩ := hnear
      by_contra hge
      rw [List.getElem?_eq_none (by omega)] at hpt
      cases hpt
    obtain ⟨s0, hs0, hts⟩ := hcen idx hidx
    obtain ⟨seed, hseed, hseede, hseedlt, hseedge⟩ := hinv _ s0 hs0
    have hseedpi : seed.particle_index = (idx : Int) := by
      rcases Nat.lt_or_ge (idx * (n / k)) p with hlt | hge
      · exact hseedlt hlt idx (is_nearest_self tree mi.centroid idx s0.centroid hnear hts)
      · exact hseedge hge idx hidx rfl
    simp only [assign_loop, hmi, hfind, hseeds idx hidx, hseed]
    apply ih (p + 1) _ (by omega)
    · simp [hlen]
    · intro q m0 hq
      by_cases hqp : q = p
      · subst hqp
        have hm0 : m0 = islands0[q] := by
          rw [List.getElem?_eq_getElem hp0] at hq
          exact (Option.some.inj hq).symm
        refine ⟨{ mi with particle_index := seed.particle_index }, ?_, ?_, ?_, ?_⟩
        · rw [List.getElem?_set_self (by omega)]
        · rw [hmie, hm0]
        · intro _ i hi
          simp only
          rw [hseedpi]
          rw [hm0, ← hcp] at hi
          rw [is_nearest_unique tree mi.centroid idx i hnear hi]
        · intro h
          omega
      · obtain ⟨m, hm, hme, hlt, hge⟩ := hinv q m0 hq
        refine ⟨m, ?_, hme, ?_, ?_⟩
        · rw [List.getElem?_set_ne (Ne.symm hqp)]
          exact hm
        · intro h
          exact hlt (by omega)
        · intro h
          exact hge (by omega)

theorem clear_clusters_getElem? (islands : List MeshIsland) (q : Nat) :
    (clear_clusters islands)[q]? = (islands[q]?).map (fun mi => { mi with particle_index := -1 }) := by
  unfold clear_clusters
  rw [List.getElem?_map]

/-! ### The constraint between two islands -/

theorem do_constraint_creates (R : RigidBodyKernel) (fmd : ConstraintData) (mi1 mi2 : Nat)
    (con_type : Int) (thresh : ℚ) (a b : MeshIsland)
    (ha : fmd.islands[mi1]? = some a) (hb : fmd.islands[mi2]? = some b)
    (hmap : check_mapping fmd a.setting_id = true ∧ check_mapping fmd b.setting_id = true) :
    ∃ fmd1, do_constraint R fmd mi1 mi2 con_type thresh = some fmd1
      ∧ fmd1.constraint.meshConstraints
        = fmd.constraint.meshConstraints ++ [shard_constraint R fmd a b mi1 mi2 con_type thresh] := by
  simp only [do_constraint, ha, hb, hmap.1, hmap.2]
  exact ⟨_, rfl, rfl⟩

/-! ### The loop over the hits of a search -/

theorem do_constraint_frame (R : RigidBodyKernel) (fmd fmd1 : ConstraintData) (mi1 mi2 : Nat)
    (con_type : Int) (thresh : ℚ) (h : do_constraint R fmd mi1 mi2 con_type thresh = some fmd1) :
    fmd1.constraint.constraint_target = fmd.constraint.constraint_target
      ∧ fmd1.constraint.constraint_limit = fmd.constraint.constraint_limit
      ∧ fmd1.constraint.breaking_threshold = fmd.constraint.breaking_threshold
      ∧ fmd1.islands.length = fmd.islands.length
      ∧ fmd1.vertex_island_map = fmd.vertex_island_map := by
  unfold do_constraint at h
  split at h
  · split at h
    · cases h; exact ⟨rfl, rfl, rfl, rfl, rfl⟩
    · cases h
      refine ⟨rfl, rfl, rfl, ?_, rfl⟩
      simp [add_participating]
  · cases h

theorem connect_meshislands_frame (R : RigidBodyKernel) (fmd fmd1 : ConstraintData)
    (mi1 mi2 : Option Nat) (con_type : Int) (thresh : ℚ)
    (h : connect_meshislands R fmd mi1 mi2 con_type thresh = some fmd1) :
    fmd1.constraint.constraint_target = fmd.constraint.constraint_target
      ∧ fmd1.constraint.constraint_limit = fmd.constraint.constraint_limit
      ∧ fmd1.constraint.breaking_threshold = fmd.constraint.breaking_threshold
      ∧ fmd1.islands.length = fmd.islands.length
      ∧ fmd1.vertex_island_map = fmd.vertex_island_map := by
  unfold connect_meshislands at h
  split at h
  · split at h
    · simp only at h
      split at h
      · split at h
        · exact do_constraint_frame R fmd fmd1 _ _ _ _ h
        · cases h; exact ⟨rfl, rfl, rfl, rfl, rfl⟩
      · cases h; exact ⟨rfl, rfl, rfl, rfl, rfl⟩
    · cases h
  · cases h; exact ⟨rfl, rfl, rfl, rfl, rfl⟩

theorem hit_island_frame (fmd fmd1 : ConstraintData)
    (h1 : fmd1.constraint.constraint_target = fmd.constraint.constraint_target)
    (h2 : fmd1.islands.length = fmd.islands.length)
    (h3 : fmd1.vertex_island_map = fmd.vertex_island_map) (index : Nat) :
    hit_island fmd1 index = hit_island fmd index := by
  unfold hit_island
  rw [h1, h2, h3]

theorem other_islands_frame (fmd fmd1 : ConstraintData)
    (h1 : fmd1.constraint.constraint_target = fmd.constraint.constraint_target)
    (h2 : fmd1.islands.length = fmd.islands.length)
    (h3 : fmd1.vertex_island_map = fmd.vertex_island_map) (mi : Option Nat) (hits : List Nat) :
    other_islands fmd1 mi hits = other_islands fmd mi hits := by
  unfold other_islands
  congr 1
  funext index
  rw [hit_island_frame fmd fmd1 h1 h2 h3]

theorem search_hits_step (R : RigidBodyKernel) (mi : Option Nat) (index : Nat)
    (rest : List Nat) (i : Nat) (fmd : ConstraintData) :
    search_hits R mi (index :: rest) i fmd =
      match hit_island fmd index with
      | none => none
      | some mi2 =>
        if mi ≠ mi2 ∧ mi2 ≠ none then
          if (fmd.constraint.constraint_limit ≤ (i : Int)) ∧ 0 < fmd.constraint.constraint_limit
          then some fmd
          else
            match connect_meshislands R fmd mi mi2 R.RBC_TYPE_FIXED
                fmd.constraint.breaking_threshold with
            | none => none
            | some fmd1 => search_hits R mi rest (i + 1) fmd1
        else search_hits R mi rest (i + 1) fmd := by
  simp only [search_hits, hit_island]

theorem search_hits_past_limit (R : RigidBodyKernel) (mi : Option Nat) :
    ∀ (hits : List Nat) (i : Nat) (fmd : ConstraintData),
      (∀ index ∈ hits, (hit_island fmd index).isSome = true) →
      0 < fmd.constraint.constraint_limit → fmd.constraint.constraint_limit ≤ (i : Int) →
      search_hits R mi hits i fmd = some fmd := by
  intro hits
  induction hits with
  | nil => intro i fmd _ _ _; rfl
  | cons index rest ih =>
    intro i fmd hv h0 hi
    rw [search_hits_step]
    obtain ⟨mi2, hmi2⟩ := Option.isSome_iff_exists.mp (hv index (List.mem_cons_self _ _))
    simp only [hmi2]
    have hv' : ∀ index ∈ rest, (hit_island fmd index).isSome = true :=
      fun x hx => hv x (List.mem_cons_of_mem _ hx)
    by_cases hc : mi ≠ mi2 ∧ mi2 ≠ none
    · rw [if_pos hc, if_pos ⟨hi, h0⟩]
    · rw [if_neg hc]
      exact ih (i + 1) fmd hv' h0 (by push_cast; omega)

theorem other_islands_cons (fmd : ConstraintData) (mi : Option Nat) (index : Nat)
    (rest : List Nat) (mi2 : Option Nat) (h : hit_island fmd index = some mi2) :
    other_islands fmd mi (index :: rest) =
      if mi ≠ mi2 ∧ mi2 ≠ none then mi2 :: other_islands fmd mi rest
      else other_islands fmd mi rest := by
  unfold other_islands
  rw [List.filterMap_cons, h]
  cases mi2 with
  | none => simp
  | some i2 =>
    by_cases hne : mi = some i2
    · simp [hne]
    · simp [hne]

theorem search_hits_spec (R : RigidBodyKernel) (mi : Option Nat) :
    ∀ (hits : List Nat) (i : Nat) (fmd : ConstraintData),
      (∀ index ∈ hits, (hit_island fmd index).isSome = true) →
      search_hits R mi hits i fmd =
        connect_all R mi
          (other_islands fmd mi
            (if 0 < fmd.constraint.constraint_limit then
              hits.take (fmd.constraint.constraint_limit.toNat - i) else hits)) fmd := by
  intro hits
  induction hits with
  | nil =>
    intro i fmd _
    simp [search_hits, other_islands, connect_all]
  | cons index rest ih =>
    intro i fmd hv
    rw [search_hits_step]
    obtain ⟨mi2, hmi2⟩ := Option.isSome_iff_exists.mp (hv index (List.mem_cons_self _ _))
    simp only [hmi2]
    have hv' : ∀ index ∈ rest, (hit_island fmd index).isSome = true :=
      fun x hx => hv x (List.mem_cons_of_mem _ hx)
    by_cases h0 : 0 < fmd.constraint.constraint_limit
    · simp only [if_pos h0]
      by_cases hi : fmd.constraint.constraint_limit ≤ (i : Int)
      · have hz : fmd.constraint.constraint_limit.toNat - i = 0 := by omega
        rw [hz, List.take_zero]
        have hnil : other_islands fmd mi [] = [] := rfl
        rw [hnil]
        simp only [connect_all]
        by_cases hc : mi ≠ mi2 ∧ mi2 ≠ none
        · rw [if_pos hc, if_pos ⟨hi, h0⟩]
        · rw [if_neg hc]
          exact search_hits_past_limit R mi rest (i + 1) fmd hv' h0 (by push_cast; omega)
      · obtain ⟨d, hd⟩ : ∃ d, fmd.constraint.constraint_limit.toNat - i = d + 1 :=
          ⟨fmd.constraint.constraint_limit.toNat - i - 1, by omega⟩
        have hd' : fmd.constraint.constraint_limit.toNat - (i + 1) = d := by omega
        rw [hd, List.take_succ_cons, other_islands_cons fmd mi index _ mi2 hmi2]
        by_cases hc : mi ≠ mi2 ∧ mi2 ≠ none
        · rw [if_pos hc, if_pos hc, if_neg (fun h => hi h.1)]
          simp only [connect_all]
          cases hcon : connect_meshislands R fmd mi mi2 R.RBC_TYPE_FIXED
              fmd.constraint.breaking_threshold with
          | none => rfl
          | some fmd1 =>
            obtain ⟨f1, f2, f3, f4, f5⟩ := connect_meshislands_frame R fmd fmd1 _ _ _ _ hcon
            have hv1 : ∀ index ∈ rest, (hit_island fmd1 index).isSome = true := by
              intro x hx
              rw [hit_island_frame fmd fmd1 f1 f4 f5]
              exact hv' x hx
            simp only
            rw [ih (i + 1) fmd1 hv1, f2, if_pos h0, hd', other_islands_frame fmd fmd1 f1 f4 f5]
        · rw [if_neg hc, if_neg hc, ih (i + 1) fmd hv', if_pos h0, hd']
    · simp only [if_neg h0]
      rw [other_islands_cons fmd mi index _ mi2 hmi2]
      by_cases hc : mi ≠ mi2 ∧ mi2 ≠ none
      · rw [if_pos hc, if_pos hc, if_neg (fun h => h0 h.2)]
        simp only [connect_all]
        cases hcon : connect_meshislands R fmd mi mi2 R.RBC_TYPE_FIXED
            fmd.constraint.breaking_threshold with
        | none => rfl
        | some fmd1 =>
          obtain ⟨f1, f2, f3, f4, f5⟩ := connect_meshislands_frame R fmd fmd1 _ _ _ _ hcon
          have hv1 : ∀ index ∈ rest, (hit_island fmd1 index).isSome = true := by
            intro x hx
            rw [hit_island_frame fmd fmd1 f1 f4 f5]
            exact hv' x hx
          simp only
          rw [ih (i + 1) fmd1 hv1, f2, if_neg h0, other_islands_frame fmd fmd1 f1 f4 f5]
      · rw [if_neg hc, if_neg hc, ih (i + 1) fmd hv', if_neg h0]

/-! ### The island of a shard -/

theorem do_vert_index_map_no_group (env : IslandSetup) (mi : MeshIsland)
    (hg : env.dm_group = none) :
    do_vert_index_map env mi = some (ground_type mi, mi) := by
  unfold do_vert_index_map
  rw [hg]
  cases env.vert_index_map <;> rfl

theorem do_vert_index_map_spec (env : IslandSetup) (mi : MeshIsland)
    (h : mi.vertex_indices ≠ []) :
    ∃ t m, do_vert_index_map env mi = some (t, m)
      ∧ m = { mi with particle_index := m.particle_index } := by
  unfold do_vert_index_map
  cases env.vert_index_map with
  | none => exact ⟨_, _, rfl, rfl⟩
  | some map =>
    cases env.dm_group with
    | none => exact ⟨_, _, rfl, rfl⟩
    | some group =>
      simp only
      split
      · cases hv : mi.vertex_indices with
        | nil => exact absurd hv h
        | cons v rest =>
          simp only [List.getElem?_cons_zero]
          exact ⟨_, _, rfl, rfl⟩
      · exact ⟨_, _, rfl, rfl⟩

theorem take_over_parent_frame (env : IslandSetup) (s : Shard) (mi : MeshIsland) :
    take_over_parent env s mi = { mi with centroid := (take_over_parent env s mi).centroid } := by
  unfold take_over_parent
  split
  · split
    · split
      · rfl
      · split <;> rfl
    · rfl
  · rfl

theorem island_of_shard_spec (env : IslandSetup) (s : Shard) (vertstart : Nat)
    (h : s.totvert ≠ 0) :
    ∃ m, island_of_shard env s vertstart = some m ∧ m.id = s.shard_id
      ∧ m.vertex_indices = (List.range s.totvert).map (fun k => ((vertstart + k : Nat) : Int))
      ∧ m.rigidbody = true ∧ m.participating_constraints = []
      ∧ (env.dm_group = none → m.rigidbody_type = ground_type m ∧ m.particle_index = -1) := by
  unfold island_of_shard
  simp only
  rw [take_over_parent_frame]
  generalize (take_over_parent env s _).centroid = c3
  have hvi : (do_verts_weights env s
      { calloc_meshisland with participating_constraints := [], thresh_weight := 0,
                               ground_weight := 0 } vertstart).vertex_indices
      = (List.range s.totvert).map (fun k => ((vertstart + k : Nat) : Int)) := by
    simp only [do_verts_weights, List.map_map, Function.comp_def]
  have hpc : (do_verts_weights env s
      { calloc_meshisland with participating_constraints := [], thresh_weight := 0,
                               ground_weight := 0 } vertstart).participating_constraints = [] := rfl
  generalize do_verts_weights env s
      { calloc_meshisland with participating_constraints := [], thresh_weight := 0,
                               ground_weight := 0 } vertstart = mi1 at hvi hpc ⊢
  have hne : ({ ({ ({ mi1 with centroid := s.centroid, id := s.shard_id } : MeshIsland) with
      centroid := c3 } : MeshIsland) with particle_index := -1 } : MeshIsland).vertex_indices
        ≠ [] := by
    show mi1.vertex_indices ≠ []
    rw [hvi]
    intro h0
    have := congrArg List.length h0
    simp at this
    exact h this
  obtain ⟨t, m, hm, hme⟩ := do_vert_index_map_spec env _ hne
  simp only at hm
  refine ⟨_, by rw [hm], ?_, ?_, rfl, ?_, ?_⟩
  · show m.id = s.shard_id
    rw [hme]
  · show m.vertex_indices = _
    rw [hme]
    exact hvi
  · show m.participating_constraints = []
    rw [hme]
    exact hpc
  · intro hg
    rw [do_vert_index_map_no_group env _ hg] at hm
    simp only [Option.some.injEq, Prod.mk.injEq] at hm
    obtain ⟨h1, h2⟩ := hm
    subst h1 h2
    exact ⟨rfl, rfl⟩

/-! ### The loop over the shards -/

theorem vertstart_at_zero (shards : List Shard) : vertstart_at shards 0 = 0 := by
  simp [vertstart_at]

theorem vertstart_at_succ (s : Shard) (rest : List Shard) (p : Nat) :
    vertstart_at (s :: rest) (p + 1) = s.totvert + vertstart_at rest p := by
  simp [vertstart_at]

theorem islands_before_zero (shards : List Shard) : islands_before shards 0 = 0 := by
  simp [islands_before]

theorem islands_before_succ (s : Shard) (rest : List Shard) (p : Nat) :
    islands_before (s :: rest) (p + 1)
      = (if s.totvert ≠ 0 then 1 else 0) + islands_before rest p := by
  unfold islands_before
  rw [List.take_succ_cons, List.filter_cons]
  by_cases h : s.totvert ≠ 0
  · simp [h]; omega
  · simp [h]

theorem range_map_add (vs a b : Nat) :
    (List.range a).map (fun k => ((vs + k : Nat) : Int))
        ++ (List.range b).map (fun k => ((vs + a + k : Nat) : Int))
      = (List.range (a + b)).map (fun k => ((vs + k : Nat) : Int)) := by
  rw [List.range_add, List.map_append, List.map_map]
  congr 1
  apply List.map_congr_left
  intro k _
  simp only [Function.comp]
  congr 1
  omega

theorem islands_loop_spec (env : IslandSetup) :
    ∀ (shards : List Shard) (vs : Nat) (st : IslandState),
      ∃ st1 new, islands_loop env shards vs st = some st1
        ∧ st1.meshIslands = st.meshIslands ++ new
        ∧ st1.progress_counter = st.progress_counter + (new.length : Int)
        ∧ new.map (fun mi => mi.id)
            = (shards.filter (fun s => s.totvert ≠ 0)).map (fun s => s.shard_id)
        ∧ (new.map (fun mi => mi.vertex_indices)).flatten
            = (List.range (shards.map Shard.totvert).sum).map (fun k => ((vs + k : Nat) : Int))
        ∧ (∀ (p : Nat) (s : Shard), shards[p]? = some s → s.totvert ≠ 0 →
            ∃ mi, new[islands_before shards p]? = some mi ∧ mi.id = s.shard_id
              ∧ mi.vertex_indices
                = (List.range s.totvert).map
                    (fun k => ((vs + vertstart_at shards p + k : Nat) : Int))) := by
  intro shards
  induction shards with
  | nil =>
    intro vs st
    exact ⟨st, [], rfl, by simp, by simp, rfl, rfl, by intro p s h; simp at h⟩
  | cons s rest ih =>
    intro vs st
    by_cases hs : s.totvert = 0
    · obtain ⟨st1, new, h1, h2, h3, h4, h5, h6⟩ := ih (vs + s.totvert) st
      refine ⟨st1, new, ?_, h2, h3, ?_, ?_, ?_⟩
      · simp only [islands_loop, do_island_from_shard, if_pos hs]
        exact h1
      · rw [List.filter_cons]
        simp only [hs, ne_eq, not_true_eq_false, decide_False, Bool.false_eq_true, if_false]
        exact h4
      · rw [h5, List.map_cons, List.sum_cons, hs]
        simp
      · intro p t hp ht
        cases p with
        | zero =>
          simp only [List.getElem?_cons_zero, Option.some.injEq] at hp
          subst hp
          exact absurd hs ht
        | succ p =>
          simp only [List.getElem?_cons_succ] at hp
          obtain ⟨mi, hm1, hm2, hm3⟩ := h6 p t hp ht
          refine ⟨mi, ?_, hm2, ?_⟩
          · rw [islands_before_succ]
            simp only [hs, ne_eq, not_true_eq_false, if_false, Nat.zero_add]
            exact hm1
          · rw [hm3, vertstart_at_succ]
            apply List.map_congr_left
            intro k _
            congr 1
            omega
    · obtain ⟨m, hm, hid, hvi, _⟩ := island_of_shard_spec env s vs hs
      obtain ⟨st1, new, h1, h2, h3, h4, h5, h6⟩ := ih (vs + s.totvert)
        { meshIslands := st.meshIslands ++ [m], progress_counter := st.progress_counter + 1 }
      refine ⟨st1, m :: new, ?_, ?_, ?_, ?_, ?_, ?_⟩
      · simp only [islands_loop, do_island_from_shard, if_neg hs, hm]
        exact h1
      · rw [h2]; simp
      · rw [h3]; simp only [List.length_cons]; push_cast; ring
      · rw [List.filter_cons]
        simp only [hs, ne_eq, not_false_eq_true, decide_True, if_true, List.map_cons, hid, h4]
      · rw [List.map_cons, List.flatten_cons, h5, hvi, List.map_cons, List.sum_cons]
        exact range_map_add vs s.totvert _
      · intro p t hp ht
        cases p with
        | zero =>
          simp only [List.getElem?_cons_zero, Option.some.injEq] at hp
          subst hp
          refine ⟨m, ?_, hid, ?_⟩
          · rw [islands_before_zero, List.getElem?_cons_zero]
          · rw [hvi, vertstart_at_zero]; rfl
        | succ p =>
          simp only [List.getElem?_cons_succ] at hp
          obtain ⟨mi, hm1, hm2, hm3⟩ := h6 p t hp ht
          refine ⟨mi, ?_, hm2, ?_⟩
          · rw [islands_before_succ]
            simp only [hs, ne_eq, not_false_eq_true, if_true]
            rw [Nat.add_comm, List.getElem?_cons_succ]
            exact hm1
          · rw [hm3, vertstart_at_succ]
            apply List.map_congr_left
            intro k _
            congr 1
            omega

/-! ### The combined mesh -/

theorem memcpy_at_spec {α : Type} (dst : List α) (start : Nat) (src : List α)
    (h : start + src.length ≤ dst.length) :
    ∃ r, memcpy_at dst start src = some r ∧ r.length = dst.length
      ∧ r.take (start + src.length) = dst.take start ++ src
      ∧ r.drop (start + src.length) = dst.drop (start + src.length) := by
  unfold memcpy_at
  rw [if_pos h]
  have hl : (dst.take start ++ src).length = start + src.length := by
    rw [List.length_append, List.length_take]
    omega
  refine ⟨_, rfl, ?_, ?_, ?_⟩
  · rw [List.length_append, hl, List.length_drop]
    omega
  · rw [← hl, List.take_left']
    rfl
  · rw [← hl, List.drop_left']
    rfl

theorem do_create_loop_spec :
    ∀ (shards : List Shard) (vs ps ls : Nat) (m : Mesh),
      vs + (shards.map Shard.totvert).sum ≤ m.mvert.length →
      ps + (shards.map Shard.totpoly).sum ≤ m.mpoly.length →
      ls + (shards.map Shard.totloop).sum ≤ m.mloop.length →
      ∃ r, do_create_loop shards vs ps ls m = some r
        ∧ r.mvert.length = m.mvert.length
        ∧ r.mpoly.length = m.mpoly.length ∧ r.mloop.length = m.mloop.length
        ∧ r.mvert.take (vs + (shards.map Shard.totvert).sum)
            = m.mvert.take vs ++ (shards.map (fun s => s.mvert)).flatten
        ∧ r.mvert.drop (vs + (shards.map Shard.totvert).sum)
            = m.mvert.drop (vs + (shards.map Shard.totvert).sum) := by
  intro shards
  induction shards with
  | nil =>
    intro vs ps ls m _ _ _
    exact ⟨m, rfl, rfl, rfl, rfl, by simp, by simp⟩
  | cons s rest ih =>
    intro vs ps ls m hv hp hl
    simp only [List.map_cons, List.sum_cons] at hv hp hl
    obtain ⟨v1, hv1, hv1l, hv1t, hv1d⟩ := memcpy_at_spec m.mvert vs s.mvert
      (by unfold Shard.totvert at hv; omega)
    obtain ⟨p1, hp1, hp1l, _, _⟩ := memcpy_at_spec m.mpoly ps
      (s.mpoly.map (fun mp => { mp with loopstart := mp.loopstart + (ls : Int) }))
      (by rw [List.length_map]; unfold Shard.totpoly at hp; omega)
    obtain ⟨l1, hl1, hl1l, _, _⟩ := memcpy_at_spec m.mloop ls
      (s.mloop.map (fun ml => { ml with v := ml.v + (vs : Int) }))
      (by rw [List.length_map]; unfold Shard.totloop at hl; omega)
    obtain ⟨r, hr, hrv, hrp, hrl, hrt, hrd⟩ := ih (vs + s.totvert) (ps + s.totpoly)
      (ls + s.totloop) ⟨v1, p1, l1⟩ (by simp only; omega) (by simp only; omega)
      (by simp only; omega)
    simp only at hrv hrp hrl hrt hrd
    refine ⟨r, ?_, by rw [hrv, hv1l], by rw [hrp, hp1l], by rw [hrl, hl1l], ?_, ?_⟩
    · simp only [do_create_loop, hv1, hp1, hl1]
      exact hr
    · simp only [List.map_cons, List.sum_cons, List.flatten_cons]
      rw [← Nat.add_assoc, hrt]
      have : v1.take (vs + s.totvert) = m.mvert.take vs ++ s.mvert := hv1t
      rw [this, List.append_assoc]
    · simp only [List.map_cons, List.sum_cons]
      rw [← Nat.add_assoc, hrd]
      have h1 : v1.drop (vs + s.totvert + (rest.map Shard.totvert).sum)
          = (v1.drop (vs + s.totvert)).drop (rest.map Shard.totvert).sum := by
        rw [List.drop_drop]
      have h2 : v1.drop (vs + s.totvert) = m.mvert.drop (vs + s.totvert) := hv1d
      rw [h1, h2, List.drop_drop]

theorem create_dm_spec (shards : List Shard) :
    ∃ dm, create_dm shards = some dm
      ∧ dm.mvert = (shards.map (fun s => s.mvert)).flatten
      ∧ dm.mvert.length = (shards.map Shard.totvert).sum := by
  obtain ⟨r, hr, hrv, _, _, hrt, _⟩ := do_create_loop_spec shards 0 0 0
    ⟨List.replicate (shards.map Shard.totvert).sum ⟨(0, 0, 0)⟩,
     List.replicate (shards.map Shard.totpoly).sum ⟨0, 0⟩,
     List.replicate (shards.map Shard.totloop).sum ⟨0⟩⟩
    (by simp) (by simp) (by simp)
  simp only [List.length_replicate, Nat.zero_add, List.take_zero, List.nil_append] at hrv hrt
  refine ⟨r, hr, ?_, hrv⟩
  rw [← hrt, ← hrv, List.take_length]

theorem flatten_getElem? :
    ∀ (shards : List Shard) (p : Nat) (s : Shard) (k : Nat), shards[p]? = some s →
      k < s.totvert →
      (shards.map (fun s => s.mvert)).flatten[vertstart_at shards p + k]? = s.mvert[k]? := by
  intro shards
  induction shards with
  | nil => intro p s k h; simp at h
  | cons t rest ih =>
    intro p s k hp hk
    rw [List.map_cons, List.flatten_cons]
    cases p with
    | zero =>
      simp only [List.getElem?_cons_zero, Option.some.injEq] at hp
      subst hp
      rw [vertstart_at_zero, Nat.zero_add, List.getElem?_append_left hk]
    | succ p =>
      simp only [List.getElem?_cons_succ] at hp
      rw [vertstart_at_succ, List.getElem?_append_right (by unfold Shard.totvert; omega)]
      have : t.totvert + vertstart_at rest p + k - t.mvert.length = vertstart_at rest p + k := by
        unfold Shard.totvert; omega
      rw [this]
      exact ih p s k hp hk

/-! ### The delete map of the diff pass -/

theorem array_set_getElem? {α : Type} (a r : List α) (i : Nat) (v : α) (j : Nat)
    (h : array_set a i v = some r) :
    r.length = a.length ∧ r[j]? = if j = i then some v else a[j]? := by
  unfold array_set at h
  split at h
  · rename_i hi
    cases h
    refine ⟨List.length_set _ _ _, ?_⟩
    by_cases hj : j = i
    · subst hj
      rw [if_pos rfl, List.getElem?_set_self hi]
    · rw [if_neg hj, List.getElem?_set_ne (Ne.symm hj)]
  · cases h

theorem diff_cell_delete (fm : FracMesh) (tree : List Vec3) (cells : List cell) (i : Nat)
    (c : cell) (m m1 : DiffMaps) (h : diff_cell fm tree cells i c m = some m1) :
    m1.deletemap.length = m.deletemap.length
      ∧ ∀ j, m1.deletemap[j]? = some 0 →
          m.deletemap[j]? = some 0 ∨ cell_matches fm tree cells c j := by
  have hset : ∀ (de : List Int) (j0 : Nat), array_set m.deletemap j0 1 = some de →
      de.length = m.deletemap.length
        ∧ ∀ j, de[j]? = some 0 → m.deletemap[j]? = some 0 ∨ cell_matches fm tree cells c j := by
    intro de j0 hde
    refine ⟨(array_set_getElem? _ _ _ _ 0 hde).1, fun j hj => ?_⟩
    have := (array_set_getElem? _ _ _ _ j hde).2
    by_cases hjj : j = j0
    · rw [if_pos hjj] at this
      rw [this] at hj
      cases hj
    · rw [if_neg hjj] at this
      left
      rw [← this]
      exact hj
  unfold diff_cell at h
  cases hmax : max_neighbor_dist cells c c.neighbors 0 with
  | none => rw [hmax] at h; cases h
  | some max =>
    rw [hmax] at h
    simp only at h
    cases hn : BLI_kdtree_find_nearest tree c.centroid with
    | none => rw [hn] at h; cases h; exact ⟨rfl, fun j hj => Or.inl hj⟩
    | some j0 =>
      rw [hn] at h
      simp only at h
      cases hls : fm.last_shards with
      | none => rw [hls] at h; cases h
      | some last_shards =>
        cases hco : tree[j0]? with
        | none => rw [hls, hco] at h; cases h
        | some n_co =>
          rw [hls, hco] at h
          simp only at h
          cases hpos : last_shards[j0]? with
          | none => rw [hpos] at h; cases h
          | some opos =>
            cases opos with
            | none => rw [hpos] at h; cases h; exact ⟨rfl, fun j hj => Or.inl hj⟩
            | some pos =>
              rw [hpos] at h
              simp only at h
              by_cases hd : len_squared_v3v3 n_co c.centroid < max
              · rw [if_pos hd] at h
                by_cases hd2 : len_squared_v3v3 n_co c.centroid < 1 / 100000
                · rw [if_pos hd2] at h
                  cases ht : fm.shard_map[pos]? with
                  | none => rw [ht] at h; cases h
                  | some t =>
                    rw [ht] at h
                    simp only at h
                    by_cases hvol : |c.volume - t.raw_volume| < 1 / 100000
                    · rw [if_pos hvol] at h
                      cases hsk : array_set m.skipmap i 1 with
                      | none => rw [hsk] at h; cases h
                      | some sk =>
                        cases hde : array_set m.deletemap j0 0 with
                        | none => rw [hsk, hde] at h; cases h
                        | some de =>
                          rw [hsk, hde] at h
                          cases h
                          refine ⟨(array_set_getElem? _ _ _ _ 0 hde).1, fun j hj => ?_⟩
                          have := (array_set_getElem? _ _ _ _ j hde).2
                          by_cases hjj : j = j0
                          · subst hjj
                            exact Or.inr ⟨hn, max, n_co, last_shards, pos, t, hmax, hco, hls, hpos,
                              ht, hd, hd2, hvol⟩
                          · rw [if_neg hjj] at this
                            left
                            rw [← this]
                            exact hj
                    · rw [if_neg hvol] at h
                      cases hde : array_set m.deletemap j0 1 with
                      | none => rw [hde] at h; cases h
                      | some de =>
                        cases hsk : array_set m.skipmap i 0 with
                        | none => rw [hde, hsk] at h; cases h
                        | some sk =>
                          rw [hde, hsk] at h
                          cases h
                          exact hset de j0 hde
                · rw [if_neg hd2] at h
                  cases hsk : array_set m.skipmap i 0 with
                  | none => rw [hsk] at h; cases h
                  | some sk =>
                    cases hde : array_set m.deletemap j0 1 with
                    | none => rw [hsk, hde] at h; cases h
                    | some de =>
                      rw [hsk, hde] at h
                      cases h
                      exact hset de j0 hde
              · rw [if_neg hd] at h
                cases h
                exact ⟨rfl, fun j hj => Or.inl hj⟩

theorem diff_cells_delete (fm : FracMesh) (tree : List Vec3) (cells : List cell) :
    ∀ (rest : List cell) (i : Nat) (m m1 : DiffMaps),
      diff_cells fm tree cells rest i m = some m1 → ∀ j, m1.deletemap[j]? = some 0 →
      m.deletemap[j]? = some 0 ∨ ∃ c ∈ rest, cell_matches fm tree cells c j := by
  intro rest
  induction rest with
  | nil =>
    intro i m m1 h j hj
    simp only [diff_cells] at h
    cases h
    exact Or.inl hj
  | cons c rest ih =>
    intro i m m1 h j hj
    simp only [diff_cells] at h
    cases hc : diff_cell fm tree cells i c m with
    | none => rw [hc] at h; cases h
    | some m2 =>
      rw [hc] at h
      rcases ih (i + 1) m2 m1 h j hj with h2 | ⟨c1, hc1, hm⟩
      · rcases (diff_cell_delete fm tree cells i c m m2 hc).2 j h2 with h3 | h3
        · exact Or.inl h3
        · exact Or.inr ⟨c, List.mem_cons_self _ _, h3⟩
      · exact Or.inr ⟨c1, List.mem_cons_of_mem _ hc1, hm⟩

theorem diff_cells_length (fm : FracMesh) (tree : List Vec3) (cells : List cell) :
    ∀ (rest : List cell) (i : Nat) (m m1 : DiffMaps),
      diff_cells fm tree cells rest i m = some m1 →
      m1.deletemap.length = m.deletemap.length := by
  intro rest
  induction rest with
  | nil => intro i m m1 h; simp only [diff_cells] at h; cases h; rfl
  | cons c rest ih =>
    intro i m m1 h
    simp only [diff_cells] at h
    cases hc : diff_cell fm tree cells i c m with
    | none => rw [hc] at h; cases h
    | some m2 =>
      rw [hc] at h
      rw [ih (i + 1) m2 m1 h, (diff_cell_delete fm tree cells i c m m2 hc).1]

theorem delete_shards_marked :
    ∀ (d : List Int) (i : Nat) (slots : List (Option Shard)) (arr : List (Option Nat))
      (r : List (Option Shard) × Option (List (Option Nat))),
      (∀ x, i ≤ x → x < i + d.length → arr[x]? = some (some x)) →
      delete_shards d i slots (some arr) = some r →
      r.1.length = slots.length
        ∧ (∀ (y : Nat), slots[y]? = some none → r.1[y]? = some none)
        ∧ (∀ (x : Nat) (v : Int), d[x]? = some v → v ≠ 0 → r.1[i + x]? = some none) := by
  intro d
  induction d with
  | nil =>
    intro i slots arr r _ h
    simp only [delete_shards] at h
    cases h
    exact ⟨rfl, fun y hy => hy, by intro x v hx; simp at hx⟩
  | cons v0 rest ih =>
    intro i slots arr r harr h
    simp only [delete_shards] at h
    by_cases hv : v0 ≠ 0
    · rw [if_pos hv] at h
      have hi := harr i (le_refl _) (by simp)
      simp only [hi] at h
      cases hs : slots[i]? with
      | none => simp only [hs] at h; cases h
      | some o =>
        cases o with
        | none => simp only [hs] at h; cases h
        | some sh =>
          simp only [hs] at h
          have hil : i < slots.length := by
            by_contra hge
            rw [List.getElem?_eq_none (by omega)] at hs
            cases hs
          obtain ⟨h0, h1, h2⟩ := ih (i + 1) (slots.set i none) (arr.set i none) r
            (by
              intro x hx1 hx2
              rw [List.getElem?_set_ne (by omega)]
              exact harr x (by omega) (by simp only [List.length_cons]; omega)) h
          have hnone : r.1[i]? = some none :=
            h1 i (by rw [List.getElem?_set_self hil])
          refine ⟨by rw [h0, List.length_set], ?_, ?_⟩
          · intro y hy
            by_cases hyi : y = i
            · subst hyi; exact hnone
            · exact h1 y (by rw [List.getElem?_set_ne (Ne.symm hyi)]; exact hy)
          · intro x v hx hvn
            cases x with
            | zero => exact hnone
            | succ x =>
              simp only [List.getElem?_cons_succ] at hx
              have := h2 x v hx hvn
              rw [show i + (x + 1) = i + 1 + x by omega]
              exact this
    · rw [if_neg hv] at h
      obtain ⟨h0, h1, h2⟩ := ih (i + 1) slots arr r
        (by
          intro x hx1 hx2
          exact harr x (by omega) (by simp only [List.length_cons]; omega)) h
      refine ⟨h0, h1, ?_⟩
      intro x v hx hvn
      cases x with
      | zero =>
        simp only [List.getElem?_cons_zero, Option.some.injEq] at hx
        subst hx
        exact absurd hvn hv
      | succ x =>
        simp only [List.getElem?_cons_succ] at hx
        have := h2 x v hx hvn
        rw [show i + (x + 1) = i + 1 + x by omega]
        exact this

/-! ## Properties of the clusters, the constraints, the islands and the diff pass -/

/-- C11: without a cluster group and for a cluster count `k` with `2 <= k <= ` number of
islands, `do_clusters` returns; the `k` seed islands are those at the list positions
`j * (n / k)` for `j < k`, which are pairwise different positions of the list; every
island keeps its fields and gets as its cluster index the index `j < k` of a seed whose
centroid is at least (squared) Euclidean distance from the centroid of the island. -/
theorem cluster_count_assigns_nearest_seed (fmd : ConstraintData) (obmat : Mat4) (k : Nat) (hk2 : 2 ≤ k)
    (hkn : k ≤ fmd.islands.length) (hcc : fmd.constraint.cluster_count = (k : Int)) :
    ∃ fmd1, do_clusters fmd none obmat = some fmd1
      ∧ fmd1.islands.length = fmd.islands.length
      ∧ (∀ j, j < k → j * (fmd.islands.length / k) < fmd.islands.length)
      ∧ (∀ i j, i * (fmd.islands.length / k) = j * (fmd.islands.length / k) → i = j)
      ∧ ∀ (p : Nat) (mi : MeshIsland), fmd.islands[p]? = some mi →
          ∃ (j : Nat) (seed : MeshIsland), j < k
            ∧ fmd.islands[j * (fmd.islands.length / k)]? = some seed
            ∧ fmd1.islands[p]? = some { mi with particle_index := (j : Int) }
            ∧ ∀ (j1 : Nat) (seed1 : MeshIsland), j1 < k →
                fmd.islands[j1 * (fmd.islands.length / k)]? = some seed1 →
                len_squared_v3v3 seed.centroid mi.centroid
                  ≤ len_squared_v3v3 seed1.centroid mi.centroid := by
  obtain ⟨hstep, hpos, hinj⟩ := seed_positions fmd.islands.length k (by omega) hkn
  have hn : (clear_clusters fmd.islands).length = fmd.islands.length := by
    simp [clear_clusters]
  obtain ⟨st, hst, hl1, hl2, hl3, hseeds, hcen, hisl⟩ :=
    seed_loop_spec (clear_clusters fmd.islands) fmd.islands.length k (by omega) hkn hn
      k 0 ⟨clear_clusters fmd.islands, [], []⟩ (by omega) hn rfl rfl
      (by intro j hj; omega) (by intro j hj; omega)
      (by
        intro q m0 hq
        exact ⟨m0, hq, rfl, by intro j hj; omega⟩)
  obtain ⟨isl1, hassign, hlen1, hfinal⟩ :=
    assign_loop_spec (clear_clusters fmd.islands) st.tree st.seeds fmd.islands.length k
      (by omega) hkn hn hl2 hseeds hcen fmd.islands.length 0 st.islands (by omega) hl1
      (by
        intro q m0 hq
        obtain ⟨m, hm, hme, hmp⟩ := hisl q m0 hq
        exact ⟨m, hm, hme, by intro h; omega, fun _ => hmp⟩)
  have hnot : ¬ (fmd.constraint.cluster_count < 2) := by rw [hcc]; omega
  have hsc : (if (fmd.islands.length : Int) < fmd.constraint.cluster_count
      then fmd.islands.length else fmd.constraint.cluster_count.toNat) = k := by
    rw [hcc, if_neg (by omega)]
    simp
  refine ⟨{ fmd with islands := isl1 }, ?_, hlen1, hpos, hinj, ?_⟩
  · simp only [do_clusters, do_cluster_count, if_neg hnot, hsc, hn, hst, hassign]
  · intro p mi hp
    have hp0 : (clear_clusters fmd.islands)[p]? = some { mi with particle_index := -1 } := by
      rw [clear_clusters_getElem?, hp]; rfl
    obtain ⟨m, idx, hm, hme, hnear⟩ := hfinal p _ hp0
    obtain ⟨pt, hpt, hle, _⟩ := hnear
    have hidx : idx < k := by
      by_contra hge
      rw [List.getElem?_eq_none (by omega)] at hpt
      cases hpt
    obtain ⟨s0, hs0, hts⟩ := hcen idx hidx
    rw [clear_clusters_getElem?] at hs0
    cases hseed : fmd.islands[idx * (fmd.islands.length / k)]? with
    | none => rw [hseed] at hs0; cases hs0
    | some seed =>
      rw [hseed] at hs0
      simp only [Option.map_some', Option.some.injEq] at hs0
      have hsc0 : s0.centroid = seed.centroid := by rw [← hs0]
      rw [hts] at hpt
      have hpt' : pt = seed.centroid := by
        rw [← hsc0]; exact (Option.some.inj hpt).symm
      refine ⟨idx, seed, hidx, hseed, ?_, ?_⟩
      · show isl1[p]? = _
        rw [hm, hme]
      · intro j1 seed1 hj1 hseed1
        obtain ⟨s1, hs1, hts1⟩ := hcen j1 hj1
        rw [clear_clusters_getElem?, hseed1] at hs1
        simp only [Option.map_some', Option.some.injEq] at hs1
        have := hle j1 _ hts1
        rw [hpt', ← hs1] at this
        exact this

/-- C11, at a concrete input: two clusters over the three islands of
`example_cluster_data`. -/
theorem cluster_count_assigns_nearest_seed_witness :
    2 ≤ example_cluster_data.islands.length
      ∧ ∃ fmd1, do_clusters example_cluster_data none unit_m4 = some fmd1
          ∧ fmd1.islands.length = example_cluster_data.islands.length := by
  obtain ⟨fmd1, h1, h2, _⟩ := cluster_count_assigns_nearest_seed example_cluster_data unit_m4 2
    (le_refl 2) (by decide) (by decide)
  exact ⟨by decide, fmd1, h1, h2⟩

/-- C12 fails: the islands of `example_clustered_data` were put into the clusters 0, 1, 1
by a clustering with two clusters; with the requested count set to one, `do_clusters`
returns at once and the islands keep these cluster indices. -/
theorem single_cluster_keeps_old_clusters :
    example_clustered_data.constraint.cluster_count = 1
      ∧ (do_clusters example_clustered_data none unit_m4).map
          (fun f => f.islands.map (fun mi => mi.particle_index)) = some [0, 1, 1] := by
  decide!

/-- C12 (amended): without a cluster group and with a requested cluster count below 2,
`do_clusters` leaves every island as it was, its cluster index included. -/
theorem few_clusters_leave_islands_alone (fmd : ConstraintData) (obmat : Mat4)
    (h : fmd.constraint.cluster_count < 2) :
    do_clusters fmd none obmat = some fmd := by
  simp only [do_clusters, do_cluster_count, if_pos h]

/-- C12 (amended), at a concrete input: one cluster requested for the clustered islands. -/
theorem few_clusters_leave_islands_alone_witness :
    example_clustered_data.constraint.cluster_count < 2
      ∧ do_clusters example_clustered_data none unit_m4 = some example_clustered_data :=
  ⟨by decide!, few_clusters_leave_islands_alone example_clustered_data unit_m4 (by decide!)⟩

/-- C13 fails in its part (a): the islands of `example_group_data` share the cluster 0 (made
by a cluster group), the cluster count is 0 and the cluster threshold 100; the
constraint between the islands 0 and 1 gets the global threshold 10. -/
theorem same_cluster_uses_global_threshold :
    example_group_data.islands.map (fun mi => mi.particle_index) = [0, 0, 0]
      ∧ example_group_data.constraint.cluster_breaking_threshold = 100
      ∧ example_group_data.thresh_defgrp = false
      ∧ (do_constraint example_rigidbody_kernel example_group_data 0 1 0 10).map
          (fun f => f.constraint.meshConstraints.map (fun c => c.breaking_threshold))
        = some [10] := by
  decide!

/-- C13 (amended): without a threshold group, the constraint `do_constraint` creates between
two islands of the constraint set that have the same setting has: (a) for one common
cluster index other than -1, the cluster threshold if the cluster count is above 1 and
the global threshold otherwise, and the type it was created with; (b) for two different
cluster indices other than -1, the cluster constraint type and the global threshold;
(c) if an island has the cluster index -1, the global threshold and the type it was
created with. -/
theorem cluster_threshold_rule (R : RigidBodyKernel) (fmd : ConstraintData) (mi1 mi2 : Nat)
    (con_type : Int) (thresh : ℚ) (a b : MeshIsland)
    (ha : fmd.islands[mi1]? = some a) (hb : fmd.islands[mi2]? = some b)
    (hmap : check_mapping fmd a.setting_id = true ∧ check_mapping fmd b.setting_id = true)
    (hset : a.setting_id = b.setting_id) (hdef : fmd.thresh_defgrp = false) :
    ∃ fmd1 c, do_constraint R fmd mi1 mi2 con_type thresh = some fmd1
      ∧ fmd1.constraint.meshConstraints = fmd.constraint.meshConstraints ++ [c]
      ∧ c.mi1 = mi1 ∧ c.mi2 = mi2
      ∧ (a.particle_index ≠ -1 → b.particle_index ≠ -1 →
          a.particle_index = b.particle_index →
          c.breaking_threshold
              = (if 1 < fmd.constraint.cluster_count then
                  fmd.constraint.cluster_breaking_threshold else thresh)
            ∧ c.type = (R.create_shard_constraint con_type).type)
      ∧ (a.particle_index ≠ -1 → b.particle_index ≠ -1 →
          a.particle_index ≠ b.particle_index →
          c.type = fmd.constraint.cluster_constraint_type ∧ c.breaking_threshold = thresh)
      ∧ (a.particle_index = -1 ∨ b.particle_index = -1 →
          c.breaking_threshold = thresh
            ∧ c.type = (R.create_shard_constraint con_type).type) := by
  obtain ⟨fmd1, h1, h2⟩ := do_constraint_creates R fmd mi1 mi2 con_type thresh a b ha hb hmap
  refine ⟨fmd1, _, h1, h2, ?_, ?_, ?_, ?_, ?_⟩
  · simp only [shard_constraint, hset, hdef]
    split_ifs <;> rfl
  · simp only [shard_constraint, hset, hdef]
    split_ifs <;> rfl
  · intro h1 h2 h3
    have hc1 : a.particle_index ≠ -1 ∧ b.particle_index ≠ -1
        ∧ a.particle_index = b.particle_index := ⟨h1, h2, h3⟩
    simp only [shard_constraint, if_pos hset, if_pos hc1, hdef, Bool.false_eq_true, if_false]
    by_cases hcc : 1 < fmd.constraint.cluster_count
    · simp only [if_pos hcc]
      exact ⟨trivial, trivial⟩
    · simp only [if_neg hcc]
      exact ⟨trivial, trivial⟩
  · intro h1 h2 h3
    have hc1 : ¬ (a.particle_index ≠ -1 ∧ b.particle_index ≠ -1
        ∧ a.particle_index = b.particle_index) := fun h => h3 h.2.2
    have hc2 : a.particle_index ≠ -1 ∧ b.particle_index ≠ -1
        ∧ a.particle_index ≠ b.particle_index := ⟨h1, h2, h3⟩
    simp only [shard_constraint, if_pos hset, if_neg hc1, if_pos hc2, hdef, Bool.false_eq_true,
      if_false]
    exact ⟨trivial, trivial⟩
  · intro h
    have hc1 : ¬ (a.particle_index ≠ -1 ∧ b.particle_index ≠ -1
        ∧ a.particle_index = b.particle_index) := by
      rintro ⟨h1, h2, _⟩
      rcases h with h | h
      · exact h1 h
      · exact h2 h
    have hc2 : ¬ (a.particle_index ≠ -1 ∧ b.particle_index ≠ -1
        ∧ a.particle_index ≠ b.particle_index) := by
      rintro ⟨h1, h2, _⟩
      rcases h with h | h
      · exact h1 h
      · exact h2 h
    simp only [shard_constraint, if_pos hset, if_neg hc1, if_neg hc2, hdef, Bool.false_eq_true,
      if_false]
    exact ⟨trivial, trivial⟩

/-- C13 (amended), at a concrete input: the constraint between the islands 0 and 1 of
`example_group_data`, which share a cluster while the cluster count is 0. -/
theorem cluster_threshold_rule_witness :
    ∃ fmd1 c, do_constraint example_rigidbody_kernel example_group_data 0 1 0 10 = some fmd1
      ∧ fmd1.constraint.meshConstraints = example_group_data.constraint.meshConstraints ++ [c]
      ∧ c.breaking_threshold = 10 := by
  obtain ⟨fmd1, c, h1, h2, _, _, h3, _, _⟩ := cluster_threshold_rule example_rigidbody_kernel
    example_group_data 0 1 0 10 { example_island 0 (0, 0, 0) with particle_index := 0 }
    { example_island 1 (1, 0, 0) with particle_index := 0 } (by decide!) (by decide!)
    (by decide!) (by decide!) (by decide!)
  exact ⟨fmd1, c, h1, h2, (h3 (by decide) (by decide) (by decide)).1.trans (by decide!)⟩

/-- C14 fails: the two islands of `example_weighted_data` share a cluster, two clusters are
requested, the cluster threshold is 100 and the threshold weights are 1/2 and 1; the
constraint made with the global threshold 10 gets the threshold 5, not 50. -/
theorem weight_scales_global_threshold :
    example_weighted_data.thresh_defgrp = true
      ∧ example_weighted_data.constraint.cluster_count = 2
      ∧ example_weighted_data.constraint.cluster_breaking_threshold = 100
      ∧ example_weighted_data.islands.map (fun mi => (mi.particle_index, mi.thresh_weight))
        = [(0, 1 / 2), (0, 1)]
      ∧ (do_constraint example_rigidbody_kernel example_weighted_data 0 1 0 10).map
          (fun f => f.constraint.meshConstraints.map (fun c => c.breaking_threshold))
        = some [5] := by
  decide!

/-- C14 (amended): with a threshold group, every constraint `do_constraint` creates has the
global threshold multiplied by the minimum of the threshold weights of its two islands,
whatever the clusters of the islands. -/
theorem weighted_threshold_rule (R : RigidBodyKernel) (fmd : ConstraintData) (mi1 mi2 : Nat)
    (con_type : Int) (thresh : ℚ) (a b : MeshIsland)
    (ha : fmd.islands[mi1]? = some a) (hb : fmd.islands[mi2]? = some b)
    (hmap : check_mapping fmd a.setting_id = true ∧ check_mapping fmd b.setting_id = true)
    (hdef : fmd.thresh_defgrp = true) :
    ∃ fmd1 c, do_constraint R fmd mi1 mi2 con_type thresh = some fmd1
      ∧ fmd1.constraint.meshConstraints = fmd.constraint.meshConstraints ++ [c]
      ∧ c.mi1 = mi1 ∧ c.mi2 = mi2
      ∧ c.breaking_threshold = thresh * min a.thresh_weight b.thresh_weight := by
  obtain ⟨fmd1, h1, h2⟩ := do_constraint_creates R fmd mi1 mi2 con_type thresh a b ha hb hmap
  refine ⟨fmd1, _, h1, h2, ?_, ?_, ?_⟩
  · simp only [shard_constraint, hdef]
    split_ifs <;> rfl
  · simp only [shard_constraint, hdef]
    split_ifs <;> rfl
  · simp only [shard_constraint, hdef]
    split_ifs <;> rfl

/-- C14 (amended), at a concrete input: the constraint between the two islands of
`example_weighted_data`. -/
theorem weighted_threshold_rule_witness :
    ∃ fmd1 c, do_constraint example_rigidbody_kernel example_weighted_data 0 1 0 10 = some fmd1
      ∧ fmd1.constraint.meshConstraints
        = example_weighted_data.constraint.meshConstraints ++ [c]
      ∧ c.breaking_threshold = 5 := by
  obtain ⟨fmd1, c, h1, h2, _, _, h3⟩ := weighted_threshold_rule example_rigidbody_kernel
    example_weighted_data 0 1 0 10
    { example_island 0 (0, 0, 0) with particle_index := 0, thresh_weight := 1 / 2 }
    { example_island 1 (1, 0, 0) with particle_index := 0, thresh_weight := 1 }
    (by decide!) (by decide!) (by decide!) (by decide!)
  exact ⟨fmd1, c, h1, h2, h3.trans (by decide!)⟩

/-- C15 fails: with a limit of one, the search from the island 0 finds the hits 0, 1, 2 (the
island itself first); the own hit uses up the limit and no constraint is made, although
two other islands are in range. -/
theorem limit_counts_own_hit :
    example_limited_data.constraint.constraint_limit = 1
      ∧ example_rigidbody_kernel.range_search (0, 0, 0)
          example_limited_data.constraint.contact_dist = [0, 1, 2]
      ∧ (search_tree_based example_rigidbody_kernel example_limited_data (some 0) zero_v3).map
          (fun f => f.constraint.meshConstraints.length) = some 0 := by
  decide!

/-- C15 (amended): one search from an island calls `connect_meshislands`, in the order of
the hits, for exactly the other islands among the first `constraint_limit` hits of the
range search when the limit is positive (the hit of the island itself and hits without
an island use up the limit too), and for the other islands among all hits when the limit
is not positive.  Here `c` is the centre of the search and every hit stands for an entry
of the island array. -/
theorem search_connects_first_hits (R : RigidBodyKernel) (fmd : ConstraintData) (mi : Option Nat) (co c : Vec3)
    (hcen : fmd.constraint.constraint_target = .CENTROID →
      ∃ k m, mi = some k ∧ fmd.islands[k]? = some m ∧ c = fmd.origmat m.centroid)
    (hver : fmd.constraint.constraint_target = .VERTEX → c = fmd.origmat co)
    (hv : ∀ index ∈ R.range_search c fmd.constraint.contact_dist,
      (hit_island fmd index).isSome = true) :
    search_tree_based R fmd mi co =
      connect_all R mi
        (other_islands fmd mi
          (if 0 < fmd.constraint.constraint_limit then
            (R.range_search c fmd.constraint.contact_dist).take
              fmd.constraint.constraint_limit.toNat
           else R.range_search c fmd.constraint.contact_dist)) fmd := by
  have key := search_hits_spec R mi (R.range_search c fmd.constraint.contact_dist) 0 fmd hv
  rw [Nat.sub_zero] at key
  unfold search_tree_based
  cases ht : fmd.constraint.constraint_target with
  | CENTROID =>
    obtain ⟨k, m, rfl, hm, rfl⟩ := hcen ht
    simp only [hm, Option.map_some']
    exact key
  | VERTEX =>
    have := hver ht
    subst this
    simp only
    exact key

/-- C15 (amended), at a concrete input: the search from the island 1 of
`example_limited_data`. -/
theorem search_connects_first_hits_witness :
    search_tree_based example_rigidbody_kernel example_limited_data (some 1) zero_v3 =
      connect_all example_rigidbody_kernel (some 1)
        (other_islands example_limited_data (some 1)
          (if 0 < example_limited_data.constraint.constraint_limit then
            (example_rigidbody_kernel.range_search (1, 0, 0)
              example_limited_data.constraint.contact_dist).take
              example_limited_data.constraint.constraint_limit.toNat
           else example_rigidbody_kernel.range_search (1, 0, 0)
              example_limited_data.constraint.contact_dist)) example_limited_data :=
  search_connects_first_hits example_rigidbody_kernel example_limited_data (some 1) zero_v3
    (1, 0, 0) (fun _ => ⟨1, example_island 1 (1, 0, 0), rfl, by decide!, by decide!⟩)
    (fun h => absurd h (by decide)) (by decide!)

/-! ### The rigid body type of an island -/

/-- C17: `do_islands_from_shards` and `create_dm` return; the island built from the shard
at position `p` (a shard with a vertex) is the new island number `islands_before p`, its
vertex count is the `totvert` of the shard, its vertex indices are `S_p, ..., S_p +
totvert - 1` for the sum `S_p = vertstart_at p` of `totvert` over the shards before, and the
combined mesh holds the vertex `k` of the shard at index `S_p + k`.  There are no other new
islands; their index lists, one after the other, make up `0, ..., N - 1` for the vertex
count `N` of the combined mesh (so they are pairwise disjoint), and their vertex counts
add up to `N`, the sum of `totvert` over the shards. -/
theorem island_vertex_ranges (env : IslandSetup) (fm : FracMesh) (st : IslandState) :
    ∃ st1 new dm, do_islands_from_shards env fm st = some st1
      ∧ create_dm fm.shard_map = some dm
      ∧ st1.meshIslands = st.meshIslands ++ new
      ∧ (∀ (p : Nat) (s : Shard), fm.shard_map[p]? = some s → s.totvert ≠ 0 →
          ∃ mi, new[islands_before fm.shard_map p]? = some mi
            ∧ mi.vertex_indices.length = s.totvert
            ∧ mi.vertex_indices
              = (List.range s.totvert).map
                  (fun k => ((vertstart_at fm.shard_map p + k : Nat) : Int))
            ∧ ∀ k, k < s.totvert →
                dm.mvert[vertstart_at fm.shard_map p + k]? = s.mvert[k]?)
      ∧ new.length = islands_before fm.shard_map fm.shard_map.length
      ∧ (new.map (fun mi => mi.vertex_indices)).flatten
          = (List.range dm.mvert.length).map (fun (v : Nat) => (v : Int))
      ∧ (new.map (fun mi => mi.vertex_indices.length)).sum = dm.mvert.length
      ∧ dm.mvert.length = (fm.shard_map.map Shard.totvert).sum := by
  obtain ⟨st1, new, h1, h2, _, h4, h5, h6⟩ := islands_loop_spec env fm.shard_map 0 st
  obtain ⟨dm, hd1, hd2, hd3⟩ := create_dm_spec fm.shard_map
  have hflat : (new.map (fun mi => mi.vertex_indices)).flatten
      = (List.range dm.mvert.length).map (fun (v : Nat) => (v : Int)) := by
    rw [h5, hd3]
    apply List.map_congr_left
    intro k _
    simp
  refine ⟨st1, new, dm, h1, hd1, h2, ?_, ?_, hflat, ?_, hd3⟩
  · intro p s hp hs
    obtain ⟨mi, hm1, _, hm3⟩ := h6 p s hp hs
    refine ⟨mi, hm1, ?_, ?_, ?_⟩
    · rw [hm3]; simp
    · rw [hm3]
      apply List.map_congr_left
      intro k _
      simp
    · intro k hk
      rw [hd2]
      exact flatten_getElem? fm.shard_map p s k hp hk
  · have := congrArg List.length h4
    simp only [List.length_map] at this
    rw [this, islands_before, List.take_length]
  · have := congrArg List.length hflat
    rw [List.length_flatten, List.map_map] at this
    simp only [List.length_map, List.length_range] at this
    exact this

/-- C18: `do_islands_from_shards` returns with the old islands followed by new ones: as
many as there are shards with a vertex, and their ids are, in order, the shard ids of
the shards with a vertex in the order of the shard map. -/
theorem one_island_per_nonempty_shard (env : IslandSetup) (fm : FracMesh) (st : IslandState) :
    ∃ st1 new, do_islands_from_shards env fm st = some st1
      ∧ st1.meshIslands = st.meshIslands ++ new
      ∧ new.length = (fm.shard_map.filter (fun s => s.totvert ≠ 0)).length
      ∧ new.map (fun mi => mi.id)
          = (fm.shard_map.filter (fun s => s.totvert ≠ 0)).map (fun s => s.shard_id) := by
  obtain ⟨st1, new, h1, h2, _, h4, _, _⟩ := islands_loop_spec env fm.shard_map 0 st
  refine ⟨st1, new, h1, h2, ?_, h4⟩
  have := congrArg List.length h4
  simpa using this

/-- C19 fails when the pass has more cells than the pass before: the map holds two shards
at (0,0,0) and (10,0,0); the pass over three cells near the first one starts with every
cell marked skip and no shard marked delete, no cell matches the second shard, and the
second shard stays in the map. -/
theorem more_cells_keep_unmatched_shard :
    example_far_fracmesh.shard_map.map (fun s => s.raw_centroid) = [(0, 0, 0), (10, 0, 0)]
      ∧ ((BKE_shard_by_id example_kernel example_far_fracmesh (-1) (some example_dm)).bind
          (fun p0 =>
            prepare_maps
              (parse_cells_setup example_far_fracmesh p0 (-1) .BOOLEAN .PREFRACTURED false).fm
              example_cells .BOOLEAN)).map (fun m => (m.skipmap, m.deletemap))
        = some ([1, 1, 1], [0, 0])
      ∧ (parse_cells example_kernel example_cells (-1) example_far_fracmesh .BOOLEAN
          (some example_dm) unit_m4 .PREFRACTURED false 0).map
          (fun fm => fm.shard_map.map (fun s => s.raw_centroid))
        = some [(0, 0, 0), (10, 0, 0)] := by
  decide!

/-- C19 (amended): in a diff pass with the search tree over the previous shards, whose
pass expects at most as many shards as the previous one (`expected_shards <=
last_expected_shards`), `do_prepare_cells` unlinks every previous shard that no cell
matches (no cell passes the tests of the skip branch against it): its slot of the map is
empty afterwards. -/
theorem unmatched_shards_are_deleted (fm : FracMesh) (cells : List cell) (algorithm : Algorithm) (p : Shard)
    (centroid : Vec3) (pre : Prepared) (tree : List Vec3)
    (htree : fm.last_shard_tree = some tree)
    (hls : fm.last_shards = some ((List.range fm.shard_map.length).map some))
    (hcount : fm.shard_count = (fm.shard_map.length : Int))
    (hexp : (cells.length : Int) ≤ fm.last_expected_shards)
    (h : do_prepare_cells fm cells algorithm p centroid = some pre) :
    pre.fm.shard_map = pre.slots.reduceOption
      ∧ pre.slots.length = fm.shard_map.length
      ∧ ∀ j, j < fm.shard_map.length → (¬ ∃ c ∈ cells, cell_matches fm tree cells c j) →
          pre.slots[j]? = some none := by
  unfold do_prepare_cells at h
  simp only at h
  cases hm : prepare_maps fm cells algorithm with
  | none => rw [hm] at h; cases h
  | some m =>
    rw [hm] at h
    simp only at h
    cases hd : delete_shards m.deletemap 0 (fm.shard_map.map some) fm.last_shards with
    | none => rw [hd] at h; cases h
    | some r =>
      rw [hd] at h
      obtain ⟨slots, ls⟩ := r
      simp only [Option.some.injEq] at h
      subst h
      simp only
      have hfill : fill_vn_i fm.shard_count 1 = some (List.replicate fm.shard_map.length 1) := by
        unfold fill_vn_i
        rw [hcount, if_neg (by omega)]
        simp
      have hmaps : m.deletemap.length = fm.shard_map.length
          ∧ ∀ j, m.deletemap[j]? = some 0 → ∃ c ∈ cells, cell_matches fm tree cells c j := by
        unfold prepare_maps at hm
        simp only [htree, hexp, if_true, hfill, Option.map_some'] at hm
        split at hm
        · cases hm
        · refine ⟨?_, ?_⟩
          · rw [diff_cells_length fm tree cells cells 0 _ m hm]
            simp
          · intro j hj
            rcases diff_cells_delete fm tree cells cells 0 _ m hm j hj with h1 | h1
            · simp only at h1
              by_cases hjl : j < fm.shard_map.length
              · rw [List.getElem?_replicate, if_pos hjl] at h1
                cases h1
              · rw [List.getElem?_eq_none (by simp; omega)] at h1
                cases h1
            · exact h1
      rw [hls] at hd
      obtain ⟨h0, _, h2⟩ := delete_shards_marked m.deletemap 0 (fm.shard_map.map some) _ (slots, ls)
        (by
          intro x _ hx
          rw [hmaps.1] at hx
          rw [List.getElem?_map, List.getElem?_range (by omega)]
          rfl) hd
      refine ⟨trivial, ?_, ?_⟩
      · rw [h0, List.length_map]
      · intro j hj hno
        have hjl : j < m.deletemap.length := by rw [hmaps.1]; exact hj
        have := h2 j (m.deletemap[j]) (List.getElem?_eq_getElem hjl)
          (by
            intro h0
            apply hno
            apply hmaps.2 j
            rw [List.getElem?_eq_getElem hjl, h0])
        simpa using this

/-- C19 (amended), at a concrete input: the diff pass of `example_fracmesh` against the
moved point cloud unlinks the second shard, which no cell matches. -/
theorem unmatched_shards_are_deleted_witness :
    example_diff_fracmesh.last_shard_tree = some [(0, 0, 0), (1, 0, 0), (2, 0, 0)]
      ∧ example_diff_prepared.slots[1]? = some none := by
  refine ⟨by decide!, ?_⟩
  refine (unmatched_shards_are_deleted example_diff_fracmesh example_cells_moved .BOOLEAN
    (parse_cell (example_cell (0, 0, 0) 1 [1])) zero_v3 example_diff_prepared
    [(0, 0, 0), (1, 0, 0), (2, 0, 0)] (by decide!) (by decide!) (by decide!) (by decide!)
    (eq_some_getD _ _ (by decide!))).2.2 1 (by decide!) ?_
  rintro ⟨c, hc, hn, mx, n_co, ls, pos, t, _, hco, _, _, _, _, hd, _⟩
  simp only [example_cells_moved, List.mem_cons, List.mem_singleton, List.not_mem_nil,
    or_false] at hc
  rcases hc with rfl | rfl | rfl
  · exact absurd hn (by decide!)
  · simp only [List.getElem?_cons_succ, List.getElem?_cons_zero, Option.some.injEq] at hco
    subst hco
    revert hd
    norm_num [example_cell, len_squared_v3v3]
  · exact absurd hn (by decide!)

/-- C20 fails: the first cell has no vertex, so its parsed shard is invalid; the pass with
the boolean algorithm goes on to the second cell, whose shard ends up in the map. -/
theorem pass_goes_on_after_invalid_cell :
    example_invalid_cells.map (fun c => (parse_cell c).invalid) = [true, false]
      ∧ (parse_cells example_kernel example_invalid_cells (-1) BKE_create_fracture_container
          .BOOLEAN (some example_dm) unit_m4 .PREFRACTURED false 0).map
          (fun fm => fm.shard_map.map (fun s => s.raw_centroid))
        = some [(1, 0, 0)] := by
  decide!

/-- C20 (amended): at a cell whose parsed shard is missing or has no vertex, loop or
polygon (and without cancellation), the loop of `handle_fast_bisect` returns at once, with
the results as they are; the loop over `handle_boolean_bisect` of the other algorithms
passes over the cell and goes on with the next one. -/
theorem invalid_cell_stops_fast_bisect_only (K : Kernel) (expected_shards : Nat) (algorithm : Algorithm) (parent_id : Int)
    (dm_parent bm_parent : Option Mesh) (left i : Nat) (fst : FastState) (st : RefineState)
    (hfc : fst.fm.cancel ≠ 1) (hc : st.fm.cancel ≠ 1)
    (hf : stops_refinement fst.tempshards i) (hs : stops_refinement st.tempshards i) :
    handle_fast_bisect_loop K expected_shards algorithm parent_id (left + 1) i fst
        = some { fst with tempshards := tag_tempshard fst.tempshards i parent_id }
      ∧ refine_loop K expected_shards algorithm parent_id dm_parent bm_parent (left + 1) i st
        = refine_loop K expected_shards algorithm parent_id dm_parent bm_parent left (i + 1)
            { st with tempshards := tag_tempshard st.tempshards i parent_id } := by
  constructor
  · rcases hf with h | ⟨t, h, hinv⟩
    · simp only [handle_fast_bisect_loop, if_neg hfc, h, tag_tempshard]
    · have hinv1 : (t.tag parent_id).invalid = true := by rw [tag_invalid]; exact hinv
      simp only [handle_fast_bisect_loop, if_neg hfc, h, tag_tempshard, hinv1, if_true]
  · rcases hs with h | ⟨t, h, hinv⟩
    · simp only [refine_loop, handle_boolean_bisect, if_neg hc, h, tag_tempshard, if_true]
    · have hinv1 : (t.tag parent_id).invalid = true := by rw [tag_invalid]; exact hinv
      simp only [refine_loop, handle_boolean_bisect, if_neg hc, h, tag_tempshard, hinv1, if_true]

/-- C20 (amended), at a concrete input: both loops at a missing first cell. -/
theorem invalid_cell_stops_fast_bisect_only_witness :
    stops_refinement example_stopped_fast_state.tempshards 0
      ∧ handle_fast_bisect_loop example_kernel 2 .BISECT_FAST (-1) (1 + 1) 0
          example_stopped_fast_state
        = some { example_stopped_fast_state with
                 tempshards := tag_tempshard example_stopped_fast_state.tempshards 0 (-1) }
      ∧ refine_loop example_kernel 2 .BISECT_FAST (-1) none none (1 + 1) 0
          example_stopped_refine_state
        = refine_loop example_kernel 2 .BISECT_FAST (-1) none none 1 (0 + 1)
            { example_stopped_refine_state with
              tempshards := tag_tempshard example_stopped_refine_state.tempshards 0 (-1) } :=
  ⟨Or.inl rfl, invalid_cell_stops_fast_bisect_only example_kernel 2 .BISECT_FAST (-1) none none
    1 0 example_stopped_fast_state example_stopped_refine_state (by decide) (by decide)
    (Or.inl rfl) (Or.inl rfl)⟩

/-! ## Properties of the shard lookup, the diff pass, the refinement and the combined mesh -/

/-! ### The lookup of a shard -/

theorem find_shard_pos_some (id : Int) :
    ∀ (l : List Shard) (k : Nat), find_shard_pos id l = some k →
      (∃ s, l[k]? = some s ∧ s.shard_id = id)
        ∧ ∀ (j : Nat) (t : Shard), j < k → l[j]? = some t → t.shard_id ≠ id := by
  intro l
  induction l with
  | nil => intro k h; simp [find_shard_pos] at h
  | cons s rest ih =>
    intro k h
    simp only [find_shard_pos] at h
    split at h
    · rename_i hs
      cases h
      exact ⟨⟨s, List.getElem?_cons_zero, hs⟩, fun j t hj => absurd hj (Nat.not_lt_zero j)⟩
    · rename_i hs
      cases hr : find_shard_pos id rest with
      | none => rw [hr] at h; cases h
      | some k1 =>
        rw [hr] at h
        simp only [Option.map_some', Option.some.injEq] at h
        subst h
        obtain ⟨hfound, hfirst⟩ := ih k1 hr
        refine ⟨by simpa using hfound, ?_⟩
        intro j t hj hjt
        cases j with
        | zero =>
          simp only [List.getElem?_cons_zero, Option.some.injEq] at hjt
          subst hjt
          exact hs
        | succ j =>
          simp only [List.getElem?_cons_succ] at hjt
          exact hfirst j t (by omega) hjt

theorem find_shard_pos_none (id : Int) :
    ∀ (l : List Shard), find_shard_pos id l = none ↔ ∀ s ∈ l, s.shard_id ≠ id := by
  intro l
  induction l with
  | nil => simp [find_shard_pos]
  | cons s rest ih =>
    simp only [find_shard_pos, List.mem_cons, forall_eq_or_imp]
    by_cases hs : s.shard_id = id
    · simp [hs]
    · simp [hs, ih]

/-- C21: `BKE_shard_by_id` reads the map and returns a reference or nothing.  For
`id >= 0` the result is the shard at the first position of the map whose `shard_id` is
`id` (no shard before it has that id), and it is absent exactly when no shard of the
map has that id.  For `id = -1` with a mesh the result is a shard made of the arrays
of the mesh, with `shard_id = -2` and the flag `SHARD_INTACT`, that is not linked in
the map (it has no position).  For `id = -1` without a mesh and for every `id < -1`
the result is absent.  The function has no other output: the map it was given is
the map afterwards. -/
theorem shard_by_id_contract (K : Kernel) (mesh : FracMesh) (id : Int) (dm : Option Mesh) :
    (0 ≤ id →
      (∀ r, BKE_shard_by_id K mesh id dm = some r ↔
        ∃ k, r.pos = some k ∧ mesh.shard_map[k]? = some r.shard ∧ r.shard.shard_id = id
          ∧ ∀ (j : Nat) (t : Shard), j < k → mesh.shard_map[j]? = some t → t.shard_id ≠ id)
      ∧ (BKE_shard_by_id K mesh id dm = none ↔ ∀ s ∈ mesh.shard_map, s.shard_id ≠ id))
    ∧ (id = -1 →
      ∀ d, dm = some d →
        ∃ r, BKE_shard_by_id K mesh id dm = some r ∧ r.pos = none
          ∧ r.shard.shard_id = -2 ∧ r.shard.flag = SHARD_INTACT
          ∧ r.shard.mvert = d.mvert ∧ r.shard.mpoly = d.mpoly ∧ r.shard.mloop = d.mloop)
    ∧ (id < -1 ∨ (id = -1 ∧ dm = none) → BKE_shard_by_id K mesh id dm = none) := by
  refine ⟨?_, ?_, ?_⟩
  · intro hid
    unfold BKE_shard_by_id
    rw [if_pos hid]
    cases hf : find_shard_pos id mesh.shard_map with
    | none =>
      have hnone := (find_shard_pos_none id mesh.shard_map).mp hf
      refine ⟨?_, ?_⟩
      · intro r
        constructor
        · intro h; cases h
        · rintro ⟨k, _, hk, hrid, _⟩
          exact absurd hrid (hnone _ (List.mem_iff_getElem?.mpr ⟨k, hk⟩))
      · exact ⟨fun _ => hnone, fun _ => rfl⟩
    | some k =>
      obtain ⟨⟨s, hs, hsid⟩, hfirst⟩ := find_shard_pos_some id mesh.shard_map k hf
      simp only [hs]
      refine ⟨?_, ?_⟩
      · intro r
        constructor
        · intro h
          simp only [Option.some.injEq] at h
          subst h
          exact ⟨k, rfl, hs, hsid, hfirst⟩
        · rintro ⟨k1, hpos, hk1, hrid, hfirst1⟩
          have hkk : k1 = k := by
            rcases Nat.lt_trichotomy k1 k with hlt | heq | hgt
            · exact absurd hrid (hfirst k1 _ hlt hk1)
            · exact heq
            · exact absurd hsid (hfirst1 k s hgt hs)
          subst hkk
          rw [hs] at hk1
          simp only [Option.some.injEq] at hk1
          cases r
          simp only at hpos hk1
          subst hpos hk1
          rfl
      · constructor
        · intro h; cases h
        · intro h
          exact absurd hsid (h s (List.mem_iff_getElem?.mpr ⟨k, hs⟩))
  · intro hid d hd
    subst hid hd
    exact ⟨_, rfl, rfl, rfl, rfl, rfl, rfl, rfl⟩
  · intro h
    unfold BKE_shard_by_id
    rcases h with h | ⟨h1, h2⟩
    · rw [if_neg (by omega), if_neg (by omega)]
    · subst h1 h2
      rfl

/-! ### The skip map of the diff pass -/

theorem diff_cell_cases (fm : FracMesh) (tree : List Vec3) (cells : List cell) (i : Nat)
    (c : cell) (m m1 : DiffMaps) (h : diff_cell fm tree cells i c m = some m1) :
    (m1 = m ∧ ¬ ∃ j, cell_matches fm tree cells c j)
      ∨ (∃ j sk de, cell_matches fm tree cells c j ∧ array_set m.skipmap i 1 = some sk
          ∧ array_set m.deletemap j 0 = some de ∧ m1 = ⟨sk, de⟩)
      ∨ (∃ j sk de, BLI_kdtree_find_nearest tree c.centroid = some j
          ∧ (¬ ∃ j1, cell_matches fm tree cells c j1)
          ∧ array_set m.skipmap i 0 = some sk ∧ array_set m.deletemap j 1 = some de
          ∧ m1 = ⟨sk, de⟩) := by
  unfold diff_cell at h
  cases hmax : max_neighbor_dist cells c c.neighbors 0 with
  | none => rw [hmax] at h; cases h
  | some max =>
    rw [hmax] at h
    simp only at h
    cases hn : BLI_kdtree_find_nearest tree c.centroid with
    | none =>
      rw [hn] at h; cases h
      refine Or.inl ⟨rfl, ?_⟩
      rintro ⟨j, hn1, _⟩
      rw [hn] at hn1; cases hn1
    | some j0 =>
      rw [hn] at h
      simp only at h
      cases hls : fm.last_shards with
      | none => rw [hls] at h; cases h
      | some last_shards =>
        cases hco : tree[j0]? with
        | none => rw [hls, hco] at h; cases h
        | some n_co =>
          rw [hls, hco] at h
          simp only at h
          cases hpos : last_shards[j0]? with
          | none => rw [hpos] at h; cases h
          | some opos =>
            cases opos with
            | none =>
              rw [hpos] at h; cases h
              refine Or.inl ⟨rfl, ?_⟩
              rintro ⟨j, hn1, mx, nco, ls, pos, t, _, _, h3, h4, _⟩
              rw [hn] at hn1; cases hn1
              rw [hls] at h3; cases h3
              rw [hpos] at h4; cases h4
            | some pos =>
              rw [hpos] at h
              simp only at h
              by_cases hd : len_squared_v3v3 n_co c.centroid < max
              · rw [if_pos hd] at h
                by_cases hd2 : len_squared_v3v3 n_co c.centroid < 1 / 100000
                · rw [if_pos hd2] at h
                  cases ht : fm.shard_map[pos]? with
                  | none => rw [ht] at h; cases h
                  | some t =>
                    rw [ht] at h
                    simp only at h
                    by_cases hvol : |c.volume - t.raw_volume| < 1 / 100000
                    · rw [if_pos hvol] at h
                      cases hsk : array_set m.skipmap i 1 with
                      | none => rw [hsk] at h; cases h
                      | some sk =>
                        cases hde : array_set m.deletemap j0 0 with
                        | none => rw [hsk, hde] at h; cases h
                        | some de =>
                          rw [hsk, hde] at h
                          cases h
                          exact Or.inr (Or.inl ⟨j0, sk, de,
                            ⟨hn, max, n_co, last_shards, pos, t, hmax, hco, hls, hpos, ht, hd,
                              hd2, hvol⟩, rfl, hde, rfl⟩)
                    · rw [if_neg hvol] at h
                      cases hde : array_set m.deletemap j0 1 with
                      | none => rw [hde] at h; cases h
                      | some de =>
                        cases hsk : array_set m.skipmap i 0 with
                        | none => rw [hde, hsk] at h; cases h
                        | some sk =>
                          rw [hde, hsk] at h
                          cases h
                          refine Or.inr (Or.inr ⟨j0, sk, de, rfl, ?_, rfl, hde, rfl⟩)
                          rintro ⟨j, hn1, mx, nco, ls, pos1, t1, _, _, h3, h4, h5, _, _, h8⟩
                          rw [hn] at hn1; cases hn1
                          rw [hls] at h3; cases h3
                          rw [hpos] at h4; cases h4
                          rw [ht] at h5; cases h5
                          exact hvol h8
                · rw [if_neg hd2] at h
                  cases hsk : array_set m.skipmap i 0 with
                  | none => rw [hsk] at h; cases h
                  | some sk =>
                    cases hde : array_set m.deletemap j0 1 with
                    | none => rw [hsk, hde] at h; cases h
                    | some de =>
                      rw [hsk, hde] at h
                      cases h
                      refine Or.inr (Or.inr ⟨j0, sk, de, rfl, ?_, rfl, hde, rfl⟩)
                      rintro ⟨j, hn1, mx, nco, ls, pos1, t1, _, h2, _, _, _, _, h7, _⟩
                      rw [hn] at hn1; cases hn1
                      rw [hco] at h2; cases h2
                      exact hd2 h7
              · rw [if_neg hd] at h
                cases h
                refine Or.inl ⟨rfl, ?_⟩
                rintro ⟨j, hn1, mx, nco, ls, pos1, t1, h1, h2, _, _, _, h6, _, _⟩
                rw [hn] at hn1; cases hn1
                rw [hmax] at h1; cases h1
                rw [hco] at h2; cases h2
                exact hd h6

theorem diff_cell_skipmap (fm : FracMesh) (tree : List Vec3) (cells : List cell) (i : Nat)
    (c : cell) (m m1 : DiffMaps) (h : diff_cell fm tree cells i c m = some m1) :
    m1.skipmap.length = m.skipmap.length
      ∧ (∀ k, k ≠ i → m1.skipmap[k]? = m.skipmap[k]?)
      ∧ ((∃ j, cell_matches fm tree cells c j) → m1.skipmap[i]? = some 1)
      ∧ ((¬ ∃ j, cell_matches fm tree cells c j) →
          m1.skipmap[i]? = m.skipmap[i]? ∨ m1.skipmap[i]? = some 0) := by
  rcases diff_cell_cases fm tree cells i c m m1 h with ⟨rfl, hno⟩ | ⟨j, sk, de, hm, hsk, _, rfl⟩
    | ⟨j, sk, de, _, hno, hsk, _, rfl⟩
  · exact ⟨rfl, fun _ _ => rfl, fun hy => absurd hy hno, fun _ => Or.inl rfl⟩
  · refine ⟨(array_set_getElem? _ _ _ _ 0 hsk).1, ?_, ?_, ?_⟩
    · intro k hk
      rw [(array_set_getElem? _ _ _ _ k hsk).2, if_neg hk]
    · intro _
      rw [(array_set_getElem? _ _ _ _ i hsk).2, if_pos rfl]
    · intro hno
      exact absurd ⟨j, hm⟩ hno
  · refine ⟨(array_set_getElem? _ _ _ _ 0 hsk).1, ?_, ?_, ?_⟩
    · intro k hk
      rw [(array_set_getElem? _ _ _ _ k hsk).2, if_neg hk]
    · intro hy
      exact absurd hy hno
    · intro _
      right
      rw [(array_set_getElem? _ _ _ _ i hsk).2, if_pos rfl]

theorem diff_cells_skipmap (fm : FracMesh) (tree : List Vec3) (cells : List cell) :
    ∀ (rest : List cell) (i : Nat) (m m1 : DiffMaps),
      diff_cells fm tree cells rest i m = some m1 →
      m1.skipmap.length = m.skipmap.length
        ∧ (∀ k, k < i → m1.skipmap[k]? = m.skipmap[k]?)
        ∧ ∀ (x : Nat) (c : cell), rest[x]? = some c →
            ((∃ j, cell_matches fm tree cells c j) → m1.skipmap[i + x]? = some 1)
            ∧ ((¬ ∃ j, cell_matches fm tree cells c j) →
                m1.skipmap[i + x]? = m.skipmap[i + x]? ∨ m1.skipmap[i + x]? = some 0) := by
  intro rest
  induction rest with
  | nil =>
    intro i m m1 h
    simp only [diff_cells] at h
    cases h
    exact ⟨rfl, fun _ _ => rfl, by intro x c hx; simp at hx⟩
  | cons c0 rest ih =>
    intro i m m1 h
    simp only [diff_cells] at h
    cases hc : diff_cell fm tree cells i c0 m with
    | none => rw [hc] at h; cases h
    | some m2 =>
      rw [hc] at h
      simp only at h
      obtain ⟨hl2, hne2, hy2, hn2⟩ := diff_cell_skipmap fm tree cells i c0 m m2 hc
      obtain ⟨hl1, hlt1, hrest⟩ := ih (i + 1) m2 m1 h
      refine ⟨hl1.trans hl2, ?_, ?_⟩
      · intro k hk
        rw [hlt1 k (by omega), hne2 k (by omega)]
      · intro x c hx
        cases x with
        | zero =>
          simp only [List.getElem?_cons_zero, Option.some.injEq] at hx
          subst hx
          rw [Nat.add_zero, hlt1 i (by omega)]
          exact ⟨hy2, hn2⟩
        | succ x =>
          simp only [List.getElem?_cons_succ] at hx
          obtain ⟨hy, hn⟩ := hrest x c hx
          rw [show i + (x + 1) = i + 1 + x by omega]
          refine ⟨hy, ?_⟩
          intro hno
          rw [← hne2 (i + 1 + x) (by omega)]
          exact hn hno

theorem diff_cell_keep (fm : FracMesh) (tree : List Vec3) (cells : List cell) (i : Nat)
    (c : cell) (m m1 : DiffMaps) (h : diff_cell fm tree cells i c m = some m1) (j : Nat) :
    (cell_matches fm tree cells c j → m1.deletemap[j]? = some 0)
      ∧ (BLI_kdtree_find_nearest tree c.centroid ≠ some j →
          m1.deletemap[j]? = m.deletemap[j]?) := by
  rcases diff_cell_cases fm tree cells i c m m1 h with ⟨rfl, hno⟩ | ⟨j0, sk, de, hm, _, hde, rfl⟩
    | ⟨j0, sk, de, hn0, hno, _, hde, rfl⟩
  · exact ⟨fun hy => absurd ⟨j, hy⟩ hno, fun _ => rfl⟩
  · constructor
    · intro hy
      have hjj : j = j0 := by
        have h1 := hy.1
        rw [hm.1] at h1
        cases h1
        rfl
      rw [(array_set_getElem? _ _ _ _ j hde).2, if_pos hjj]
    · intro hne
      have hjj : j ≠ j0 := by
        intro hjj
        apply hne
        rw [hjj]
        exact hm.1
      rw [(array_set_getElem? _ _ _ _ j hde).2, if_neg hjj]
  · constructor
    · intro hy
      exact absurd ⟨j, hy⟩ hno
    · intro hne
      have hjj : j ≠ j0 := by
        intro hjj
        apply hne
        rw [hjj]
        exact hn0
      rw [(array_set_getElem? _ _ _ _ j hde).2, if_neg hjj]

theorem diff_cells_keep (fm : FracMesh) (tree : List Vec3) (cells : List cell) (j : Nat) :
    ∀ (rest : List cell) (i : Nat) (m m1 : DiffMaps),
      diff_cells fm tree cells rest i m = some m1 →
      (∀ c ∈ rest, BLI_kdtree_find_nearest tree c.centroid = some j →
        cell_matches fm tree cells c j) →
      (m.deletemap[j]? = some 0 ∨ ∃ c ∈ rest, cell_matches fm tree cells c j) →
      m1.deletemap[j]? = some 0 := by
  intro rest
  induction rest with
  | nil =>
    intro i m m1 h _ hor
    simp only [diff_cells] at h
    cases h
    rcases hor with h0 | ⟨c, hc, _⟩
    · exact h0
    · cases hc
  | cons c0 rest ih =>
    intro i m m1 h hall hor
    simp only [diff_cells] at h
    cases hc : diff_cell fm tree cells i c0 m with
    | none => rw [hc] at h; cases h
    | some m2 =>
      rw [hc] at h
      simp only at h
      obtain ⟨hy, hn⟩ := diff_cell_keep fm tree cells i c0 m m2 hc j
      have hall1 : ∀ c ∈ rest, BLI_kdtree_find_nearest tree c.centroid = some j →
          cell_matches fm tree cells c j := fun c hc1 => hall c (List.mem_cons_of_mem _ hc1)
      by_cases hnear : BLI_kdtree_find_nearest tree c0.centroid = some j
      · exact ih (i + 1) m2 m1 h hall1 (Or.inl (hy (hall c0 (List.mem_cons_self _ _) hnear)))
      · refine ih (i + 1) m2 m1 h hall1 ?_
        rcases hor with h0 | ⟨c, hc1, hcm⟩
        · left
          rw [hn hnear]
          exact h0
        · rcases List.mem_cons.mp hc1 with rfl | hc2
          · exact absurd hcm.1 hnear
          · exact Or.inr ⟨c, hc2, hcm⟩

theorem delete_shards_unmarked :
    ∀ (d : List Int) (i : Nat) (slots : List (Option Shard)) (arr : List (Option Nat))
      (r : List (Option Shard) × Option (List (Option Nat))),
      (∀ x, i ≤ x → x < i + d.length → arr[x]? = some (some x)) →
      delete_shards d i slots (some arr) = some r →
      (∀ (y : Nat), y < i → r.1[y]? = slots[y]?)
        ∧ (∀ (x : Nat), d[x]? = some 0 → r.1[i + x]? = slots[i + x]?) := by
  intro d
  induction d with
  | nil =>
    intro i slots arr r _ h
    simp only [delete_shards] at h
    cases h
    exact ⟨fun _ _ => rfl, fun _ _ => rfl⟩
  | cons v0 rest ih =>
    intro i slots arr r harr h
    simp only [delete_shards] at h
    by_cases hv : v0 ≠ 0
    · rw [if_pos hv] at h
      have hi := harr i (le_refl _) (by simp)
      simp only [hi] at h
      cases hs : slots[i]? with
      | none => simp only [hs] at h; cases h
      | some o =>
        cases o with
        | none => simp only [hs] at h; cases h
        | some sh =>
          simp only [hs] at h
          obtain ⟨h1, h2⟩ := ih (i + 1) (slots.set i none) (arr.set i none) r
            (by
              intro x hx1 hx2
              rw [List.getElem?_set_ne (by omega)]
              exact harr x (by omega) (by simp only [List.length_cons]; omega)) h
          refine ⟨?_, ?_⟩
          · intro y hy
            rw [h1 y (by omega), List.getElem?_set_ne (by omega)]
          · intro x hx
            cases x with
            | zero =>
              simp only [List.getElem?_cons_zero, Option.some.injEq] at hx
              exact absurd hx hv
            | succ x =>
              simp only [List.getElem?_cons_succ] at hx
              rw [show i + (x + 1) = i + 1 + x by omega, h2 x hx,
                List.getElem?_set_ne (by omega)]
    · rw [if_neg hv] at h
      obtain ⟨h1, h2⟩ := ih (i + 1) slots arr r
        (by
          intro x hx1 hx2
          exact harr x (by omega) (by simp only [List.length_cons]; omega)) h
      refine ⟨fun y hy => h1 y (by omega), ?_⟩
      intro x hx
      cases x with
      | zero => exact h1 i (by omega)
      | succ x =>
        simp only [List.getElem?_cons_succ] at hx
        rw [show i + (x + 1) = i + 1 + x by omega]
        exact h2 x hx

theorem prepare_tempshards_getElem? :
    ∀ (cells : List cell) (skipmap : List Int) (i : Nat) (c : cell) (sk : Int),
      cells[i]? = some c → skipmap[i]? = some sk →
      (prepare_tempshards cells skipmap)[i]?
        = some (if sk ≠ 0 then none else some (parse_cell c)) := by
  intro cells
  induction cells with
  | nil => intro skipmap i c sk h; simp at h
  | cons c0 cells ih =>
    intro skipmap i c sk hc hs
    cases skipmap with
    | nil => simp at hs
    | cons s0 skipmap =>
      cases i with
      | zero =>
        simp only [List.getElem?_cons_zero, Option.some.injEq] at hc hs
        subst hc hs
        simp only [prepare_tempshards, List.getElem?_cons_zero]
      | succ i =>
        simp only [List.getElem?_cons_succ] at hc hs
        simp only [prepare_tempshards, List.getElem?_cons_succ]
        exact ih skipmap i c sk hc hs

/-- C22 (the code diverges): the map holds three shards at (0,0,0), (100,0,0) and
(200,0,0); in the pass over three cells at (0,0,0), (1,0,0) and (5,0,0) the first cell
matches the first shard and is marked skip (no shard is parsed for it), the second cell has
the same nearest shard within its neighbour distance and marks it delete again: the shard
the skipped cell was to reuse is deleted, and the pass ends with two shards for three
cells. -/
theorem skipped_cell_loses_its_shard :
    example_spread_fracmesh.shard_map.map (fun s => s.raw_centroid)
        = [(0, 0, 0), (100, 0, 0), (200, 0, 0)]
      ∧ ((BKE_shard_by_id example_kernel example_spread_fracmesh (-1) (some example_dm)).bind
          (fun p0 =>
            prepare_maps
              (parse_cells_setup example_spread_fracmesh p0 (-1) .BOOLEAN .PREFRACTURED
                false).fm
              example_near_cells .BOOLEAN)).map (fun m => (m.skipmap, m.deletemap))
        = some ([1, 0, 0], [1, 1, 1])
      ∧ (parse_cells example_kernel example_near_cells (-1) example_spread_fracmesh .BOOLEAN
          (some example_dm) unit_m4 .PREFRACTURED false 0).map
          (fun fm => fm.shard_map.map (fun s => s.raw_centroid))
        = some [(1, 0, 0), (5, 0, 0)] := by
  decide!

/-- The skip marks of a diff pass with the search tree over the previous shards that
expects at most as many shards as the pass before and is not cancelled: the skip map holds
1 or 0 for every cell, and 1 exactly for the cells that pass the tests of the skip branch
against their nearest previous shard.  A cell marked skip leaves a null entry in
`tempshards`, every other cell is parsed into a new shard.  The shard a cell matches stays
in the map when every cell that has it as its nearest previous shard matches it. -/
theorem diff_pass_skip_marks (fm : FracMesh) (cells : List cell) (algorithm : Algorithm)
    (p : Shard) (centroid : Vec3) (pre : Prepared) (tree : List Vec3)
    (htree : fm.last_shard_tree = some tree)
    (hls : fm.last_shards = some ((List.range fm.shard_map.length).map some))
    (hcount : fm.shard_count = (fm.shard_map.length : Int))
    (hexp : (cells.length : Int) ≤ fm.last_expected_shards)
    (hcancel : fm.cancel ≠ 1)
    (h : do_prepare_cells fm cells algorithm p centroid = some pre) :
    ∃ m, prepare_maps fm cells algorithm = some m ∧
      ∀ (i : Nat) (c : cell), cells[i]? = some c →
        (m.skipmap[i]? = some 1 ∨ m.skipmap[i]? = some 0)
        ∧ (m.skipmap[i]? = some 1 ↔ ∃ j, cell_matches fm tree cells c j)
        ∧ (m.skipmap[i]? = some 1 → pre.tempshards[i]? = some none)
        ∧ (m.skipmap[i]? = some 0 → pre.tempshards[i]? = some (some (parse_cell c)))
        ∧ ∀ j, cell_matches fm tree cells c j →
            (∀ c1 ∈ cells, BLI_kdtree_find_nearest tree c1.centroid = some j →
              cell_matches fm tree cells c1 j) →
            ∃ t, fm.shard_map[j]? = some t ∧ pre.slots[j]? = some (some t) := by
  unfold do_prepare_cells at h
  simp only at h
  cases hm : prepare_maps fm cells algorithm with
  | none => rw [hm] at h; cases h
  | some m =>
    rw [hm] at h
    simp only at h
    cases hd : delete_shards m.deletemap 0 (fm.shard_map.map some) fm.last_shards with
    | none => rw [hd] at h; cases h
    | some r =>
      rw [hd] at h
      obtain ⟨slots, ls⟩ := r
      simp only [Option.some.injEq] at h
      subst h
      simp only [if_neg hcancel]
      have hfill : fill_vn_i fm.shard_count 1 = some (List.replicate fm.shard_map.length 1) := by
        unfold fill_vn_i
        rw [hcount, if_neg (by omega)]
        simp
      have hdiff : diff_cells fm tree cells cells 0
          ⟨List.replicate cells.length 0, List.replicate fm.shard_map.length 1⟩ = some m := by
        unfold prepare_maps at hm
        simp only [htree, hexp, if_true, hfill, Option.map_some'] at hm
        split at hm
        · cases hm
        · exact hm
      obtain ⟨hlen, _, hskip⟩ := diff_cells_skipmap fm tree cells cells 0 _ m hdiff
      simp only [List.length_replicate, Nat.zero_add] at hlen hskip
      refine ⟨m, rfl, ?_⟩
      intro i c hc
      have hil : i < cells.length := by
        by_contra hge
        rw [List.getElem?_eq_none (by omega)] at hc
        cases hc
      obtain ⟨hy, hn⟩ := hskip i c hc
      rw [List.getElem?_replicate, if_pos hil] at hn
      have hval : (∃ j, cell_matches fm tree cells c j) ∧ m.skipmap[i]? = some 1
          ∨ (¬ ∃ j, cell_matches fm tree cells c j) ∧ m.skipmap[i]? = some 0 := by
        by_cases hex : ∃ j, cell_matches fm tree cells c j
        · exact Or.inl ⟨hex, hy hex⟩
        · exact Or.inr ⟨hex, by rcases hn hex with h0 | h0 <;> exact h0⟩
      refine ⟨?_, ?_, ?_, ?_, ?_⟩
      · rcases hval with ⟨_, h1⟩ | ⟨_, h0⟩
        · exact Or.inl h1
        · exact Or.inr h0
      · constructor
        · intro h1
          rcases hval with ⟨hex, _⟩ | ⟨_, h0⟩
          · exact hex
          · rw [h0] at h1; cases h1
        · intro hex
          rcases hval with ⟨_, h1⟩ | ⟨hno, _⟩
          · exact h1
          · exact absurd hex hno
      · intro h1
        rw [prepare_tempshards_getElem? cells m.skipmap i c 1 hc h1]
        simp
      · intro h0
        rw [prepare_tempshards_getElem? cells m.skipmap i c 0 hc h0]
        simp
      · intro j hmatch hall
        have hkeep : m.deletemap[j]? = some 0 :=
          diff_cells_keep fm tree cells j cells 0 _ m hdiff hall
            (Or.inr ⟨c, List.mem_iff_getElem?.mpr ⟨i, hc⟩, hmatch⟩)
        have hdl : m.deletemap.length = fm.shard_map.length := by
          rw [diff_cells_length fm tree cells cells 0 _ m hdiff]
          simp
        rw [hls] at hd
        obtain ⟨_, h2⟩ := delete_shards_unmarked m.deletemap 0 (fm.shard_map.map some) _
          (slots, ls)
          (by
            intro x _ hx
            rw [Nat.zero_add, hdl] at hx
            rw [List.getElem?_map, List.getElem?_range hx]
            rfl) hd
        have hslot := h2 j hkeep
        simp only [Nat.zero_add] at hslot
        have hjl : j < fm.shard_map.length := by
          by_contra hge
          rw [List.getElem?_eq_none (by omega)] at hkeep
          cases hkeep
        refine ⟨fm.shard_map[j], List.getElem?_eq_getElem hjl, ?_⟩
        rw [hslot, List.getElem?_map, List.getElem?_eq_getElem hjl]
        rfl

/-! ### The fragment the fast bisect splits next -/

theorem first_some_head :
    ∀ (l : List (Option Shard)) (sj : Shard),
      l[(l.takeWhile (fun x => x.isNone)).length]? = some (some sj) →
      ∃ tl, l.reduceOption = sj :: tl := by
  intro l
  induction l with
  | nil => intro sj h; simp at h
  | cons x l ih =>
    intro sj h
    cases x with
    | some a =>
      simp only [List.takeWhile, Option.isNone_some, List.length_nil, List.getElem?_cons_zero,
        Option.some.injEq] at h
      subst h
      exact ⟨l.reduceOption, List.reduceOption_cons_of_some _ _⟩
    | none =>
      simp only [List.takeWhile, Option.isNone_none, List.length_cons,
        List.getElem?_cons_succ] at h
      obtain ⟨tl, htl⟩ := ih sj h
      exact ⟨tl, by rw [List.reduceOption_cons_of_none]; exact htl⟩

theorem fast_bisect_step (K : Kernel) (n : Nat) (algorithm : Algorithm) (parent_id : Int)
    (left i : Nat) (st : FastState) (t0 s s2 : Shard)
    (hcancel : st.fm.cancel ≠ 1)
    (ht : st.tempshards[i]? = some (some t0))
    (hvalid : (t0.tag parent_id).invalid = false)
    (hs : K.shard_bisect st.bm_parent (t0.tag parent_id)
      (decide (algorithm = .BISECT_FAST_FILL)) false true
      (fast_bisect_index K st.rng (t0.tag parent_id)) st.centroid = some s)
    (hs2 : K.shard_bisect st.bm_parent (t0.tag parent_id)
      (decide (algorithm = .BISECT_FAST_FILL)) true false
      (fast_bisect_index K st.rng (t0.tag parent_id)) st.centroid = some s2)
    (hlen : i + 1 < st.tempresults.length)
    (hmore : i + 2 < n)
    (hperm : ∀ l, (K.qsort_r l).Perm l) :
    ∃ sj j r3, j < i + 1
      ∧ r3 = qsort_first K (i + 1)
          ((st.tempresults.set i (some (s.tag parent_id))).set (i + 1)
            (some (s2.tag parent_id)))
      ∧ j = skip_invalid (i + 1) r3
      ∧ r3[j]? = some (some sj)
      ∧ handle_fast_bisect_loop K n algorithm parent_id (left + 2) i st
        = handle_fast_bisect_loop K n algorithm parent_id left (i + 2)
            { fm := { st.fm with progress_counter := st.fm.progress_counter + 1 },
              tempshards := st.tempshards.set i (some (t0.tag parent_id)),
              tempresults := r3.set j none,
              bm_parent := some (BKE_shard_create_dm sj),
              centroid := sj.centroid, rng := st.rng + 1 } := by
  have h1 : array_set st.tempresults i (some (s.tag parent_id))
      = some (st.tempresults.set i (some (s.tag parent_id))) := by
    simp only [array_set]; rw [if_pos]; omega
  have h2 : array_set (st.tempresults.set i (some (s.tag parent_id))) (i + 1)
        (some (s2.tag parent_id))
      = some ((st.tempresults.set i (some (s.tag parent_id))).set (i + 1)
          (some (s2.tag parent_id))) := by
    simp only [array_set]; rw [if_pos]; rw [List.length_set]; omega
  have hr2i : ((st.tempresults.set i (some (s.tag parent_id))).set (i + 1)
      (some (s2.tag parent_id)))[i]? = some (some (s.tag parent_id)) := by
    rw [List.getElem?_set_ne (by omega), List.getElem?_set_self (by omega)]
  obtain ⟨sj, hsj, hj⟩ := skip_invalid_spec K hperm i _ (s.tag parent_id)
    (by simp only [List.length_set]; omega) hr2i
  refine ⟨sj, _, _, hj, rfl, rfl, hsj, ?_⟩
  simp only [fast_bisect_index] at hs hs2
  simp only [handle_fast_bisect_loop, if_neg hcancel, ht, hvalid, Bool.false_eq_true, if_false,
    hs, hs2, h1, h2, if_pos hmore, hsj]

theorem fractal_retry_spec (K : Kernel) (dm_p : Option Mesh) (t : Shard) :
    ∀ (left rng a : Nat),
      (fractal_retry K dm_p t left rng a).attempts ≤ a + left + 1
        ∧ (a + 1 ≤ (fractal_retry K dm_p t left rng a).attempts)
        ∧ ((fractal_retry K dm_p t left rng a).s = none
            ∨ (fractal_retry K dm_p t left rng a).s2 = none →
          (fractal_retry K dm_p t left rng a).gave_up = true
            ∧ (fractal_retry K dm_p t left rng a).attempts = a + left + 1)
        ∧ ((fractal_retry K dm_p t left rng a).s ≠ none
            ∧ (fractal_retry K dm_p t left rng a).s2 ≠ none →
          (fractal_retry K dm_p t left rng a).gave_up = false) := by
  intro left
  induction left with
  | zero =>
    intro rng a
    simp only [fractal_retry]
    refine ⟨by omega, by omega, ?_, ?_⟩
    · intro h
      refine ⟨?_, by dsimp only⟩
      rcases h with h | h <;> simp [h]
    · intro h
      cases h1 : (K.shard_boolean_fractal dm_p t rng).1 with
      | none => exact absurd h1 h.1
      | some x =>
        cases h2 : (K.shard_boolean_fractal dm_p t rng).2 with
        | none => exact absurd h2 h.2
        | some y => simp
  | succ left ih =>
    intro rng a
    simp only [fractal_retry]
    by_cases hf : ((K.shard_boolean_fractal dm_p t rng).1.isNone
        || (K.shard_boolean_fractal dm_p t rng).2.isNone) = true
    · rw [if_pos hf]
      obtain ⟨h1, h2, h3, h4⟩ := ih (rng + 6) (a + 1)
      refine ⟨by omega, by omega, ?_, h4⟩
      intro h
      obtain ⟨h5, h6⟩ := h3 h
      exact ⟨h5, by omega⟩
    · rw [if_neg hf]
      simp only [Bool.or_eq_true, Option.isNone_iff_eq_none, not_or] at hf
      refine ⟨by dsimp only; omega, by dsimp only; omega, ?_, fun _ => rfl⟩
      intro h
      rcases h with h | h
      · exact absurd h hf.1
      · exact absurd h hf.2

/-- C24 fails: with a cut that fails twenty times and succeeds at the next call,
`handle_boolean_fractal` calls the cut twenty one times and stores the two fragments of
the twenty first call. -/
theorem fractal_cut_is_called_21_times :
    (fractal_retry example_late_kernel none (parse_cell (example_cell (0, 0, 0) 1 [1]))
        max_retries 0 0).attempts = 21
      ∧ (handle_boolean_fractal example_late_kernel (parse_cell (example_cell (0, 0, 0) 1 [1]))
          2 none (-1) 0 [none, none] none 0).map
          (fun r => (r.1, r.2.1.map (fun x => x.isSome)))
        = some (1, [true, true]) := by
  decide!

/-- C24 (amended): for one pair `handle_boolean_fractal` calls the boolean cut at least
once and at most 21 times (the first call and up to `max_retries = 20` retries).  If the
loop ends without two fragments, the cut was called 21 times, the function returns with the
index advanced by one and `tempresults` as it was.  If the loop ends with two fragments
and the entries `i` and `i + 1` exist, the function returns with the index advanced by one,
the first fragment is stored in entry `i + 1`, and the second one (stored in entry `i`
before the sort of the entries `0 .. i`, which only rearranges them) is in `tempresults`
or was taken at once as the parent of the next cut. -/
theorem fractal_retry_is_bounded (K : Kernel) (t : Shard) (expected_shards : Nat)
    (dm_parent : Option Mesh) (parent_id : Int) (i : Nat) (tempresults : List (Option Shard))
    (dm_p : Option Mesh) (rng : Nat) (cut : FractalCut)
    (hcut : cut = fractal_retry K (if i = 0 then dm_parent else dm_p) t max_retries rng 0) :
    1 ≤ cut.attempts ∧ cut.attempts ≤ 21
      ∧ (cut.s = none ∨ cut.s2 = none →
          cut.attempts = 21
            ∧ handle_boolean_fractal K t expected_shards dm_parent parent_id i tempresults dm_p rng
              = some (i + 1, tempresults, (if i = 0 then dm_parent else dm_p), cut.rng))
      ∧ (∀ s s2, cut.s = some s → cut.s2 = some s2 → i + 1 < tempresults.length →
          (∀ l, (K.qsort_r l).Perm l) →
          ∃ r dm1, handle_boolean_fractal K t expected_shards dm_parent parent_id i tempresults
                dm_p rng = some (i + 1, r, dm1, cut.rng)
            ∧ r[i + 1]? = some (some (s.tag parent_id))
            ∧ (some (s2.tag parent_id) ∈ r
              ∨ dm1 = some (BKE_shard_create_dm (s2.tag parent_id)))) := by
  obtain ⟨h1, h2, h3, h4⟩ := fractal_retry_spec K (if i = 0 then dm_parent else dm_p) t
    max_retries rng 0
  rw [← hcut] at h1 h2 h3 h4
  have hmax : max_retries = 20 := rfl
  refine ⟨by omega, by omega, ?_, ?_⟩
  · intro hfail
    obtain ⟨hg, ha⟩ := h3 hfail
    refine ⟨by omega, ?_⟩
    unfold handle_boolean_fractal
    simp only [← hcut, hg, if_true]
    rcases hfail with hf | hf
    · simp only [hf]
    · cases hs : cut.s with
      | none => simp only [hf]
      | some s => simp only [hf]
  · intro s s2 hs hs2 hlen hperm
    have hg : cut.gave_up = false := h4 ⟨by rw [hs]; simp, by rw [hs2]; simp⟩
    have hset1 : array_set tempresults (i + 1) (some (s.tag parent_id))
        = some (tempresults.set (i + 1) (some (s.tag parent_id))) := by
      simp only [array_set]; rw [if_pos hlen]
    have hset2 : array_set (tempresults.set (i + 1) (some (s.tag parent_id))) i
          (some (s2.tag parent_id))
        = some ((tempresults.set (i + 1) (some (s.tag parent_id))).set i
            (some (s2.tag parent_id))) := by
      simp only [array_set]; rw [if_pos]; rw [List.length_set]; omega
    have hr2i : ((tempresults.set (i + 1) (some (s.tag parent_id))).set i
        (some (s2.tag parent_id)))[i]? = some (some (s2.tag parent_id)) := by
      rw [List.getElem?_set_self (by simp only [List.length_set]; omega)]
    have hr2s : ((tempresults.set (i + 1) (some (s.tag parent_id))).set i
        (some (s2.tag parent_id)))[i + 1]? = some (some (s.tag parent_id)) := by
      rw [List.getElem?_set_ne (by omega), List.getElem?_set_self hlen]
    have hr3s : (qsort_first K (i + 1) ((tempresults.set (i + 1) (some (s.tag parent_id))).set i
        (some (s2.tag parent_id))))[i + 1]? = some (some (s.tag parent_id)) := by
      rw [qsort_first_tail K hperm _ _ (by simp only [List.length_set]; omega) _ (le_refl _)]
      exact hr2s
    have hmem3 : some (s2.tag parent_id) ∈ qsort_first K (i + 1)
        ((tempresults.set (i + 1) (some (s.tag parent_id))).set i (some (s2.tag parent_id))) := by
      unfold qsort_first
      rw [List.mem_append]
      left
      rw [(hperm _).mem_iff]
      exact List.mem_iff_getElem?.mpr ⟨i, by rw [List.getElem?_take_of_lt (by omega)]; exact hr2i⟩
    obtain ⟨sj, hsj, hj⟩ := skip_invalid_spec K hperm i _ (s2.tag parent_id)
      (by simp only [List.length_set]; omega) hr2i
    unfold handle_boolean_fractal
    simp only [← hcut, hg, Bool.false_eq_true, if_false, hs, hs2, hset1, hset2]
    by_cases hmore : i + 2 < expected_shards
    · simp only [if_pos hmore, hsj]
      refine ⟨_, _, rfl, ?_, ?_⟩
      · rw [List.getElem?_set_ne (by omega)]
        exact hr3s
      · obtain ⟨k, hk⟩ := List.mem_iff_getElem?.mp hmem3
        by_cases hkj : k = skip_invalid (i + 1) (qsort_first K (i + 1)
            ((tempresults.set (i + 1) (some (s.tag parent_id))).set i (some (s2.tag parent_id))))
        · right
          rw [hkj, hsj] at hk
          simp only [Option.some.injEq] at hk
          rw [hk]
        · left
          exact List.mem_iff_getElem?.mpr ⟨k, by rw [List.getElem?_set_ne (Ne.symm hkj)]; exact hk⟩
    · simp only [if_neg hmore]
      exact ⟨_, _, rfl, hr3s, Or.inl hmem3⟩

/-- C24 (amended), at a concrete input: the cut that succeeds at the twenty first call. -/
theorem fractal_retry_is_bounded_witness :
    1 ≤ (fractal_retry example_late_kernel none (parse_cell (example_cell (0, 0, 0) 1 [1]))
          max_retries 0 0).attempts
      ∧ (fractal_retry example_late_kernel none (parse_cell (example_cell (0, 0, 0) 1 [1]))
          max_retries 0 0).attempts ≤ 21 :=
  ⟨(fractal_retry_is_bounded example_late_kernel (parse_cell (example_cell (0, 0, 0) 1 [1])) 2
      none (-1) 0 [none, none] none 0 _ rfl).1,
    (fractal_retry_is_bounded example_late_kernel (parse_cell (example_cell (0, 0, 0) 1 [1])) 2
      none (-1) 0 [none, none] none 0 _ rfl).2.1⟩

/-! ### The walks of the sequence lookup -/

theorem lookup_backward_stops (frame : Int) :
    ∀ (k : Nat) (fmd : FractureModifierData) (changed : Bool), at_position fmd k →
      ∃ r k1, lookup_backward frame k fmd changed = some r ∧ same_chains fmd r.2
        ∧ at_position r.2 k1 ∧ backward_stop fmd.meshIsland_sequence frame k k1
        ∧ (r.1 = true ↔ changed = true ∨ k1 ≠ k) ∧ (k1 = k → r.2 = fmd) := by
  intro k
  induction k with
  | zero =>
    intro fmd changed h
    refine ⟨(changed, fmd), 0, rfl, ⟨rfl, rfl, rfl⟩, h, ⟨le_refl _, ?_, Or.inl rfl⟩, ?_,
      fun _ => rfl⟩
    · intro j e _ hj; omega
    · simp
  | succ k ih =>
    intro fmd changed h
    have hk : k < fmd.meshIsland_sequence.length := by have := h.2.2.1; omega
    simp only [lookup_backward, List.getElem?_eq_getElem hk]
    split
    · rename_i hle
      obtain ⟨f1, e1, p1, c1, _⟩ := get_prev_spec fmd k h
      simp only [e1]
      obtain ⟨r, k1, e2, c2, p2, ⟨hk1, hsteps, hstop⟩, hflag, _⟩ := ih f1 true p1
      rw [c1.1] at hsteps hstop
      refine ⟨r, k1, e2, ?_, p2, ⟨by omega, ?_, hstop⟩, ?_, ?_⟩
      · exact ⟨c2.1.trans c1.1, c2.2.1.trans c1.2.1, c2.2.2.trans c1.2.2⟩
      · intro j e hj1 hj2 hje
        by_cases hjk : j = k
        · subst hjk
          rw [List.getElem?_eq_getElem hk] at hje
          cases hje
          exact hle
        · exact hsteps j e hj1 (by omega) hje
      · constructor
        · intro _; right; omega
        · intro _
          exact hflag.mpr (Or.inl rfl)
      · intro hkk; omega
    · rename_i hnle
      refine ⟨(changed, fmd), k + 1, rfl, ⟨rfl, rfl, rfl⟩, h, ⟨le_refl _, ?_, Or.inr ?_⟩, ?_,
        fun _ => rfl⟩
      · intro j e hj1 hj2; omega
      · exact ⟨_, by rw [Nat.add_sub_cancel, List.getElem?_eq_getElem hk], by omega⟩
      · simp

theorem lookup_forward_stops (frame : Int) :
    ∀ (left k : Nat) (fmd : FractureModifierData) (changed : Bool), at_position fmd k →
      k + left + 1 = fmd.meshIsland_sequence.length →
      ∃ r k1, lookup_forward frame left k fmd changed = some r ∧ same_chains fmd r.2
        ∧ at_position r.2 k1 ∧ forward_stop fmd.meshIsland_sequence frame k k1
        ∧ (r.1 = true ↔ changed = true ∨ k1 ≠ k) ∧ (k1 = k → r.2 = fmd) := by
  intro left
  induction left with
  | zero =>
    intro k fmd changed h hl
    refine ⟨(changed, fmd), k, rfl, ⟨rfl, rfl, rfl⟩, h, ⟨le_refl _, ?_, Or.inl ?_⟩, ?_,
      fun _ => rfl⟩
    · intro j c nx hj1 hj2; omega
    · exact List.getElem?_eq_none (by omega)
    · simp
  | succ left ih =>
    intro k fmd changed h hl
    have hk : k < fmd.meshIsland_sequence.length := by omega
    have hk1 : k + 1 < fmd.meshIsland_sequence.length := by omega
    simp only [lookup_forward, List.getElem?_eq_getElem hk, List.getElem?_eq_getElem hk1]
    split
    · rename_i hcond
      obtain ⟨f1, e1, p1, c1, _⟩ := (get_next_spec fmd k h).1 hk1
      simp only [e1]
      obtain ⟨r, k1, e2, c2, p2, ⟨hk1', hsteps, hstop⟩, hflag, _⟩ :=
        ih (k + 1) f1 true p1 (by rw [c1.1]; omega)
      rw [c1.1] at hsteps hstop
      refine ⟨r, k1, e2, ?_, p2, ⟨by omega, ?_, hstop⟩, ?_, ?_⟩
      · exact ⟨c2.1.trans c1.1, c2.2.1.trans c1.2.1, c2.2.2.trans c1.2.2⟩
      · intro j c nx hj1 hj2 hjc hjn
        by_cases hjk : j = k
        · subst hjk
          rw [List.getElem?_eq_getElem hk] at hjc
          rw [List.getElem?_eq_getElem hk1] at hjn
          cases hjc
          cases hjn
          exact hcond
        · exact hsteps j c nx (by omega) hj2 hjc hjn
      · constructor
        · intro _; right; omega
        · intro _
          exact hflag.mpr (Or.inl rfl)
      · intro hkk; omega
    · rename_i hcond
      refine ⟨(changed, fmd), k, rfl, ⟨rfl, rfl, rfl⟩, h, ⟨le_refl _, ?_, Or.inr ?_⟩, ?_,
        fun _ => rfl⟩
      · intro j c nx hj1 hj2; omega
      · by_cases hnew : (fmd.meshIsland_sequence[k + 1]).is_new = true
        · exact Or.inl ⟨_, List.getElem?_eq_getElem hk1, hnew⟩
        · right
          refine ⟨_, List.getElem?_eq_getElem hk, ?_⟩
          simp only [Bool.not_eq_true] at hnew
          simp only [hnew, true_and, not_lt] at hcond
          exact hcond
      · simp

/-- C25: `BKE_lookup_mesh_state` with `do_lookup` enabled, called with the two current
entries at position `k` of chains of equal length, returns; the chains are unchanged and
the current entries are at a position `k1`.  If `last_frame > frame`, then `k1 <= k`, every
entry stepped onto has `frame <= entry.frame`, and at `k1` there is no previous entry or
`frame > prev.frame`.  If `last_frame < frame`, then `k <= k1`, every step left an entry
with `frame > entry.frame` for a next entry that is not new, and at `k1` there is no next
entry, or the next entry is new, or `frame <= current.frame`.  If `last_frame = frame`
nothing moves.  The function returns true exactly when the position changed. -/
theorem lookup_mesh_state_transitions (fmd : FractureModifierData) (frame : Int) (k : Nat)
    (h : at_position fmd k) :
    ∃ changed f1 k1, BKE_lookup_mesh_state fmd frame true = some (changed, f1)
      ∧ at_position f1 k1 ∧ same_chains fmd f1
      ∧ (frame < fmd.last_frame → backward_stop fmd.meshIsland_sequence frame k k1)
      ∧ (fmd.last_frame < frame → forward_stop fmd.meshIsland_sequence frame k k1)
      ∧ (fmd.last_frame = frame → k1 = k ∧ f1 = fmd)
      ∧ (changed = true ↔ k1 ≠ k) := by
  have hk : k < fmd.meshIsland_sequence.length := h.2.2.1
  simp only [BKE_lookup_mesh_state, h.1, List.getElem?_eq_getElem hk, if_true]
  by_cases hb : (decide (frame < fmd.last_frame) && decide (0 < k)) = true
  · rw [if_pos hb]
    simp only [Bool.and_eq_true, decide_eq_true_eq] at hb
    obtain ⟨r, k1, e, c, p, hstop, hflag, _⟩ := lookup_backward_stops frame k fmd false h
    refine ⟨r.1, r.2, k1, e, p, c, fun _ => hstop, ?_, ?_, ?_⟩
    · intro hlt; omega
    · intro heq; omega
    · rw [hflag]; simp
  · rw [if_neg hb]
    simp only [Bool.and_eq_true, decide_eq_true_eq, not_and] at hb
    split
    · rename_i hf
      simp only [Bool.and_eq_true, decide_eq_true_eq] at hf
      have hk1 : k + 1 < fmd.meshIsland_sequence.length := by
        by_contra hge
        rw [List.getElem?_eq_none (by omega)] at hf
        exact absurd hf.2 (by simp)
      obtain ⟨r, k1, e, c, p, hstop, hflag, _⟩ := lookup_forward_stops frame
        (fmd.meshIsland_sequence.length - 1 - k) k fmd false h (by omega)
      refine ⟨r.1, r.2, k1, e, p, c, ?_, fun _ => hstop, ?_, ?_⟩
      · intro hlt; omega
      · intro heq; omega
      · rw [hflag]; simp
    · rename_i hf
      simp only [Bool.and_eq_true, decide_eq_true_eq, not_and] at hf
      refine ⟨false, fmd, k, rfl, h, ⟨rfl, rfl, rfl⟩, ?_, ?_, fun _ => ⟨rfl, rfl⟩, by simp⟩
      · intro hlt
        have hk0 : k = 0 := by
          have := hb hlt
          omega
        subst hk0
        exact ⟨le_refl _, fun j e hj1 hj2 => by omega, Or.inl rfl⟩
      · intro hlt
        have hno := hf hlt
        refine ⟨le_refl _, fun j c nx hj1 hj2 => by omega, ?_⟩
        cases hn : fmd.meshIsland_sequence[k + 1]? with
        | none => exact Or.inl rfl
        | some nx =>
          rw [hn] at hno
          simp only [Bool.not_eq_true, Bool.not_eq_false'] at hno
          exact Or.inr (Or.inl ⟨nx, rfl, hno⟩)

/-- C25, at a concrete input: the lookup of frame 15 from the frame-10 entry of three
entries, with 12 as the last frame. -/
theorem lookup_mesh_state_transitions_witness :
    at_position (example_sequences 1 12) 1
      ∧ ∃ changed f1 k1, BKE_lookup_mesh_state (example_sequences 1 12) 15 true
            = some (changed, f1)
          ∧ at_position f1 k1 ∧ same_chains (example_sequences 1 12) f1
          ∧ (15 < (example_sequences 1 12).last_frame →
              backward_stop (example_sequences 1 12).meshIsland_sequence 15 1 k1)
          ∧ ((example_sequences 1 12).last_frame < 15 →
              forward_stop (example_sequences 1 12).meshIsland_sequence 15 1 k1)
          ∧ ((example_sequences 1 12).last_frame = 15 → k1 = 1 ∧ f1 = example_sequences 1 12)
          ∧ (changed = true ↔ k1 ≠ 1) :=
  ⟨⟨rfl, rfl, by decide, by decide⟩,
    lookup_mesh_state_transitions (example_sequences 1 12) 15 1 ⟨rfl, rfl, by decide, by decide⟩⟩

/-! ### The polygons and loops of a parsed cell -/

theorem parse_cell_polys_from_length :
    ∀ (l : List Int) (tot : Int), (parse_cell_polys_from tot l).length = l.length := by
  intro l
  induction l with
  | nil => intro tot; rfl
  | cons n l ih => intro tot; simp only [parse_cell_polys_from, List.length_cons, ih]

theorem parse_cell_polys_from_getElem? :
    ∀ (l : List Int) (tot : Int) (i : Nat) (n : Int), l[i]? = some n →
      (parse_cell_polys_from tot l)[i]? = some ⟨tot + (l.take i).sum, n⟩ := by
  intro l
  induction l with
  | nil => intro tot i n h; simp at h
  | cons n0 l ih =>
    intro tot i n h
    cases i with
    | zero =>
      simp only [List.getElem?_cons_zero, Option.some.injEq] at h
      subst h
      simp [parse_cell_polys_from]
    | succ i =>
      simp only [List.getElem?_cons_succ] at h
      simp only [parse_cell_polys_from, List.getElem?_cons_succ, List.take_succ_cons,
        List.sum_cons]
      rw [ih (tot + n0) i n h, add_assoc]

theorem sum_length_cast (l : List cell_face) :
    (l.map (fun f => (f.indices.length : Int))).sum
      = (((l.map (fun f => f.indices.length)).sum : Nat) : Int) := by
  induction l with
  | nil => rfl
  | cons f l ih => simp only [List.map_cons, List.sum_cons, ih, Nat.cast_add]

theorem parse_cell_loops_face_spec (ls n : Nat) :
    ∀ (idx : List Int) (k : Nat) (ml : List MLoop), k + idx.length = n →
      ls + n ≤ ml.length →
      (parse_cell_loops_face (ls : Int) (n : Int) idx k ml).length = ml.length
        ∧ (∀ (m : Nat) (v : Int), idx[m]? = some v →
            (parse_cell_loops_face (ls : Int) (n : Int) idx k ml)[ls + (n - 1 - (k + m))]?
              = some ⟨v⟩)
        ∧ (∀ (p : Nat), p < ls ∨ ls + (n - k) ≤ p →
            (parse_cell_loops_face (ls : Int) (n : Int) idx k ml)[p]? = ml[p]?) := by
  intro idx
  induction idx with
  | nil =>
    intro k ml _ _
    exact ⟨rfl, by intro m v h; simp at h, fun _ _ => rfl⟩
  | cons v0 rest ih =>
    intro k ml hk hl
    simp only [List.length_cons] at hk
    have hpos : ((ls : Int) + ((n : Int) - 1) - (k : Int)).toNat = ls + (n - 1 - k) := by
      omega
    simp only [parse_cell_loops_face, hpos]
    obtain ⟨h1, h2, h3⟩ := ih (k + 1) (ml.set (ls + (n - 1 - k)) ⟨v0⟩) (by omega)
      (by rw [List.length_set]; exact hl)
    refine ⟨by rw [h1, List.length_set], ?_, ?_⟩
    · intro m v hm
      cases m with
      | zero =>
        simp only [List.getElem?_cons_zero, Option.some.injEq] at hm
        subst hm
        simp only [Nat.add_zero]
        rw [h3 _ (Or.inr (by omega)), List.getElem?_set_self (by omega)]
      | succ m =>
        simp only [List.getElem?_cons_succ] at hm
        have := h2 m v hm
        rw [show k + (m + 1) = k + 1 + m by omega]
        exact this
    · intro p hp
      rw [h3 p (by omega), List.getElem?_set_ne (by omega)]

theorem parse_cell_loops_from_spec :
    ∀ (faces : List cell_face) (tot : Nat) (ml : List MLoop),
      tot + (faces.map (fun f => f.indices.length)).sum ≤ ml.length →
      (parse_cell_loops_from
          (parse_cell_polys_from (tot : Int) (faces.map (fun f => (f.indices.length : Int))))
          faces ml).length = ml.length
        ∧ (∀ (i : Nat) (f : cell_face) (k : Nat) (v : Int), faces[i]? = some f →
            f.indices[k]? = some v →
            (parse_cell_loops_from
              (parse_cell_polys_from (tot : Int) (faces.map (fun f => (f.indices.length : Int))))
              faces ml)[tot + ((faces.take i).map (fun f => f.indices.length)).sum
                + (f.indices.length - 1 - k)]? = some ⟨v⟩)
        ∧ (∀ (p : Nat), p < tot →
            (parse_cell_loops_from
              (parse_cell_polys_from (tot : Int) (faces.map (fun f => (f.indices.length : Int))))
              faces ml)[p]? = ml[p]?) := by
  intro faces
  induction faces with
  | nil =>
    intro tot ml _
    exact ⟨rfl, by intro i f k v h; simp at h, fun _ _ => rfl⟩
  | cons f0 rest ih =>
    intro tot ml hl
    simp only [List.map_cons, List.sum_cons] at hl
    simp only [List.map_cons, parse_cell_polys_from, parse_cell_loops_from]
    obtain ⟨a1, a2, a3⟩ := parse_cell_loops_face_spec tot f0.indices.length f0.indices 0 ml
      (by omega) (by omega)
    have hcast : (tot : Int) + (f0.indices.length : Int) = ((tot + f0.indices.length : Nat) : Int) := by
      push_cast; rfl
    rw [hcast]
    obtain ⟨b1, b2, b3⟩ := ih (tot + f0.indices.length)
      (parse_cell_loops_face (tot : Int) (f0.indices.length : Int) f0.indices 0 ml)
      (by rw [a1]; omega)
    refine ⟨by rw [b1, a1], ?_, ?_⟩
    · intro i f k v hf hv
      have hkl : k < f.indices.length := by
        by_contra hge
        rw [List.getElem?_eq_none (by omega)] at hv
        cases hv
      cases i with
      | zero =>
        simp only [List.getElem?_cons_zero, Option.some.injEq] at hf
        subst hf
        simp only [List.take_zero, List.map_nil, List.sum_nil, Nat.add_zero]
        rw [b3 _ (by omega)]
        have := a2 k v hv
        rw [Nat.zero_add] at this
        exact this
      | succ i =>
        simp only [List.getElem?_cons_succ] at hf
        have := b2 i f k v hf hv
        simp only [List.take_succ_cons, List.map_cons, List.sum_cons]
        rw [show tot + (f0.indices.length + ((rest.take i).map (fun f => f.indices.length)).sum)
            = tot + f0.indices.length + ((rest.take i).map (fun f => f.indices.length)).sum
            by omega]
        exact this
    · intro p hp
      rw [b3 p (by omega), a3 p (Or.inl hp)]

/-- C26: the shard `parse_cell` makes of a cell with `n` faces has `n` polygons; polygon
`i` has `totloop = c_i`, the number of vertices of face `i`, and `loopstart = c_0 + ... +
c_{i-1}`; the shard has `c_0 + ... + c_{n-1}` loops, and the loop `loopstart + (c_i - 1) -
k` of polygon `i` holds `poly_indices[i][k]`, so the loops of a polygon list the vertex
indices of its face in reversed order; the shard has `shard_id = -1`, `n` neighbour ids
(those of the cell), the centroid of the cell as `centroid` and `raw_centroid`, and the
volume of the cell as `raw_volume`. -/
theorem parse_cell_layout (c : cell) :
    (parse_cell c).totpoly = c.totpoly
      ∧ (∀ (i : Nat) (f : cell_face), c.faces[i]? = some f →
          (parse_cell c).mpoly[i]? = some ⟨(loops_before c i : Int), (f.indices.length : Int)⟩)
      ∧ (parse_cell c).totloop = loops_before c c.totpoly
      ∧ (∀ (i : Nat) (f : cell_face) (k : Nat) (v : Int), c.faces[i]? = some f →
          f.indices[k]? = some v →
          (parse_cell c).mloop[loops_before c i + (f.indices.length - 1 - k)]? = some ⟨v⟩)
      ∧ (parse_cell c).shard_id = -1
      ∧ (parse_cell c).neighbor_count = c.totpoly
      ∧ (parse_cell c).neighbor_ids = c.neighbors
      ∧ (parse_cell c).centroid = c.centroid
      ∧ (parse_cell c).raw_centroid = c.centroid
      ∧ (parse_cell c).raw_volume = c.volume := by
  have hsum : c.poly_totvert.sum.toNat = (c.faces.map (fun f => f.indices.length)).sum := by
    unfold cell.poly_totvert
    rw [sum_length_cast]
    exact Int.toNat_ofNat _
  obtain ⟨l1, l2, _⟩ := parse_cell_loops_from_spec c.faces 0
    (List.replicate c.poly_totvert.sum.toNat ⟨0⟩)
    (by rw [List.length_replicate, hsum]; omega)
  simp only [Nat.cast_zero, Nat.zero_add] at l1 l2
  refine ⟨?_, ?_, ?_, ?_, rfl, ?_, rfl, rfl, rfl, rfl⟩
  · simp only [Shard.totpoly, parse_cell, parse_cell_polys, parse_cell_polys_from_length,
      cell.poly_totvert, List.length_map, cell.totpoly]
  · intro i f hf
    simp only [parse_cell, parse_cell_polys]
    rw [parse_cell_polys_from_getElem? c.poly_totvert 0 i (f.indices.length : Int)
      (by unfold cell.poly_totvert; rw [List.getElem?_map, hf]; rfl)]
    unfold cell.poly_totvert loops_before
    rw [← List.map_take, sum_length_cast, zero_add]
  · simp only [Shard.totloop, parse_cell, parse_cell_polys, parse_cell_loops]
    unfold loops_before cell.totpoly
    rw [List.take_length]
    have := l1
    unfold cell.poly_totvert at this ⊢
    rw [this, List.length_replicate]
    exact hsum
  · intro i f k v hf hv
    simp only [parse_cell, parse_cell_polys, parse_cell_loops]
    unfold loops_before
    have := l2 i f k v hf hv
    unfold cell.poly_totvert at this ⊢
    exact this
  · simp only [Shard.neighbor_count, parse_cell, cell.neighbors, List.length_map, cell.totpoly]

/-! ### The polygons and loops of the combined mesh -/

theorem leading_sum_le :
    ∀ (sizes : List Nat) (p : Nat) (n : Nat), sizes[p]? = some n →
      (sizes.take p).sum + n ≤ sizes.sum := by
  intro sizes
  induction sizes with
  | nil => intro p n h; simp at h
  | cons a l ih =>
    intro p n h
    cases p with
    | zero =>
      simp only [List.getElem?_cons_zero, Option.some.injEq] at h
      subst h
      simp
    | succ p =>
      simp only [List.getElem?_cons_succ] at h
      have := ih p n h
      simp only [List.take_succ_cons, List.sum_cons]
      omega

theorem leading_sum_decompose :
    ∀ (sizes : List Nat) (q : Nat), q < sizes.sum →
      ∃ p n i, sizes[p]? = some n ∧ i < n ∧ q = (sizes.take p).sum + i := by
  intro sizes
  induction sizes with
  | nil => intro q h; simp at h
  | cons a l ih =>
    intro q h
    simp only [List.sum_cons] at h
    by_cases hq : q < a
    · exact ⟨0, a, q, List.getElem?_cons_zero, hq, by simp⟩
    · obtain ⟨p, n, i, hp, hi, he⟩ := ih (q - a) (by omega)
      refine ⟨p + 1, n, i, by simpa using hp, hi, ?_⟩
      simp only [List.take_succ_cons, List.sum_cons]
      omega

theorem memcpy_at_getElem? {α : Type} (dst : List α) (start : Nat) (src : List α)
    (h : start + src.length ≤ dst.length) :
    ∃ r, memcpy_at dst start src = some r ∧ r.length = dst.length
      ∧ (∀ i, i < src.length → r[start + i]? = src[i]?)
      ∧ (∀ q, q < start → r[q]? = dst[q]?) := by
  obtain ⟨r, hr, hl, ht, _⟩ := memcpy_at_spec dst start src h
  refine ⟨r, hr, hl, ?_, ?_⟩
  · intro i hi
    have h1 : r[start + i]? = (r.take (start + src.length))[start + i]? := by
      rw [List.getElem?_take_of_lt (by omega)]
    rw [h1, ht, List.getElem?_append_right (by rw [List.length_take]; omega)]
    congr 1
    rw [List.length_take]
    omega
  · intro q hq
    have h1 : r[q]? = (r.take (start + src.length))[q]? := by
      rw [List.getElem?_take_of_lt (by omega)]
    rw [h1, ht, List.getElem?_append_left (by rw [List.length_take]; omega),
      List.getElem?_take_of_lt hq]

theorem polystart_at_zero (shards : List Shard) : polystart_at shards 0 = 0 := rfl

theorem polystart_at_succ (s : Shard) (rest : List Shard) (p : Nat) :
    polystart_at (s :: rest) (p + 1) = s.totpoly + polystart_at rest p := by
  simp [polystart_at]

theorem loopstart_at_zero (shards : List Shard) : loopstart_at shards 0 = 0 := rfl

theorem loopstart_at_succ (s : Shard) (rest : List Shard) (p : Nat) :
    loopstart_at (s :: rest) (p + 1) = s.totloop + loopstart_at rest p := by
  simp [loopstart_at]

theorem do_create_loop_layout :
    ∀ (shards : List Shard) (vs ps ls : Nat) (m : Mesh),
      vs + (shards.map Shard.totvert).sum ≤ m.mvert.length →
      ps + (shards.map Shard.totpoly).sum ≤ m.mpoly.length →
      ls + (shards.map Shard.totloop).sum ≤ m.mloop.length →
      ∃ r, do_create_loop shards vs ps ls m = some r
        ∧ r.mpoly.length = m.mpoly.length ∧ r.mloop.length = m.mloop.length
        ∧ (∀ (p : Nat) (s : Shard) (i : Nat) (mp : MPoly), shards[p]? = some s →
            s.mpoly[i]? = some mp →
            r.mpoly[ps + polystart_at shards p + i]?
              = some ⟨mp.loopstart + ((ls + loopstart_at shards p : Nat) : Int), mp.totloop⟩)
        ∧ (∀ (p : Nat) (s : Shard) (j : Nat) (ml : MLoop), shards[p]? = some s →
            s.mloop[j]? = some ml →
            r.mloop[ls + loopstart_at shards p + j]?
              = some ⟨ml.v + ((vs + vertstart_at shards p : Nat) : Int)⟩)
        ∧ (∀ q, q < ps → r.mpoly[q]? = m.mpoly[q]?)
        ∧ (∀ q, q < ls → r.mloop[q]? = m.mloop[q]?) := by
  intro shards
  induction shards with
  | nil =>
    intro vs ps ls m _ _ _
    refine ⟨m, rfl, rfl, rfl, ?_, ?_, fun _ _ => rfl, fun _ _ => rfl⟩
    · intro p s i mp h; simp at h
    · intro p s j ml h; simp at h
  | cons s rest ih =>
    intro vs ps ls m hv hp hl
    simp only [List.map_cons, List.sum_cons] at hv hp hl
    obtain ⟨v1, hv1, hv1l, _, _⟩ := memcpy_at_spec m.mvert vs s.mvert
      (by unfold Shard.totvert at hv; omega)
    obtain ⟨p1, hp1, hp1l, hp1i, hp1q⟩ := memcpy_at_getElem? m.mpoly ps
      (s.mpoly.map (fun mp => { mp with loopstart := mp.loopstart + (ls : Int) }))
      (by rw [List.length_map]; unfold Shard.totpoly at hp; omega)
    obtain ⟨l1, hl1, hl1l, hl1i, hl1q⟩ := memcpy_at_getElem? m.mloop ls
      (s.mloop.map (fun ml => { ml with v := ml.v + (vs : Int) }))
      (by rw [List.length_map]; unfold Shard.totloop at hl; omega)
    obtain ⟨r, hr, hrp, hrl, hpoly, hloop, hqp, hql⟩ := ih (vs + s.totvert) (ps + s.totpoly)
      (ls + s.totloop) ⟨v1, p1, l1⟩ (by simp only; omega) (by simp only; omega)
      (by simp only; omega)
    simp only at hrp hrl hqp hql
    refine ⟨r, ?_, by rw [hrp, hp1l], by rw [hrl, hl1l], ?_, ?_, ?_, ?_⟩
    · simp only [do_create_loop, hv1, hp1, hl1]
      exact hr
    · intro p t i mp ht hmp
      have hil : i < t.mpoly.length := by
        by_contra hge
        rw [List.getElem?_eq_none (by omega)] at hmp
        cases hmp
      cases p with
      | zero =>
        simp only [List.getElem?_cons_zero, Option.some.injEq] at ht
        subst ht
        rw [polystart_at_zero, loopstart_at_zero, Nat.add_zero, Nat.add_zero,
          hqp (ps + i) (by unfold Shard.totpoly; omega),
          hp1i i (by rw [List.length_map]; exact hil), List.getElem?_map, hmp]
        rfl
      | succ p =>
        simp only [List.getElem?_cons_succ] at ht
        have := hpoly p t i mp ht hmp
        rw [polystart_at_succ, loopstart_at_succ]
        rw [show ps + (s.totpoly + polystart_at rest p) + i
            = ps + s.totpoly + polystart_at rest p + i by omega,
          show ls + (s.totloop + loopstart_at rest p) = ls + s.totloop + loopstart_at rest p
            by omega]
        exact this
    · intro p t j ml ht hml
      have hjl : j < t.mloop.length := by
        by_contra hge
        rw [List.getElem?_eq_none (by omega)] at hml
        cases hml
      cases p with
      | zero =>
        simp only [List.getElem?_cons_zero, Option.some.injEq] at ht
        subst ht
        rw [loopstart_at_zero, vertstart_at_zero, Nat.add_zero, Nat.add_zero,
          hql (ls + j) (by unfold Shard.totloop; omega),
          hl1i j (by rw [List.length_map]; exact hjl), List.getElem?_map, hml]
        rfl
      | succ p =>
        simp only [List.getElem?_cons_succ] at ht
        have := hloop p t j ml ht hml
        rw [loopstart_at_succ, vertstart_at_succ]
        rw [show ls + (s.totloop + loopstart_at rest p) + j
            = ls + s.totloop + loopstart_at rest p + j by omega,
          show vs + (s.totvert + vertstart_at rest p) = vs + s.totvert + vertstart_at rest p
            by omega]
        exact this
    · intro q hq
      rw [hqp q (by omega), hp1q q hq]
    · intro q hq
      rw [hql q (by omega), hl1q q hq]

theorem create_dm_layout (shards : List Shard) :
    ∃ dm, create_dm shards = some dm
      ∧ dm.mvert.length = (shards.map Shard.totvert).sum
      ∧ dm.mpoly.length = (shards.map Shard.totpoly).sum
      ∧ dm.mloop.length = (shards.map Shard.totloop).sum
      ∧ (∀ (p : Nat) (s : Shard) (i : Nat) (mp : MPoly), shards[p]? = some s →
          s.mpoly[i]? = some mp →
          dm.mpoly[polystart_at shards p + i]?
            = some ⟨mp.loopstart + (loopstart_at shards p : Int), mp.totloop⟩)
      ∧ (∀ (p : Nat) (s : Shard) (j : Nat) (ml : MLoop), shards[p]? = some s →
          s.mloop[j]? = some ml →
          dm.mloop[loopstart_at shards p + j]?
            = some ⟨ml.v + (vertstart_at shards p : Int)⟩) := by
  obtain ⟨dm, hdm, _, hv⟩ := create_dm_spec shards
  obtain ⟨r, hr, hrp, hrl, hpoly, hloop, _, _⟩ := do_create_loop_layout shards 0 0 0
    ⟨List.replicate (shards.map Shard.totvert).sum ⟨(0, 0, 0)⟩,
     List.replicate (shards.map Shard.totpoly).sum ⟨0, 0⟩,
     List.replicate (shards.map Shard.totloop).sum ⟨0⟩⟩
    (by simp) (by simp) (by simp)
  have hsame : create_dm shards = some r := hr
  rw [hdm] at hsame
  cases hsame
  simp only [List.length_replicate] at hrp hrl
  refine ⟨dm, hdm, hv, hrp, hrl, ?_, ?_⟩
  · intro p s i mp hs hmp
    have := hpoly p s i mp hs hmp
    simp only [Nat.zero_add] at this
    exact this
  · intro p s j ml hs hml
    have := hloop p s j ml hs hml
    simp only [Nat.zero_add] at this
    exact this

theorem start_at_bounds (shards : List Shard) (p : Nat) (s : Shard) (h : shards[p]? = some s) :
    vertstart_at shards p + s.totvert ≤ (shards.map Shard.totvert).sum
      ∧ polystart_at shards p + s.totpoly ≤ (shards.map Shard.totpoly).sum
      ∧ loopstart_at shards p + s.totloop ≤ (shards.map Shard.totloop).sum := by
  unfold vertstart_at polystart_at loopstart_at
  rw [List.map_take, List.map_take, List.map_take]
  exact ⟨leading_sum_le _ p _ (by rw [List.getElem?_map, h]; rfl),
    leading_sum_le _ p _ (by rw [List.getElem?_map, h]; rfl),
    leading_sum_le _ p _ (by rw [List.getElem?_map, h]; rfl)⟩

/-- C27: `create_dm` returns the combined mesh of the shard list.  For the shard at list
position `p`, with `V_p`, `P_p` and `L_p` the sums of `totvert`, `totpoly` and `totloop`
over the shards before it, the combined polygon `P_p + i` is the polygon `i` of the shard
with `loopstart` moved by `L_p` and the same `totloop`, and the combined loop `L_p + j` is
the loop `j` of the shard with its vertex index moved by `V_p`.  If every shard is well
formed (every loop names a vertex of the shard, every polygon has its loop range inside
the loops of the shard), the combined mesh is well formed, and every loop of a polygon
of the shard `p` names a vertex in `[V_p, V_p + totvert_p)`. -/
theorem combined_mesh_layout (shards : List Shard) :
    ∃ dm, create_dm shards = some dm
      ∧ (∀ (p : Nat) (s : Shard), shards[p]? = some s →
          (∀ (i : Nat) (mp : MPoly), s.mpoly[i]? = some mp →
            dm.mpoly[polystart_at shards p + i]?
              = some ⟨mp.loopstart + (loopstart_at shards p : Int), mp.totloop⟩)
          ∧ (∀ (j : Nat) (ml : MLoop), s.mloop[j]? = some ml →
            dm.mloop[loopstart_at shards p + j]?
              = some ⟨ml.v + (vertstart_at shards p : Int)⟩))
      ∧ ((∀ s ∈ shards, s.well_formed) →
          dm.well_formed
            ∧ ∀ (p : Nat) (s : Shard) (i : Nat) (mp : MPoly), shards[p]? = some s →
                i < s.totpoly → dm.mpoly[polystart_at shards p + i]? = some mp →
                ∀ (l : Nat) (ml : MLoop), mp.loopstart ≤ (l : Int) →
                  (l : Int) < mp.loopstart + mp.totloop → dm.mloop[l]? = some ml →
                  (vertstart_at shards p : Int) ≤ ml.v
                    ∧ ml.v < ((vertstart_at shards p + s.totvert : Nat) : Int)) := by
  obtain ⟨dm, hdm, hv, hp, hl, hpoly, hloop⟩ := create_dm_layout shards
  refine ⟨dm, hdm, fun p s hs => ⟨fun i mp => hpoly p s i mp hs, fun j ml => hloop p s j ml hs⟩,
    ?_⟩
  intro hwf
  refine ⟨⟨?_, ?_⟩, ?_⟩
  · intro ml hml
    obtain ⟨q, hq⟩ := List.mem_iff_getElem?.mp hml
    have hql : q < (shards.map Shard.totloop).sum := by
      by_contra hge
      rw [List.getElem?_eq_none (by omega)] at hq
      cases hq
    obtain ⟨p, n, j, hpn, hj, hqe⟩ := leading_sum_decompose _ q hql
    rw [List.getElem?_map] at hpn
    cases hs : shards[p]? with
    | none => rw [hs] at hpn; cases hpn
    | some s =>
      rw [hs] at hpn
      simp only [Option.map_some', Option.some.injEq] at hpn
      subst hpn
      have hb := (start_at_bounds shards p s hs).1
      have := hloop p s j (s.mloop[j]) hs (List.getElem?_eq_getElem hj)
      rw [← List.map_take] at hqe
      unfold loopstart_at at this
      rw [← hqe, hq] at this
      simp only [Option.some.injEq] at this
      obtain ⟨w0, w1⟩ := (hwf s (List.mem_iff_getElem?.mpr ⟨p, hs⟩)).1 _ (List.getElem_mem hj)
      rw [this]
      simp only
      rw [hv]
      constructor
      · omega
      · have : ((vertstart_at shards p + s.totvert : Nat) : Int)
            ≤ (((shards.map Shard.totvert).sum : Nat) : Int) := by exact_mod_cast hb
        push_cast at this
        omega
  · intro mp hmp
    obtain ⟨q, hq⟩ := List.mem_iff_getElem?.mp hmp
    have hql : q < (shards.map Shard.totpoly).sum := by
      by_contra hge
      rw [List.getElem?_eq_none (by omega)] at hq
      cases hq
    obtain ⟨p, n, i, hpn, hi, hqe⟩ := leading_sum_decompose _ q hql
    rw [List.getElem?_map] at hpn
    cases hs : shards[p]? with
    | none => rw [hs] at hpn; cases hpn
    | some s =>
      rw [hs] at hpn
      simp only [Option.map_some', Option.some.injEq] at hpn
      subst hpn
      have hb := (start_at_bounds shards p s hs).2.2
      have := hpoly p s i (s.mpoly[i]) hs (List.getElem?_eq_getElem hi)
      rw [← List.map_take] at hqe
      unfold polystart_at at this
      rw [← hqe, hq] at this
      simp only [Option.some.injEq] at this
      obtain ⟨w0, w1, w2⟩ := (hwf s (List.mem_iff_getElem?.mpr ⟨p, hs⟩)).2 _
        (List.getElem_mem hi)
      rw [this]
      simp only
      rw [hl]
      have hb2 : loopstart_at shards p + s.mloop.length ≤ (shards.map Shard.totloop).sum := hb
      have hb' : (loopstart_at shards p : Int) + (s.mloop.length : Int)
          ≤ (((shards.map Shard.totloop).sum : Nat) : Int) := by exact_mod_cast hb2
      refine ⟨by omega, w1, by omega⟩
  · intro p s i mp hs hi hmp l ml hl1 hl2 hml
    have h0 := hpoly p s i (s.mpoly[i]) hs (List.getElem?_eq_getElem hi)
    rw [hmp] at h0
    simp only [Option.some.injEq] at h0
    obtain ⟨w0, w1, w2⟩ := (hwf s (List.mem_iff_getElem?.mpr ⟨p, hs⟩)).2 _
      (List.getElem_mem hi)
    rw [h0] at hl1 hl2
    simp only at hl1 hl2
    have hj : l - loopstart_at shards p < s.mloop.length := by omega
    have h1 := hloop p s (l - loopstart_at shards p) (s.mloop[l - loopstart_at shards p]) hs
      (List.getElem?_eq_getElem hj)
    rw [show loopstart_at shards p + (l - loopstart_at shards p) = l by omega, hml] at h1
    simp only [Option.some.injEq] at h1
    obtain ⟨v0, v1⟩ := (hwf s (List.mem_iff_getElem?.mpr ⟨p, hs⟩)).1 _ (List.getElem_mem hj)
    rw [h1]
    simp only
    push_cast
    constructor <;> omega

/-! ### The shard count a pass leaves -/

theorem finish_pass_count (mat : Mat4) (mode : Mode) (su : PassSetup) (fm6 : FracMesh)
    (tempresults : List (Option Shard)) :
    (finish_pass mat mode su fm6 tempresults).shard_count
      = ((if count_results tempresults = 0 then fm6.shard_map.length
          else count_results tempresults : Nat) : Int) := by
  unfold finish_pass
  simp only [add_results_spec, zero_add]
  by_cases hc : count_results tempresults = 0
  · simp only [hc, Nat.cast_zero, if_true, List.length_append, added_shards_length, Nat.add_zero]
  · have hne : ((count_results tempresults : Nat) : Int) ≠ 0 := by exact_mod_cast hc
    simp only [hne, hc, if_false]

/-- C28 (the code diverges): a pass of `parse_cells` that found its parent leaves the map
as the shards it kept followed by the shards it added, and `shard_count` as the number
of the added shards when there is one, as the number of the kept shards otherwise.  So
`shard_count` is the length of the map exactly when the pass kept no shard (as after a
reset) or added none; an incremental pass that keeps some shards and adds others leaves a
`shard_count` below the length of the map. -/
theorem pass_counts_added_shards (K : Kernel) (cells : List cell) (parent_id : Int)
    (fm fm1 : FracMesh) (algorithm : Algorithm) (dm : Option Mesh) (mat : Mat4) (mode : Mode)
    (reset : Bool) (rng : Nat) (p0 : ShardRef)
    (hp : BKE_shard_by_id K fm parent_id dm = some p0)
    (h : parse_cells K cells parent_id fm algorithm dm mat mode reset rng = some fm1) :
    ∃ kept added, fm1.shard_map = kept ++ added
      ∧ kept.Sublist (parse_cells_setup fm p0 parent_id algorithm mode reset).fm.shard_map
      ∧ fm1.shard_count = ((if added.length = 0 then kept.length else added.length : Nat) : Int)
      ∧ (reset = true → kept = [])
      ∧ (fm1.shard_count = (fm1.shard_map.length : Int) ↔ kept = [] ∨ added = []) := by
  obtain ⟨pre, r, hpre, hr, hfm1⟩ := parse_cells_some K cells parent_id fm fm1 algorithm dm mat
    mode reset rng p0 hp h
  have hsub := do_prepare_cells_sublist _ _ _ _ _ _ hpre
  have hprog := refine_cells_fm K cells.length algorithm _ pre rng r hr
  have hmap : r.1.shard_map = pre.fm.shard_map := by
    have := congrArg FracMesh.shard_map hprog
    exact this
  have hlen := added_shards_length mat
    (id_offset mode r.1.shard_map)
    (parse_cells_setup fm p0 parent_id algorithm mode reset).parent_id
    (parse_cells_setup fm p0 parent_id algorithm mode reset).pcentroid r.2 0
  have hcount : fm1.shard_count
      = ((if (added_shards mat (id_offset mode r.1.shard_map)
            (parse_cells_setup fm p0 parent_id algorithm mode reset).parent_id
            (parse_cells_setup fm p0 parent_id algorithm mode reset).pcentroid 0 r.2).length = 0
          then r.1.shard_map.length
          else (added_shards mat (id_offset mode r.1.shard_map)
            (parse_cells_setup fm p0 parent_id algorithm mode reset).parent_id
            (parse_cells_setup fm p0 parent_id algorithm mode reset).pcentroid 0 r.2).length
            : Nat) : Int) := by
    rw [hfm1, finish_pass_count, hlen]
  have hshards : fm1.shard_map = r.1.shard_map ++ added_shards mat (id_offset mode r.1.shard_map)
      (parse_cells_setup fm p0 parent_id algorithm mode reset).parent_id
      (parse_cells_setup fm p0 parent_id algorithm mode reset).pcentroid 0 r.2 := by
    rw [hfm1, finish_pass_shard_map]
  refine ⟨r.1.shard_map, _, hshards, by rw [hmap]; exact hsub, hcount, ?_, ?_⟩
  · intro hreset
    have hempty := (parse_cells_setup_empty fm p0 parent_id algorithm mode reset
      (Or.inl hreset)).1
    rw [hmap]
    rw [hempty] at hsub
    exact List.sublist_nil.mp hsub
  · rw [hcount, hshards, List.length_append]
    constructor
    · intro heq
      split at heq
      · rename_i h0
        exact Or.inr (List.length_eq_zero.mp h0)
      · left
        apply List.length_eq_zero.mp
        have : (added_shards mat (id_offset mode r.1.shard_map)
            (parse_cells_setup fm p0 parent_id algorithm mode reset).parent_id
            (parse_cells_setup fm p0 parent_id algorithm mode reset).pcentroid 0 r.2).length
            = r.1.shard_map.length + (added_shards mat (id_offset mode r.1.shard_map)
            (parse_cells_setup fm p0 parent_id algorithm mode reset).parent_id
            (parse_cells_setup fm p0 parent_id algorithm mode reset).pcentroid 0 r.2).length := by
          exact_mod_cast heq
        omega
    · intro hor
      rcases hor with hk | ha
      · rw [hk]
        simp only [List.length_nil, Nat.zero_add]
        split
        · rename_i h0; rw [h0]
        · rfl
      · rw [ha]
        simp

/-- C28, at a concrete input: the incremental pass of `example_fracmesh` over the moved
point cloud keeps one shard and adds two; it leaves three shards in the map and the
`shard_count` 2. -/
theorem pass_counts_added_shards_witness :
    example_incremental_pass.shard_map.length = 3
      ∧ example_incremental_pass.shard_count = 2
      ∧ ∃ kept added, example_incremental_pass.shard_map = kept ++ added
          ∧ example_incremental_pass.shard_count
              = ((if added.length = 0 then kept.length else added.length : Nat) : Int) := by
  refine ⟨by decide!, by decide!, ?_⟩
  obtain ⟨p0, hp⟩ : ∃ p0, BKE_shard_by_id example_kernel example_fracmesh (-1)
      (some example_dm) = some p0 :=
    Option.isSome_iff_exists.mp (by decide!)
  obtain ⟨kept, added, h1, _, h3, _, _⟩ := pass_counts_added_shards example_kernel
    example_cells_moved (-1) example_fracmesh example_incremental_pass .BOOLEAN
    (some example_dm) unit_m4 .PREFRACTURED false 0 p0 hp (eq_some_getD _ _ (by decide!))
  exact ⟨kept, added, h1, h3⟩

/-! ### The stores of the pairwise splitters -/

theorem fast_bisect_store_overrun (K : Kernel) (algorithm : Algorithm) (parent_id : Int)
    (left i : Nat) (st : FastState) (t0 s s2 : Shard)
    (hcancel : st.fm.cancel ≠ 1)
    (ht : st.tempshards[i]? = some (some t0))
    (hvalid : (t0.tag parent_id).invalid = false)
    (hs : K.shard_bisect st.bm_parent (t0.tag parent_id)
      (decide (algorithm = .BISECT_FAST_FILL)) false true
      (fast_bisect_index K st.rng (t0.tag parent_id)) st.centroid = some s)
    (hs2 : K.shard_bisect st.bm_parent (t0.tag parent_id)
      (decide (algorithm = .BISECT_FAST_FILL)) true false
      (fast_bisect_index K st.rng (t0.tag parent_id)) st.centroid = some s2)
    (hlen : st.tempresults.length = i + 1) :
    array_set (st.tempresults.set i (some (s.tag parent_id))) (i + 1)
        (some (s2.tag parent_id)) = none
      ∧ handle_fast_bisect_loop K (i + 1) algorithm parent_id (left + 1) i st = none := by
  have h1 : array_set st.tempresults i (some (s.tag parent_id))
      = some (st.tempresults.set i (some (s.tag parent_id))) := by
    simp only [array_set]; rw [if_pos]; omega
  have h2 : array_set (st.tempresults.set i (some (s.tag parent_id))) (i + 1)
        (some (s2.tag parent_id)) = none := by
    simp only [array_set]; rw [if_neg]; rw [List.length_set]; omega
  refine ⟨h2, ?_⟩
  simp only [fast_bisect_index] at hs hs2
  simp only [handle_fast_bisect_loop, if_neg hcancel, ht, hvalid, Bool.false_eq_true,
    if_false, hs, hs2, h1, h2]

/-- With an odd number of entries left from the index `i` on, valid cells, bisections that
always return a shard and a sort that only rearranges the entries, the loop of
`handle_fast_bisect` reaches the last index and stores past the end of `tempresults`. -/
theorem fast_bisect_odd_count_overruns (K : Kernel) (E : Nat) (algorithm : Algorithm)
    (parent_id : Int)
    (hbis : ∀ bm t fill ci co idx c, (K.shard_bisect bm t fill ci co idx c).isSome = true)
    (hperm : ∀ l, (K.qsort_r l).Perm l) :
    ∀ (r i : Nat) (st : FastState),
      st.fm.cancel ≠ 1 →
      (∀ idx, i ≤ idx → idx < E → ∃ t, st.tempshards[idx]? = some (some t) ∧ t.invalid = false) →
      st.tempresults.length = E →
      i + 2 * r + 1 = E →
      handle_fast_bisect_loop K E algorithm parent_id (2 * r + 1) i st = none := by
  intro r
  induction r with
  | zero =>
    intro i st hc hts htr hE
    obtain ⟨t0, ht0, hinv⟩ := hts i (le_refl _) (by omega)
    have hinv1 : (t0.tag parent_id).invalid = false := by rw [tag_invalid]; exact hinv
    obtain ⟨s, hs⟩ := Option.isSome_iff_exists.mp (hbis st.bm_parent (t0.tag parent_id)
      (decide (algorithm = .BISECT_FAST_FILL)) false true
      (fast_bisect_index K st.rng (t0.tag parent_id)) st.centroid)
    obtain ⟨s2, hs2⟩ := Option.isSome_iff_exists.mp (hbis st.bm_parent (t0.tag parent_id)
      (decide (algorithm = .BISECT_FAST_FILL)) true false
      (fast_bisect_index K st.rng (t0.tag parent_id)) st.centroid)
    have hE1 : E = i + 1 := by omega
    subst hE1
    exact (fast_bisect_store_overrun K algorithm parent_id 0 i st t0 s s2 hc ht0 hinv1 hs hs2
      htr).2
  | succ r ih =>
    intro i st hc hts htr hE
    obtain ⟨t0, ht0, hinv⟩ := hts i (le_refl _) (by omega)
    have hinv1 : (t0.tag parent_id).invalid = false := by rw [tag_invalid]; exact hinv
    obtain ⟨s, hs⟩ := Option.isSome_iff_exists.mp (hbis st.bm_parent (t0.tag parent_id)
      (decide (algorithm = .BISECT_FAST_FILL)) false true
      (fast_bisect_index K st.rng (t0.tag parent_id)) st.centroid)
    obtain ⟨s2, hs2⟩ := Option.isSome_iff_exists.mp (hbis st.bm_parent (t0.tag parent_id)
      (decide (algorithm = .BISECT_FAST_FILL)) true false
      (fast_bisect_index K st.rng (t0.tag parent_id)) st.centroid)
    obtain ⟨sj, j, r3, _, hr3, _, _, hloop⟩ := fast_bisect_step K E algorithm parent_id
      (2 * r + 1) i st t0 s s2 hc ht0 hinv1 hs hs2 (by omega) (by omega) hperm
    rw [show 2 * (r + 1) + 1 = 2 * r + 1 + 2 by ring, hloop]
    refine ih (i + 2) _ hc ?_ ?_ (by omega)
    · intro idx h1 h2
      show ∃ t, (st.tempshards.set i (some (t0.tag parent_id)))[idx]? = some (some t)
        ∧ t.invalid = false
      rw [List.getElem?_set_ne (by omega)]
      exact hts idx (by omega) h2
    · show (r3.set j none).length = E
      rw [List.length_set, hr3, qsort_first_length K hperm]
      simp only [List.length_set]
      exact htr

/-- C29 (the code diverges): `tempresults` has `expected_shards` entries.  When the loop
of `handle_fast_bisect` reaches the last index `i = expected_shards - 1` with a valid
cell and both bisections return a shard, the store `(*tempresults)[i + 1] = s2` is past
the end of the array; the same holds for the store `(*tempresults)[(*i) + 1] = s` of
`handle_boolean_fractal` when the cut gives two fragments at the last index. -/
theorem pair_store_past_the_end (K : Kernel) (algorithm : Algorithm) (parent_id : Int)
    (left i : Nat) (st : FastState) (t0 s s2 : Shard) (t f f2 : Shard)
    (dm_parent dm_p : Option Mesh) (rng : Nat) (tempresults : List (Option Shard))
    (hcancel : st.fm.cancel ≠ 1)
    (ht : st.tempshards[i]? = some (some t0))
    (hvalid : (t0.tag parent_id).invalid = false)
    (hs : ∀ idx, K.shard_bisect st.bm_parent (t0.tag parent_id)
      (decide (algorithm = .BISECT_FAST_FILL)) false true idx st.centroid = some s)
    (hs2 : ∀ idx, K.shard_bisect st.bm_parent (t0.tag parent_id)
      (decide (algorithm = .BISECT_FAST_FILL)) true false idx st.centroid = some s2)
    (hlen : st.tempresults.length = i + 1)
    (hcut : (fractal_retry K (if i = 0 then dm_parent else dm_p) t max_retries rng 0).s = some f)
    (hcut2 : (fractal_retry K (if i = 0 then dm_parent else dm_p) t max_retries rng 0).s2
      = some f2)
    (hlen2 : tempresults.length = i + 1) :
    (array_set (st.tempresults.set i (some (s.tag parent_id))) (i + 1)
          (some (s2.tag parent_id)) = none
        ∧ handle_fast_bisect_loop K (i + 1) algorithm parent_id (left + 1) i st = none)
      ∧ (array_set tempresults (i + 1) (some (f.tag parent_id)) = none
        ∧ handle_boolean_fractal K t (i + 1) dm_parent parent_id i tempresults dm_p rng
          = none) := by
  have h3 : array_set tempresults (i + 1) (some (f.tag parent_id)) = none := by
    simp only [array_set]; rw [if_neg]; omega
  have hg : (fractal_retry K (if i = 0 then dm_parent else dm_p) t max_retries rng 0).gave_up
      = false :=
    (fractal_retry_spec K _ t max_retries rng 0).2.2.2 ⟨by rw [hcut]; simp, by rw [hcut2]; simp⟩
  refine ⟨fast_bisect_store_overrun K algorithm parent_id left i st t0 s s2 hcancel ht hvalid
    (hs _) (hs2 _) hlen, h3, ?_⟩
  unfold handle_boolean_fractal
  simp only [hg, Bool.false_eq_true, if_false, hcut, hcut2, h3]

/-- C29, at a concrete input: three cells.  The loop of `handle_fast_bisect` at the index
2 and `handle_boolean_fractal` at the index 2 store past the end of the three entries;
the whole fast bisect of three cells and the passes over three cells with the fast bisect
and the fractal algorithm run into these stores. -/
theorem pair_store_past_the_end_witness :
    (handle_fast_bisect example_kernel 3 .BISECT_FAST (-1) example_odd_state).isNone = true
      ∧ (parse_cells example_kernel example_cells (-1) BKE_create_fracture_container
          .BISECT_FAST (some example_dm) unit_m4 .PREFRACTURED false 0).isNone = true
      ∧ (parse_cells example_kernel example_cells (-1) BKE_create_fracture_container
          .BOOLEAN_FRACTAL (some example_dm) unit_m4 .PREFRACTURED false 0).isNone = true
      ∧ (array_set (example_odd_state.tempresults.set 2
            (some (Shard.tag ((parse_cell (example_cell (2, 0, 0) 1 [1])).tag (-1)) (-1))))
            (2 + 1) (some (Shard.tag ((parse_cell (example_cell (2, 0, 0) 1 [1])).tag (-1)) (-1)))
            = none
          ∧ handle_fast_bisect_loop example_kernel (2 + 1) .BISECT_FAST (-1) (0 + 1) 2
              example_odd_state = none)
      ∧ (array_set [none, none, none] (2 + 1)
            (some ((parse_cell (example_cell (2, 0, 0) 1 [1])).tag (-1))) = none
          ∧ handle_boolean_fractal example_kernel (parse_cell (example_cell (2, 0, 0) 1 [1]))
              (2 + 1) none (-1) 2 [none, none, none] none 0 = none) := by
  refine ⟨by decide!, by decide!, by decide!, ?_⟩
  exact pair_store_past_the_end example_kernel .BISECT_FAST (-1) 0 2 example_odd_state
    (parse_cell (example_cell (2, 0, 0) 1 [1])) _ _
    (parse_cell (example_cell (2, 0, 0) 1 [1])) (parse_cell (example_cell (2, 0, 0) 1 [1]))
    (parse_cell (example_cell (2, 0, 0) 1 [1])) none none 0 [none, none, none]
    (by decide) rfl (by decide!) (fun _ => rfl) (fun _ => rfl) rfl (by decide!) (by decide!) rfl

/-! ### The deletion loop without a diff cache -/

theorem parse_cells_setup_no_cache (fm : FracMesh) (p0 : ShardRef) (parent_id : Int)
    (algorithm : Algorithm) (mode : Mode) (reset : Bool)
    (hmode : reset = true ∨ mode = .DYNAMIC) :
    (parse_cells_setup fm p0 parent_id algorithm mode reset).fm.last_shards = none
      ∧ (parse_cells_setup fm p0 parent_id algorithm mode reset).fm.last_shard_tree = none
      ∧ (parse_cells_setup fm p0 parent_id algorithm mode reset).fm.shard_count
          = fm.shard_count - (if mode = .DYNAMIC then 1 else 0) := by
  have hcond : ¬ (mode = .PREFRACTURED ∧ reset = false) := by
    rintro ⟨h1, h2⟩
    rcases hmode with h | h
    · rw [h] at h2; cases h2
    · rw [h] at h1; cases h1
  cases mode <;> cases reset
  · exact absurd ⟨rfl, rfl⟩ hcond
  · simp [parse_cells_setup, rebuild_last_shards, reset_shard_map, mark_fractured]
  · simp only [parse_cells_setup, rebuild_last_shards, reset_shard_map, mark_fractured,
      unlink_parent]
    cases p0.pos <;> simp
  · simp [parse_cells_setup, rebuild_last_shards, reset_shard_map, mark_fractured,
      unlink_parent]

theorem delete_shards_null_array (d : List Int) (slots : List (Option Shard)) :
    delete_shards (1 :: d) 0 slots none = none := by
  simp [delete_shards]

/-- C30 (the code diverges): in a pass with a fast bisect or the fractal algorithm that
resets the map or runs in dynamic mode, `parse_cells` hands `do_prepare_cells` a FracMesh
without the array `last_shards`; if its `shard_count` is positive then (it is the old
count, less one in dynamic mode), the delete map is all ones, and the deletion loop reads
`last_shards[0]` through the null pointer. -/
theorem deletion_loop_reads_null_array (K : Kernel) (cells : List cell) (parent_id : Int)
    (fm : FracMesh) (algorithm : Algorithm) (dm : Option Mesh) (mat : Mat4) (mode : Mode)
    (reset : Bool) (rng : Nat) (p0 : ShardRef)
    (hp : BKE_shard_by_id K fm parent_id dm = some p0)
    (halg : algorithm = .BISECT_FAST ∨ algorithm = .BISECT_FAST_FILL
      ∨ algorithm = .BOOLEAN_FRACTAL)
    (hmode : reset = true ∨ mode = .DYNAMIC)
    (hcount : 0 < fm.shard_count - (if mode = .DYNAMIC then 1 else 0)) :
    (∃ m, prepare_maps (parse_cells_setup fm p0 parent_id algorithm mode reset).fm cells
          algorithm = some m
        ∧ m.deletemap[0]? = some 1)
      ∧ ¬ deletion_read_in_bounds
          (parse_cells_setup fm p0 parent_id algorithm mode reset).fm.last_shards 0
      ∧ parse_cells K cells parent_id fm algorithm dm mat mode reset rng = none := by
  obtain ⟨hls, htree, hsc⟩ := parse_cells_setup_no_cache fm p0 parent_id algorithm mode reset
    hmode
  rw [← hsc] at hcount
  obtain ⟨n, hn⟩ : ∃ n : Nat,
      (parse_cells_setup fm p0 parent_id algorithm mode reset).fm.shard_count
        = ((n + 1 : Nat) : Int) :=
    ⟨((parse_cells_setup fm p0 parent_id algorithm mode reset).fm.shard_count - 1).toNat,
      by omega⟩
  have hmaps : prepare_maps (parse_cells_setup fm p0 parent_id algorithm mode reset).fm cells
      algorithm = some ⟨List.replicate cells.length 0, List.replicate (n + 1) 1⟩ := by
    unfold prepare_maps fill_vn_i
    simp only [halg, if_true, htree, hn]
    rw [if_neg (by omega)]
    simp
  refine ⟨⟨_, hmaps, by simp⟩, ?_, ?_⟩
  · rintro ⟨arr, harr, _⟩
    rw [hls] at harr
    cases harr
  · unfold parse_cells do_prepare_cells
    simp only [hp, hmaps, hls, List.replicate_succ, delete_shards_null_array, ite_self]

/-- C30, at a concrete input: a pass with the fast bisect and a reset over the FracMesh
`example_fracmesh`, whose `shard_count` is 3. -/
theorem deletion_loop_reads_null_array_witness :
    example_fracmesh.shard_count = 3
      ∧ ∃ p0, BKE_shard_by_id example_kernel example_fracmesh (-1) (some example_dm) = some p0
        ∧ (∃ m, prepare_maps
              (parse_cells_setup example_fracmesh p0 (-1) .BISECT_FAST .PREFRACTURED true).fm
              example_far_cells .BISECT_FAST = some m
            ∧ m.deletemap[0]? = some 1)
        ∧ ¬ deletion_read_in_bounds
            (parse_cells_setup example_fracmesh p0 (-1) .BISECT_FAST .PREFRACTURED
              true).fm.last_shards 0
        ∧ parse_cells example_kernel example_far_cells (-1) example_fracmesh .BISECT_FAST
            (some example_dm) unit_m4 .PREFRACTURED true 0 = none := by
  refine ⟨by decide!, ?_⟩
  obtain ⟨p0, hp⟩ : ∃ p0, BKE_shard_by_id example_kernel example_fracmesh (-1)
      (some example_dm) = some p0 :=
    Option.isSome_iff_exists.mp (by decide!)
  exact ⟨p0, hp, deletion_loop_reads_null_array example_kernel example_far_cells (-1)
    example_fracmesh .BISECT_FAST (some example_dm) unit_m4 .PREFRACTURED true 0 p0 hp
    (Or.inl rfl) (Or.inl rfl) (by decide!)⟩

end Fracture
